import Mathlib

/-!
Verification development for the townscout native compute core.

The Rust sources embedded here:
  * `src/vicinity_native/src/lib.rs` — K-best label store (`insert_label_for_node`),
    bucket (Dial) multi-source K-best engine (`compute_chunk`,
    `kbest_multisource_bucket_csr`), hex aggregation (`update_topk`,
    `aggregate_h3_topk_precached`), CSR builder (`build_csr_from_arrays`);
  * `src/townscout_native/src/ch.rs` — CH query engine (`run_phast`,
    `query_subset`, `build_input_graph`).

Modelling conventions (shallow embedding):
  * `u16` times become `ℕ` values with explicit saturation `min (· + ·) 65535`
    at the points where the source uses `saturating_add`; the sentinel is 65535.
  * `i32` anchor ids become `ℤ` (the sentinel is -1); node ordinals that the
    source immediately casts to `usize` become `ℕ`.
  * The flat `[N*K]` label arrays (`best_src`, `time_s`) are modelled as `N`
    per-node stores, each a length-`K` list of `(src, time)` pairs — the source
    always reads and writes the two arrays at the same `node*k + j` offset.
  * `u8` counters (`labels_used`, `primary_count`) become `ℕ`;
    `saturating_add(1)` on `primary_count` becomes `min (· + 1) 255`.
  * Rust `Vec` used as a stack (bucket push/pop at the back) becomes a Lean
    list used as a stack (cons / head).
  * `FxHashMap` becomes an association list with insert-by-shadowing
    (lookup returns the most recent binding).
  * `while` loops become fuel-indexed recursion returning `Option`; `none`
    means the fuel ran out before the loop's own exit condition fired, so any
    `some` result is the value the Rust loop computes.
-/

namespace Townscout

/-- `UNREACHABLE` sentinel from the source (`const UNREACHABLE: u16 = 65535`). -/
def UNREACHABLE : ℕ := 65535

/-- An empty label slot: `best_src = -1`, `time_s = UNREACHABLE`. -/
def emptySlot : ℤ × ℕ := (-1, UNREACHABLE)

/-- Per-node label store: the `k` slots of `best_src`/`time_s` plus the
`labels_used` and `primary_count` counters. -/
structure LabelStore where
  slots : List (ℤ × ℕ)
  used : ℕ
  primary : ℕ
deriving DecidableEq

/-- The all-empty store of capacity `k` (arrays filled with sentinels,
counters zero). -/
def emptyStore (k : ℕ) : LabelStore := ⟨List.replicate k emptySlot, 0, 0⟩

/-- `primary_count[node].saturating_add(1)` on a `u8`. -/
def satAdd255 (p : ℕ) : ℕ := min (p + 1) 255

/-- `bubble_left_inner` from `insert_label_for_node`: starting at position
`pos`, swap the slot with its left neighbour while its time is strictly
smaller, moving left until sorted or position 0. -/
def bubble_left (l : List (ℤ × ℕ)) : ℕ → List (ℤ × ℕ)
  | 0 => l
  | j + 1 =>
    let cur := l.getD (j + 1) emptySlot
    let prev := l.getD j emptySlot
    if cur.2 < prev.2 then
      bubble_left ((l.set (j + 1) prev).set j cur) (j)
    else l

/-- The scan `for j in 0..used { if best_src[base+j] == src_idx { ... } }`:
first position below `used` already holding `src`. -/
def find_src (slots : List (ℤ × ℕ)) (used : ℕ) (src : ℤ) : Option ℕ :=
  (List.range used).find? (fun j => (slots.getD j emptySlot).1 == src)

/-- The scan `let mut ins = used; for j in 0..used { if t < time_s[base+j] {
ins = j; break } }`: first position whose time exceeds `t`, else `used`. -/
def ins_pos (slots : List (ℤ × ℕ)) (used : ℕ) (t : ℕ) : ℕ :=
  ((List.range used).find? (fun j => decide (t < (slots.getD j emptySlot).2))).getD used

/-- The shifting loop `while j2 > ins { slot[j2] = slot[j2-1]; j2 -= 1 }`,
invoked with `j2 = used`. -/
def shift_right (l : List (ℤ × ℕ)) (ins : ℕ) : ℕ → List (ℤ × ℕ)
  | 0 => l
  | j2 + 1 =>
    if ins < j2 + 1 then
      shift_right (l.set (j2 + 1) (l.getD j2 emptySlot)) ins j2
    else l

/-- The scan in the overflow branch locating the worst overflow slot:
`for j in 0..k { if time[j] > cutoff_primary && (none || time[j] > worst_t)
{ idx = j; worst_t = time[j] } }`. Returns the index and its time. -/
def worst_over (slots : List (ℤ × ℕ)) (k cp : ℕ) : Option (ℕ × ℕ) :=
  (List.range k).foldl
    (fun acc j =>
      let tj := (slots.getD j emptySlot).2
      if cp < tj then
        match acc with
        | none => some (j, tj)
        | some (_, wt) => if wt < tj then some (j, tj) else acc
      else acc)
    none

/-- `insert_label_for_node` from `src/vicinity_native/src/lib.rs`
(lines 15–115), acting on one node's store. -/
def insert_label_for_node (k : ℕ) (src : ℤ) (t : ℕ) (cp : ℕ)
    (st : LabelStore) : LabelStore :=
  match find_src st.slots st.used src with
  | some j =>
    let old := (st.slots.getD j emptySlot).2
    if t < old then
      { st with
        slots := bubble_left (st.slots.set j (src, t)) j,
        primary := if cp < old ∧ t ≤ cp then satAdd255 st.primary else st.primary }
    else st
  | none =>
    if st.used < k then
      let ins := ins_pos st.slots st.used t
      { slots := (shift_right st.slots ins st.used).set ins (src, t),
        used := st.used + 1,
        primary := if t ≤ cp then satAdd255 st.primary else st.primary }
    else
      if t ≤ cp then
        let worst := st.slots.getD (k - 1) emptySlot
        if t < worst.2 then
          { st with
            slots := bubble_left (st.slots.set (k - 1) (src, t)) (k - 1),
            primary := if worst.2 ≤ cp then st.primary else satAdd255 st.primary }
        else st
      else
        if st.primary < k then
          match worst_over st.slots k cp with
          | some (widx, _) =>
            if t < (st.slots.getD widx emptySlot).2 then
              { st with slots := bubble_left (st.slots.set widx (src, t)) widx }
            else st
          | none => st
        else st

/-! ### Label-store invariants -/

/-- Slot comparison by time. -/
def slotLe (a b : ℤ × ℕ) : Prop := a.2 ≤ b.2

instance : DecidableRel slotLe := fun a b => by unfold slotLe; infer_instance

/-- Well-formedness of a label store of capacity `k`: the populated prefix is
time-sorted with distinct non-negative anchors and times below the sentinel,
and the remaining slots hold the sentinel pair.  (`primary_count` bookkeeping
is not part of this predicate.) -/
structure StoreWF (k : ℕ) (st : LabelStore) : Prop where
  len : st.slots.length = k
  used_le : st.used ≤ k
  slots_eq : st.slots
    = st.slots.take st.used ++ List.replicate (k - st.used) emptySlot
  sorted : List.Sorted slotLe (st.slots.take st.used)
  nonneg : ∀ p ∈ st.slots.take st.used, 0 ≤ p.1
  times_le : ∀ p ∈ st.slots.take st.used, p.2 ≤ UNREACHABLE
  nodup : ((st.slots.take st.used).map Prod.fst).Nodup

/-- Scenario S3's store: anchor 0 at time 5 (primary), anchor 1 at time 40
(overflow), `K = 2`, `cutoff_primary = 10`. -/
def c3store : LabelStore := ⟨[(0, 5), (1, 40)], 2, 1⟩

/-! ## Bucket (Dial) multi-source K-best engine
`compute_chunk` and `kbest_multisource_bucket_csr`
(`src/vicinity_native/src/lib.rs` lines 227–541). -/

/-- CSR graph slices as passed to the engine: `indptr` (i64, non-negative on
valid inputs), `indices` (i32 node ordinals), `w_sec` (u16 weights). -/
structure CSR where
  indptr : List ℕ
  indices : List ℕ
  w_sec : List ℕ
deriving DecidableEq

/-- Read-only data threaded through one `compute_chunk` run. -/
structure ChunkParams where
  csr : CSR
  min_out : List ℕ
  n : ℕ
  k : ℕ
  cp : ℕ
  co : ℕ
  mask : Option (List ℕ)
deriving DecidableEq

/-- Mutable state of the `while active_count > 0` loop in `compute_chunk`. -/
structure ChunkState where
  stores : List LabelStore
  buckets : List (List (ℕ × ℕ))
  active : List Bool
  active_count : ℕ
  cur_idx : ℕ
  pair_best : List ((ℕ × ℕ) × ℕ)
  remaining_targets : ℤ
deriving DecidableEq

/-- `pair_best.get(&key)`: the association list is extended by shadowing,
so the first hit is the current binding. -/
def pb_get (pb : List ((ℕ × ℕ) × ℕ)) (key : ℕ × ℕ) : Option ℕ :=
  (pb.find? (fun e => e.1 == key)).map (·.2)

/-- The dedup test `if let Some(&best) = pair_best.get(&key) { d >= best }`. -/
def pb_hit (pb : List ((ℕ × ℕ) × ℕ)) (key : ℕ × ℕ) (d : ℕ) : Bool :=
  match pb_get pb key with
  | some b => b ≤ d
  | none => false

/-- Worst stored time of a node (`time_s[v*k + (k-1)]`). -/
def worst_time (st : LabelStore) (k : ℕ) : ℕ :=
  (st.slots.getD (k - 1) emptySlot).2

/-- One edge relaxation (body of `for e in start..end` in `compute_chunk`):
returns the updated `(buckets, active, active_count)`. -/
def relax_one (P : ChunkParams) (stores : List LabelStore)
    (pair_best : List ((ℕ × ℕ) × ℕ)) (src du : ℕ)
    (B : List (List (ℕ × ℕ)) × List Bool × ℕ) (e : ℕ) :
    List (List (ℕ × ℕ)) × List Bool × ℕ :=
  let (buckets, active, active_count) := B
  let v := P.csr.indices.getD e 0
  let w := P.csr.w_sec.getD e 0
  let nd := min (du + w) 65535
  if P.co < nd then B
  else if (stores.getD v (emptyStore P.k)).primary = P.k ∧
          worst_time (stores.getD v (emptyStore P.k)) P.k ≤ nd then B
  else if pb_hit pair_best (v, src) nd then B
  else
    let buckets' := buckets.set nd ((v, src) :: buckets.getD nd [])
    if active.getD nd false then (buckets', active, active_count)
    else (buckets', active.set nd true, active_count + 1)

/-- All relaxations of the popped pair `(u, src)` at distance `du`. -/
def relax_edges (P : ChunkParams) (stores : List LabelStore)
    (pair_best : List ((ℕ × ℕ) × ℕ)) (u src du : ℕ)
    (buckets : List (List (ℕ × ℕ))) (active : List Bool) (active_count : ℕ) :
    List (List (ℕ × ℕ)) × List Bool × ℕ :=
  let s := P.csr.indptr.getD u 0
  let e := P.csr.indptr.getD (u + 1) 0
  (List.range' s (e - s)).foldl (relax_one P stores pair_best src du)
    (buckets, active, active_count)

/-- The `while active_count > 0` loop of `compute_chunk`, fuel-indexed.
`some stores` is returned exactly when the Rust loop terminates (either
`active_count == 0` or the target-aware early `break`). -/
def compute_chunk_loop (P : ChunkParams) : ℕ → ChunkState → Option (List LabelStore)
  | 0, _ => none
  | fuel + 1, s =>
    if s.active_count = 0 then some s.stores
    else
      let blen := P.co + 1
      let acur := s.active.getD s.cur_idx false
      let bcur := s.buckets.getD s.cur_idx []
      if (!acur || bcur.isEmpty) then
        let s' : ChunkState :=
          if (acur && bcur.isEmpty) then
            { s with active := s.active.set s.cur_idx false,
                     active_count := s.active_count - 1 }
          else s
        compute_chunk_loop P fuel { s' with cur_idx := (s'.cur_idx + 1) % blen }
      else
        match bcur with
        | [] => none
        | (u, src) :: rest =>
          let du := s.cur_idx
          let buckets1 := s.buckets.set s.cur_idx rest
          if pb_hit s.pair_best (u, src) du then
            compute_chunk_loop P fuel { s with buckets := buckets1 }
          else
            let pair_best1 := ((u, src), du) :: s.pair_best
            let st_u := s.stores.getD u (emptyStore P.k)
            let skip : Bool :=
              if st_u.primary = P.k then
                if worst_time st_u P.k ≤ du then true
                else
                  let m := P.min_out.getD u 0
                  decide (0 < m ∧ worst_time st_u P.k ≤ min (du + m) 65535)
              else false
            if skip then
              compute_chunk_loop P fuel
                { s with buckets := buckets1, pair_best := pair_best1 }
            else
              let before_used := st_u.used
              let stores1 :=
                s.stores.set u (insert_label_for_node P.k (src : ℤ) du P.cp st_u)
              let hit_target : Bool :=
                (before_used == 0) &&
                  (match P.mask with
                   | some m => m.getD u 0 != 0
                   | none => false)
              let remaining1 :=
                if hit_target then s.remaining_targets - 1 else s.remaining_targets
              if (hit_target && (remaining1 == 0)) then some stores1
              else
                let (buckets2, active2, count2) :=
                  relax_edges P stores1 pair_best1 u src du buckets1 s.active
                    s.active_count
                let (active3, count3) :=
                  if ((buckets2.getD s.cur_idx []).isEmpty && active2.getD s.cur_idx false)
                  then (active2.set s.cur_idx false, count2 - 1)
                  else (active2, count2)
                compute_chunk_loop P fuel
                  { stores := stores1, buckets := buckets2, active := active3,
                    active_count := count3, cur_idx := s.cur_idx,
                    pair_best := pair_best1, remaining_targets := remaining1 }

/-- `compute_chunk`: initialisation (sources pushed into bucket 0, the bucket
marked active) followed by the main loop. -/
def compute_chunk (P : ChunkParams) (sources : List ℕ) (targets_total : ℕ)
    (fuel : ℕ) : Option (List LabelStore) :=
  let stores0 := List.replicate P.n (emptyStore P.k)
  let b0 : List (ℕ × ℕ) := sources.foldl (fun acc s => (s, s) :: acc) []
  let buckets0 := (List.replicate (P.co + 1) ([] : List (ℕ × ℕ))).set 0 b0
  let active0 := List.replicate (P.co + 1) false
  let st0 : ChunkState :=
    if b0.isEmpty then
      { stores := stores0, buckets := buckets0, active := active0,
        active_count := 0, cur_idx := 0, pair_best := [],
        remaining_targets := (targets_total : ℤ) }
    else
      { stores := stores0, buckets := buckets0, active := active0.set 0 true,
        active_count := 1, cur_idx := 0, pair_best := [],
        remaining_targets := (targets_total : ℤ) }
  compute_chunk_loop P fuel st0

/-- Per-node minimum outgoing weight (`min_out` precomputation in
`kbest_multisource_bucket_csr`): `u16::MAX` start, reset to 0 if no edge. -/
def min_out_of (csr : CSR) (n : ℕ) : List ℕ :=
  (List.range n).map (fun u =>
    let s := csr.indptr.getD u 0
    let e := csr.indptr.getD (u + 1) 0
    let m := (List.range' s (e - s)).foldl
      (fun m i => if csr.w_sec.getD i 0 < m then csr.w_sec.getD i 0 else m) 65535
    if m = 65535 then 0 else m)

/-- The chunk boundaries of the parallel path: `num_parts` ceil-divided
contiguous slices of the source list. -/
def parts_of (num_parts total : ℕ) : List (ℕ × ℕ) :=
  ((List.range num_parts).foldl
    (fun acc i =>
      let start := acc.2
      let remain := total - start
      let clen := (remain + (num_parts - i) - 1) / (num_parts - i)
      (acc.1 ++ [(start, start + clen)], start + clen))
    ([], 0)).1

/-- Candidate comparison of the merge: `(time asc, src_idx asc)`. -/
def cand_r (a b : ℕ × ℤ) : Prop :=
  a.1 < b.1 ∨ (a.1 = b.1 ∧ a.2 ≤ b.2)

instance : DecidableRel cand_r := fun a b => by
  unfold cand_r
  infer_instance

/-- Candidates one node contributes from one chunk result: its `k` slots,
skipping `s < 0` and `t ≥ UNREACHABLE`. -/
def node_candidates (k : ℕ) (node_i : ℕ) (res : List LabelStore) : List (ℕ × ℤ) :=
  (List.range k).filterMap (fun j =>
    let sl := (res.getD node_i (emptyStore k)).slots.getD j emptySlot
    if 0 ≤ sl.1 ∧ sl.2 < UNREACHABLE then some (sl.2, sl.1) else none)

/-- The single-threaded global merge of the parallel path: per node, gather
all chunks' candidates, sort by `(time, src_idx)`, replay
`insert_label_for_node` into fresh stores.  The source's stable
`candidates.sort_by` is modelled by a stable structural sort; since `cand_r`
is antisymmetric on the `(time, src)` pairs, every sort by this comparator
produces the same list. -/
def merge_chunks (n k cp : ℕ) (chunk_results : List (List LabelStore)) :
    List LabelStore :=
  (List.range n).map (fun node_i =>
    let candidates :=
      chunk_results.foldl (fun acc res => acc ++ node_candidates k node_i res) []
    let sorted := candidates.insertionSort cand_r
    sorted.foldl (fun st c => insert_label_for_node k c.2 c.1 cp st)
      (emptyStore k))

/-- Build the target mask: `mask[u] = 1` for every in-range target index
(`u as usize` of a negative i32 is huge, hence out of range). -/
def target_mask (n : ℕ) (targets : List ℤ) : List ℕ :=
  targets.foldl
    (fun m u => if (decide (0 ≤ u) && decide (u.toNat < n)) then m.set u.toNat 1 else m)
    (List.replicate n 0)

/-- `kbest_multisource_bucket_csr` (minus the numpy marshalling and progress
callbacks): returns the per-node stores whose slots are copied into the
output arrays. -/
def kbest_multisource_bucket_csr (csr : CSR) (sources : List ℕ)
    (k cp co threads : ℕ) (targets : Option (List ℤ)) (fuel : ℕ) :
    Option (List LabelStore) :=
  let n := csr.indptr.length - 1
  let t := if threads = 0 then 1 else threads
  let should_parallel : Bool := decide (1 < t) && decide (t * 4 < sources.length)
  let mo := min_out_of csr n
  let mask := targets.map (target_mask n)
  let targets_total := (targets.map List.length).getD 0
  let P : ChunkParams := ⟨csr, mo, n, k, cp, co, mask⟩
  if should_parallel then
    let num_parts := min (t * 2) sources.length
    let parts := parts_of num_parts sources.length
    (parts.mapM (fun p =>
        compute_chunk P ((sources.drop p.1).take (p.2 - p.1)) targets_total
          fuel)).map
      (merge_chunks n k cp)
  else compute_chunk P sources targets_total fuel

/-- The run of `kbest_multisource_bucket_csr` exhibiting the tie-order
counterexample: two anchors (`2` and `0`) reach node `1` at equal time `5`. -/
def c4run : Option (List LabelStore) :=
  kbest_multisource_bucket_csr ⟨[0, 1, 3, 4], [1, 0, 2, 1], [5, 5, 5, 5]⟩
    [2, 0] 2 20 20 1 none 500

/-- The single-node run used to witness the amended C4 theorem. -/
def c4wit : Option (List LabelStore) :=
  kbest_multisource_bucket_csr ⟨[0, 0], [], []⟩ [0] 1 0 0 1 none 10

/-! ### Thread-count determinism (C5) -/

/-- Single-thread run of the C5 instance. -/
def c5run1 : Option (List LabelStore) :=
  kbest_multisource_bucket_csr ⟨[0, 0, 1, 1, 1, 1, 1, 1, 1, 1, 2], [0, 0], [1, 1]⟩
    [9, 2, 3, 4, 5, 6, 7, 8, 1] 1 1 1 1 none 500

/-- Two-thread (parallel chunked) run of the same C5 instance. -/
def c5run2 : Option (List LabelStore) :=
  kbest_multisource_bucket_csr ⟨[0, 0, 1, 1, 1, 1, 1, 1, 1, 1, 2], [0, 0], [1, 1]⟩
    [9, 2, 3, 4, 5, 6, 7, 8, 1] 1 1 1 2 none 500

instance : IsTrans (ℕ × ℤ) cand_r where
  trans := by
    intro a b c hab hbc
    unfold cand_r at hab hbc ⊢
    omega

instance : IsTotal (ℕ × ℤ) cand_r where
  total := by
    intro a b
    unfold cand_r
    omega

instance : IsAntisymm (ℕ × ℤ) cand_r where
  antisymm := by
    intro a b hab hba
    obtain ⟨a1, a2⟩ := a
    obtain ⟨b1, b2⟩ := b
    unfold cand_r at hab hba
    dsimp only at hab hba
    have h1 : a1 = b1 := by omega
    have h2 : a2 = b2 := by omega
    rw [h1, h2]

/-- Chunk results for the C5 witness: the same two stores in the two
possible chunk orders. -/
def c5w1 : List (List LabelStore) := [[⟨[(0, 2)], 1, 0⟩], [⟨[(1, 1)], 1, 0⟩]]

/-- The swapped chunk order of [c5w1]. -/
def c5w2 : List (List LabelStore) := [[⟨[(1, 1)], 1, 0⟩], [⟨[(0, 2)], 1, 0⟩]]

/-! ### Paths in the CSR graph, and primary dominance (C2) -/

/-- The adjacency row of node `u` in a CSR graph, as `(dest, weight)` pairs
(exactly the index range the relaxation loop iterates). -/
def row_edges (csr : CSR) (u : ℕ) : List (ℕ × ℕ) :=
  (List.range' (csr.indptr.getD u 0)
      (csr.indptr.getD (u + 1) 0 - csr.indptr.getD u 0)).map
    (fun e => (csr.indices.getD e 0, csr.w_sec.getD e 0))

/-- A directed edge `u → v` of weight `w` in the CSR graph. -/
def csr_edge (csr : CSR) (u v w : ℕ) : Prop := (v, w) ∈ row_edges csr u

instance (csr : CSR) (u v w : ℕ) : Decidable (csr_edge csr u v w) := by
  unfold csr_edge
  infer_instance

/-- `ReachLen csr a v d`: the CSR graph has a directed path from `a` to `v`
of total (unsaturated) weight `d`. -/
inductive ReachLen (csr : CSR) (a : ℕ) : ℕ → ℕ → Prop
  | refl : ReachLen csr a a 0
  | step {u v w d : ℕ} : ReachLen csr a u d → csr_edge csr u v w →
      ReachLen csr a v (d + w)

/-- The C2 run: line graph `0 → 1 → 2` with unit weights, source `0`,
`targets_idx = [0]`, `K = 1`, cutoffs `(10, 10)`. -/
def c2run : Option (List LabelStore) :=
  kbest_multisource_bucket_csr ⟨[0, 1, 2, 2], [1, 2], [1, 1]⟩ [0] 1 10 10 1
    (some [0]) 500

/-! ### The saturation run (C1): line graph with two 65535-second edges -/

/-- CSR of the saturation counterexample: `0 → 1 → 2`, both weights 65535. -/
def c1csr : CSR := ⟨[0, 1, 2, 2], [1, 2], [65535, 65535]⟩

/-- Chunk parameters of the saturation run (`K = 1`, cutoffs `(65535, 65535)`,
no targets). -/
def c1P : ChunkParams := ⟨c1csr, min_out_of c1csr 3, 3, 1, 65535, 65535, none⟩

def c1b0 : List (List (ℕ × ℕ)) :=
  (List.replicate 65536 ([] : List (ℕ × ℕ))).set 0 [(0, 0)]

def c1a0 : List Bool := (List.replicate 65536 false).set 0 true

def c1s0 : ChunkState := ⟨List.replicate 3 (emptyStore 1), c1b0, c1a0, 1, 0, [], 0⟩

def c1st1 : List LabelStore := [⟨[(0, 0)], 1, 1⟩, emptyStore 1, emptyStore 1]

def c1B2 : List (List (ℕ × ℕ)) := (c1b0.set 0 []).set 65535 [(1, 0)]

def c1A2 : List Bool := c1a0.set 65535 true

def c1A3 : List Bool := c1A2.set 0 false

def c1s1 : ChunkState := ⟨c1st1, c1B2, c1A3, 1, 0, [((0, 0), 0)], 0⟩

def c1s2 : ChunkState := ⟨c1st1, c1B2, c1A3, 1, 65535, [((0, 0), 0)], 0⟩

def c1st2 : List LabelStore :=
  [⟨[(0, 0)], 1, 1⟩, ⟨[(0, 65535)], 1, 1⟩, emptyStore 1]

def c1B3 : List (List (ℕ × ℕ)) := (c1B2.set 65535 []).set 65535 [(2, 0)]

def c1s3 : ChunkState :=
  ⟨c1st2, c1B3, c1A3, 1, 65535, [((1, 0), 65535), ((0, 0), 0)], 0⟩

def c1st3 : List LabelStore :=
  [⟨[(0, 0)], 1, 1⟩, ⟨[(0, 65535)], 1, 1⟩, ⟨[(0, 65535)], 1, 1⟩]

def c1B4 : List (List (ℕ × ℕ)) := c1B3.set 65535 []

def c1A6 : List Bool := c1A3.set 65535 false

def c1s4 : ChunkState :=
  ⟨c1st3, c1B4, c1A6, 0, 65535, [((2, 0), 65535), ((1, 0), 65535), ((0, 0), 0)], 0⟩

/-! ### Soundness: every recorded time is a saturated path length -/

/-- `SatReach csr a v d`: the CSR graph has a path from `a` to `v` whose
length, summed with the `u16` saturating addition, is `d`. -/
inductive SatReach (csr : CSR) (a : ℕ) : ℕ → ℕ → Prop
  | refl : SatReach csr a a 0
  | step {u v w d : ℕ} : SatReach csr a u d → csr_edge csr u v w →
      SatReach csr a v (min (d + w) 65535)

/-- Every populated slot of every store holds a saturated path length from
its anchor to its node, bounded by the cutoff. -/
def SlotsSound (csr : CSR) (co k : ℕ) (stores : List LabelStore) : Prop :=
  ∀ v p, v < stores.length →
    p ∈ (stores.getD v (emptyStore k)).slots → 0 ≤ p.1 →
    SatReach csr p.1.toNat v p.2 ∧ p.2 ≤ co

/-- Every bucket entry `(v, src)` sitting in bucket `d` is reachable from
`src` with saturated length `d`. -/
def BucketsSound (csr : CSR) (buckets : List (List (ℕ × ℕ))) : Prop :=
  ∀ d e, e ∈ buckets.getD d [] → SatReach csr e.2 e.1 d

/-! ### CH query engine (`src/townscout_native/src/ch.rs`) -/

/-- `u32::MAX`, the CH infinity sentinel. -/
def INF : ℕ := 4294967295

/-- A `fast_paths` 32-bit edge (`base_node`, `adj_node`, `weight`). -/
structure CHEdge32 where
  base_node : ℕ
  adj_node : ℕ
  weight : ℕ
deriving DecidableEq

/-- The deserialized `FastGraph32` fields `run_phast` reads. -/
structure FastGraph32 where
  ranks : List ℕ
  first_edge_ids_fwd : List ℕ
  edges_fwd : List CHEdge32
  edges_bwd : List CHEdge32
deriving DecidableEq

/-- `CHGraph`: the prepared graph plus the rank order and the CSR-ised
downward (backward) edges. -/
structure CHGraph where
  graph : FastGraph32
  order : List ℕ
  down_offsets : List ℕ
  down_edges : List (ℕ × ℕ)
deriving DecidableEq

/-- `CHGraph::from_fast_graph32`: build `order` from ranks, count backward
edges per `adj_node`, prefix-sum the offsets and scatter the edges. -/
def from_fast_graph32 (graph : FastGraph32) : CHGraph :=
  let num_nodes := graph.ranks.length
  let order := graph.ranks.enum.foldl
    (fun o p => if p.2 < num_nodes then o.set p.2 p.1 else o)
    (List.replicate num_nodes 0)
  let counts := graph.edges_bwd.foldl
    (fun c e => if e.adj_node < num_nodes
      then c.set e.adj_node (c.getD e.adj_node 0 + 1) else c)
    (List.replicate num_nodes 0)
  let down_offsets := counts.scanl (· + ·) 0
  let down_edges0 := List.replicate (down_offsets.getD num_nodes 0)
    ((0, 0) : ℕ × ℕ)
  let scatter := graph.edges_bwd.foldl
    (fun dc e =>
      if e.adj_node < num_nodes ∧ e.base_node < num_nodes then
        let pos := dc.2.getD e.adj_node 0
        (dc.1.set pos (e.base_node, e.weight), dc.2.set e.adj_node (pos + 1))
      else dc)
    (down_edges0, down_offsets)
  ⟨graph, order, down_offsets, scatter.1⟩

/-- Pop of the `BinaryHeap<(Reverse<u32>, usize)>`: the maximum under the
`(Reverse du, node)` order — smallest distance, largest node on ties —
removed from the list. -/
def heap_pop (h : List (ℕ × ℕ)) : Option ((ℕ × ℕ) × List (ℕ × ℕ)) :=
  match h with
  | [] => none
  | x :: xs =>
    let best := xs.foldl
      (fun b e => if e.1 < b.1 ∨ (e.1 = b.1 ∧ b.2 < e.2) then e else b) x
    some (best, h.erase best)

/-- The upward Dijkstra of `run_phast`, fuel-indexed. -/
def phast_up (g : FastGraph32) (limit : ℕ) :
    ℕ → List (ℕ × ℕ) → List ℕ → Option (List ℕ)
  | 0, heap, dist => if heap.isEmpty then some dist else none
  | fuel + 1, heap, dist =>
    match heap_pop heap with
    | none => some dist
    | some ((du, u), rest) =>
      if limit < du then phast_up g limit fuel rest dist
      else if du ≠ dist.getD u INF then phast_up g limit fuel rest dist
      else
        let rank_u := g.ranks.getD u 0
        if g.first_edge_ids_fwd.length - 1 ≤ rank_u then
          phast_up g limit fuel rest dist
        else
          let s := g.first_edge_ids_fwd.getD rank_u 0
          let e := g.first_edge_ids_fwd.getD (rank_u + 1) 0
          let hd := (List.range' s (e - s)).foldl
            (fun hd idx =>
              let edge := g.edges_fwd.getD idx ⟨0, 0, 0⟩
              let nd := min (du + edge.weight) INF
              if limit < nd then hd
              else if nd < hd.2.getD edge.adj_node INF then
                ((nd, edge.adj_node) :: hd.1, hd.2.set edge.adj_node nd)
              else hd)
            (rest, dist)
          phast_up g limit fuel hd.1 hd.2

/-- One node of the downward PHAST sweep. -/
def phast_down_node (g : CHGraph) (limit : ℕ) (dist : List ℕ) (u : ℕ) :
    List ℕ :=
  let du := dist.getD u INF
  if du = INF then dist
  else
    let s := g.down_offsets.getD u 0
    let e := g.down_offsets.getD (u + 1) 0
    (List.range' s (e - s)).foldl
      (fun d idx =>
        let ew := g.down_edges.getD idx (0, 0)
        let nd := min (du + ew.2) INF
        if limit < nd then d
        else if nd < d.getD ew.1 INF then d.set ew.1 nd
        else d)
      dist

/-- `CHGraph::run_phast`: out-of-range source returns all-`INF`; otherwise
the upward search followed by the downward sweep over `order` reversed. -/
def run_phast (g : CHGraph) (source limit fuel : ℕ) : Option (List ℕ) :=
  let n := g.graph.ranks.length
  let dist0 := List.replicate n INF
  if n ≤ source then some dist0
  else
    match phast_up g.graph limit fuel [(0, source)] (dist0.set source 0) with
    | none => none
    | some dist1 => some (g.order.reverse.foldl (phast_down_node g limit) dist1)

/-- `CHGraph::query_subset`: project the distance array onto the targets,
mapping negative and out-of-range indices to `INF`. -/
def query_subset (g : CHGraph) (source : ℕ) (targets : List ℤ)
    (limit fuel : ℕ) : Option (List ℕ) :=
  match run_phast g source limit fuel with
  | none => none
  | some dist => some (targets.map (fun raw =>
      if raw < 0 then INF
      else if raw.toNat < dist.length then dist.getD raw.toNat INF
      else INF))

/-- The triples one CSR row contributes in `build_input_graph`: all
`(u, v, max w 1)` with a non-negative destination. -/
def row_contrib (indptr : List ℕ) (indices : List ℤ) (w_sec : List ℕ)
    (u : ℕ) : List (ℕ × ℕ × ℕ) :=
  (List.range' (indptr.getD u 0)
      (indptr.getD (u + 1) 0 - indptr.getD u 0)).filterMap
    (fun idx =>
      let v := indices.getD idx 0
      if v < 0 then none
      else some (u, v.toNat, max (w_sec.getD idx 0) 1))

/-- The body of `build_input_graph`'s `for u in 0..n` loop: propagate an
error, or bounds-check the row and append its contribution. -/
def big_step (indptr : List ℕ) (indices : List ℤ) (w_sec : List ℕ)
    (acc : Except String (List (ℕ × ℕ × ℕ))) (u : ℕ) :
    Except String (List (ℕ × ℕ × ℕ)) :=
  match acc with
  | Except.error e => Except.error e
  | Except.ok es =>
    if indices.length < indptr.getD (u + 1) 0 then
      Except.error "indptr out of bounds for indices"
    else Except.ok (es ++ row_contrib indptr indices w_sec u)

/-- `build_input_graph` from `ch.rs`: emit `(u, v, max w 1)` triples row by
row, skipping negative destinations, with the two argument checks and the
per-row bounds check of the source. -/
def build_input_graph (indptr : List ℕ) (indices : List ℤ) (w_sec : List ℕ) :
    Except String (List (ℕ × ℕ × ℕ)) :=
  if indptr.length = 0 then Except.error "indptr must be non-empty"
  else if indices.length ≠ w_sec.length then
    Except.error "indices and weights must match in length"
  else
    (List.range (indptr.length - 1)).foldl (big_step indptr indices w_sec)
      (Except.ok [])

/-- CH graph of the C9 witness: a single node without edges. -/
def c9g : CHGraph := from_fast_graph32 ⟨[0], [0, 0], [], []⟩

/-! ### C6: counterexample and amended bounds -/

/-- The C6 counterexample graph: four nodes with identity ranks, one upward
edge `1 → 2` (weight 1), one downward edge `3 → 1` (weight 5). -/
def c6g : CHGraph :=
  from_fast_graph32 ⟨[0, 1, 2, 3], [0, 0, 1, 1, 1], [⟨1, 2, 1⟩], [⟨1, 3, 5⟩]⟩

/-- Pointwise domination of distance arrays (`INF` off the end). -/
def DistLe (d2 d : List ℕ) : Prop := ∀ v, d2.getD v INF ≤ d.getD v INF

/-- Every entry is either `INF` or at most `limit`. -/
def Bnd (limit : ℕ) (d : List ℕ) : Prop :=
  ∀ v, d.getD v INF = INF ∨ d.getD v INF ≤ limit

/-- Order layout: `order` reversed lists nodes in strictly descending rank. -/
def RankDesc (g : CHGraph) : Prop :=
  List.Pairwise (fun a b => g.graph.ranks.getD b 0 < g.graph.ranks.getD a 0)
    g.order.reverse

/-- Every downward edge goes to a node of strictly smaller rank. -/
def DownRanked (g : CHGraph) : Prop :=
  ∀ u idx, g.down_offsets.getD u 0 ≤ idx →
    idx < g.down_offsets.getD (u + 1) 0 →
    g.graph.ranks.getD (g.down_edges.getD idx (0, 0)).1 0
      < g.graph.ranks.getD u 0

/-! ### Hex aggregation (aggregate_h3_topk_precached) -/

/-- The `(time asc, anchor asc)` emission order used by the hex
aggregation's final per-cell sort. -/
def hexLe (x y : ℤ × ℕ) : Prop :=
  x.2 < y.2 ∨ (x.2 = y.2 ∧ x.1 ≤ y.1)

instance hexLeDec : DecidableRel hexLe := fun x y =>
  decidable_of_iff (x.2 < y.2 ∨ (x.2 = y.2 ∧ x.1 ≤ y.1)) Iff.rfl

instance hexLeTrans : IsTrans (ℤ × ℕ) hexLe :=
  ⟨by intro a b c hab hbc; unfold hexLe at *; omega⟩

instance hexLeTotal : IsTotal (ℤ × ℕ) hexLe :=
  ⟨by intro a b; unfold hexLe; omega⟩

/-- The found-scan of the inline `update_topk`: walk the entries, and at
the first entry for `site` lower its time to `ts` if better; `none` when
`site` is absent. -/
def upd_found : List (ℤ × ℕ) → ℤ → ℕ → Option (List (ℤ × ℕ))
  | [], _, _ => none
  | p :: rest, site, ts =>
    if p.1 = site then some ((if ts < p.2 then (p.1, ts) else p) :: rest)
    else
      match upd_found rest site ts with
      | some r => some (p :: r)
      | none => none

/-- One step of the worst-entry scan: strictly larger times (or index 0)
take over, so the scan lands on the first maximum. -/
def worst_step (e : List (ℤ × ℕ)) (w : ℕ × ℕ) (ii : ℕ) : ℕ × ℕ :=
  if ii = 0 ∨ w.2 < (e.getD ii (0, 0)).2 then (ii, (e.getD ii (0, 0)).2)
  else w

/-- Index and time of the first worst (maximum-time) entry. -/
def worst_of (e : List (ℤ × ℕ)) : ℕ × ℕ :=
  (List.range e.length).foldl (worst_step e) (0, 0)

/-- The inline `update_topk` of `aggregate_h3_topk_precached`: min-update
an existing entry for `site`, else push while below capacity, else replace
the first worst entry when strictly better. -/
def update_topk (k : ℕ) (e : List (ℤ × ℕ)) (site : ℤ) (ts : ℕ) :
    List (ℤ × ℕ) :=
  match upd_found e site ts with
  | some r => r
  | none =>
    if e.length < k then e ++ [(site, ts)]
    else if ts < (worst_of e).2 then e.set (worst_of e).1 (site, ts)
    else e

/-- Replay a candidate list through `update_topk` from a given store. -/
def topk_fold_from (k : ℕ) (e : List (ℤ × ℕ)) (cands : List (ℤ × ℕ)) :
    List (ℤ × ℕ) :=
  cands.foldl (fun e c => update_topk k e c.1 c.2) e

/-- The per-cell candidate filter: drop negative sites and times at or
above `unreachable`. -/
def hex_filter (unreachable : ℕ) (cands : List (ℤ × ℕ)) : List (ℤ × ℕ) :=
  cands.filter (fun p => !(decide (p.1 < 0)) && decide (p.2 < unreachable))

/-- One cell of `aggregate_h3_topk_precached`: filter the candidates in
row order, accumulate with the inline `update_topk`, and emit sorted by
`(time, site)`. -/
def hex_cell_topk (k unreachable : ℕ) (cands : List (ℤ × ℕ)) :
    List (ℤ × ℕ) :=
  List.insertionSort hexLe (topk_fold_from k [] (hex_filter unreachable cands))

/-- Dedup per anchor keeping the minimum time, as the spec words it. -/
def dedup_min (cands : List (ℤ × ℕ)) : List (ℤ × ℕ) :=
  cands.foldl (fun acc c =>
    if acc.any (fun p => decide (p.1 = c.1)) then
      acc.map (fun p => if p.1 = c.1 ∧ c.2 < p.2 then (p.1, c.2) else p)
    else acc ++ [c]) []

/-- Plain bounded top-K by `(time asc, anchor asc)` over the deduplicated
candidates — the spec's description of the retained set. -/
def spec_plain_topk (k : ℕ) (cands : List (ℤ × ℕ)) : List (ℤ × ℕ) :=
  (List.insertionSort hexLe (dedup_min cands)).take k

/-! ### CSR builder (build_csr_from_arrays) -/

/-- The node-id to index map: later duplicates shadow earlier ones, as
repeated `HashMap::insert` does. -/
def node_map (node_ids : List ℤ) : List (ℤ × ℕ) :=
  (List.range node_ids.length).foldl
    (fun m i => (node_ids.getD i 0, i) :: m) []

/-- The directed edge triples `(src, dst, weight)` emitted by the edge
loop: skip edges with an unknown endpoint, and double non-one-way edges. -/
def emitted_edges (node_ids u v : List ℤ) (oneway w : List ℕ) :
    List (ℕ × ℕ × ℕ) :=
  (List.range u.length).foldl (fun es i =>
    match (node_map node_ids).lookup (u.getD i 0),
          (node_map node_ids).lookup (v.getD i 0) with
    | some su, some sv =>
      es ++ [(su, sv, w.getD i 0)]
        ++ (if oneway.getD i 0 = 0 then [(sv, su, w.getD i 0)] else [])
    | _, _ => es) []

/-- The `(src, dst)` lexicographic sort order of the CSR builder. -/
def csrLe (a b : ℕ × ℕ × ℕ) : Prop :=
  a.1 < b.1 ∨ (a.1 = b.1 ∧ a.2.1 ≤ b.2.1)

instance csrLeDec : DecidableRel csrLe := fun a b =>
  decidable_of_iff (a.1 < b.1 ∨ (a.1 = b.1 ∧ a.2.1 ≤ b.2.1)) Iff.rfl

instance csrLeTrans : IsTrans (ℕ × ℕ × ℕ) csrLe :=
  ⟨by intro a b c hab hbc; unfold csrLe at *; omega⟩

instance csrLeTotal : IsTotal (ℕ × ℕ × ℕ) csrLe :=
  ⟨by intro a b; unfold csrLe; omega⟩

/-- Per-source counts of the sorted edge list. -/
def csr_counts (n : ℕ) (es : List (ℕ × ℕ × ℕ)) : List ℕ :=
  es.foldl (fun c e => c.set e.1 (c.getD e.1 0 + 1)) (List.replicate n 0)

/-- `build_csr_from_arrays`: check the edge arrays agree in length, emit
the directed edges, sort them by `(src, dst)` carrying the weights along,
and derive `indptr` as the prefix sums of the per-source counts. -/
def build_csr_from_arrays (node_ids u v : List ℤ) (oneway w : List ℕ) :
    Option (List ℕ × List ℕ × List ℕ) :=
  if u.length = v.length ∧ u.length = oneway.length ∧ u.length = w.length
  then
    some (
      ((csr_counts node_ids.length
          (List.insertionSort csrLe
            (emitted_edges node_ids u v oneway w))).scanl
        (fun a b => a + b) 0),
      (List.insertionSort csrLe (emitted_edges node_ids u v oneway w)).map
        (fun e => e.2.1),
      (List.insertionSort csrLe (emitted_edges node_ids u v oneway w)).map
        (fun e => e.2.2))
  else none


lemma slotLe_trans {a b c : ℤ × ℕ} (h1 : slotLe a b) (h2 : slotLe b c) :
    slotLe a c := Nat.le_trans h1 h2

lemma getD_append_cons_len (A : List (ℤ × ℕ)) (x : ℤ × ℕ) (B : List (ℤ × ℕ))
    {n : ℕ} (hn : A.length = n) : (A ++ x :: B).getD n emptySlot = x := by
  subst hn
  induction A with
  | nil => rfl
  | cons a A ih => simpa using ih

lemma set_append_cons_len (A : List (ℤ × ℕ)) (x y : ℤ × ℕ) (B : List (ℤ × ℕ))
    {n : ℕ} (hn : A.length = n) : (A ++ x :: B).set n y = A ++ y :: B := by
  subst hn
  induction A with
  | nil => rfl
  | cons a A ih => simpa using ih

/-- `bubble_left` on `A ++ x :: B` (position `A.length`) leaves `B` in place,
permutes `A ++ [x]` into a prefix `C`, and produces a sorted list, provided
`A ++ B` was sorted and `x` is below everything in `B`. -/
lemma bubble_left_decomp :
    ∀ (A : List (ℤ × ℕ)) (x : ℤ × ℕ) (B : List (ℤ × ℕ)),
      List.Sorted slotLe (A ++ B) →
      (∀ z ∈ B, x.2 ≤ z.2) →
      ∃ C, bubble_left (A ++ x :: B) A.length = C ++ B ∧
           C.Perm (A ++ [x]) ∧ List.Sorted slotLe (C ++ B) := by
  intro A
  induction A using List.reverseRecOn with
  | nil =>
    intro x B hAB hx
    refine ⟨[x], rfl, List.Perm.refl _, ?_⟩
    exact List.pairwise_cons.mpr ⟨fun z hz => hx z hz, hAB⟩
  | append_singleton A' a ih =>
    intro x B hAB hx
    have hlen : (A' ++ [a]).length = A'.length + 1 := by simp
    rw [hlen]
    have hl : (A' ++ [a]) ++ x :: B = A' ++ a :: x :: B := by simp
    rw [hl]
    have hcur : (A' ++ a :: x :: B).getD (A'.length + 1) emptySlot = x := by
      have h1 : A' ++ a :: x :: B = (A' ++ [a]) ++ x :: B := by simp
      rw [h1]
      exact getD_append_cons_len (A' ++ [a]) x B hlen
    have hprev : (A' ++ a :: x :: B).getD A'.length emptySlot = a :=
      getD_append_cons_len A' a (x :: B) rfl
    have hAB' : List.Sorted slotLe (A' ++ a :: B) := by simpa using hAB
    rw [bubble_left, hcur, hprev]
    by_cases hlt : x.2 < a.2
    · simp only [if_pos hlt]
      have hset1 : (A' ++ a :: x :: B).set (A'.length + 1) a = A' ++ a :: a :: B := by
        have h1 : A' ++ a :: x :: B = (A' ++ [a]) ++ x :: B := by simp
        rw [h1, set_append_cons_len (A' ++ [a]) x a B hlen]
        simp
      have hset2 : (A' ++ a :: a :: B).set A'.length x = A' ++ x :: a :: B :=
        set_append_cons_len A' a x (a :: B) rfl
      rw [hset1, hset2]
      have hx' : ∀ z ∈ a :: B, x.2 ≤ z.2 := by
        intro z hz
        rcases List.mem_cons.mp hz with h | h
        · exact h ▸ Nat.le_of_lt hlt
        · exact hx z h
      obtain ⟨C, hC1, hC2, hC3⟩ := ih x (a :: B) hAB' hx'
      refine ⟨C ++ [a], ?_, ?_, ?_⟩
      · rw [hC1]; simp
      · have p1 : (C ++ [a]).Perm ((A' ++ [x]) ++ [a]) := hC2.append_right [a]
        have p2 : ((A' ++ [x]) ++ [a]).Perm ((A' ++ [a]) ++ [x]) := by
          simp only [List.append_assoc]
          exact List.Perm.append_left A' List.perm_append_comm
        exact p1.trans p2
      · have h2 : (C ++ [a]) ++ B = C ++ a :: B := by simp
        rw [h2, ← hC1]
        rw [hC1]
        exact hC3
    · simp only [if_neg hlt]
      push_neg at hlt
      refine ⟨(A' ++ [a]) ++ [x], by simp, List.Perm.refl _, ?_⟩
      have hxB : ∀ z ∈ x :: B, slotLe a z := by
        intro z hz
        rcases List.mem_cons.mp hz with h | h
        · exact h ▸ hlt
        · exact slotLe_trans hlt (hx z h)
      -- rebuild sortedness of A' ++ a :: x :: B from A' ++ a :: B sorted
      have hgoal_eq : (A' ++ [a]) ++ [x] ++ B = A' ++ a :: x :: B := by simp
      rw [hgoal_eq]
      show List.Pairwise slotLe (A' ++ a :: x :: B)
      rw [List.pairwise_append]
      have hAB'' : List.Pairwise slotLe (A' ++ a :: B) := hAB'
      rw [List.pairwise_append] at hAB''
      obtain ⟨hA', hcons, hcross⟩ := hAB''
      have hconsB : List.Sorted slotLe B := (List.pairwise_cons.mp hcons).2
      have haB : ∀ z ∈ B, slotLe a z := (List.pairwise_cons.mp hcons).1
      refine ⟨hA', ?_, ?_⟩
      · refine List.pairwise_cons.mpr ⟨hxB, ?_⟩
        exact List.pairwise_cons.mpr ⟨fun z hz => hx z hz, hconsB⟩
      · intro y hy z hz
        rcases List.mem_cons.mp hz with h | h
        · exact h ▸ hcross y hy a (List.mem_cons_self a B)
        · rcases List.mem_cons.mp h with h' | h'
          · exact h' ▸ slotLe_trans (hcross y hy a (List.mem_cons_self a B)) hlt
          · exact hcross y hy z (List.mem_cons.mpr (Or.inr h'))

lemma set_append_cons_cons_len (A : List (ℤ × ℕ)) (x y z : ℤ × ℕ)
    (B : List (ℤ × ℕ)) {n : ℕ} (hn : A.length = n) :
    (A ++ x :: y :: B).set (n + 1) z = A ++ x :: z :: B := by
  subst hn
  induction A with
  | nil => rfl
  | cons a A ih => simpa using ih

/-- Decomposition of a list at two adjacent in-range positions. -/
lemma decomp_two (l : List (ℤ × ℕ)) (j : ℕ) (h : j + 1 < l.length) :
    l = l.take j ++ l.getD j emptySlot :: l.getD (j + 1) emptySlot ::
      l.drop (j + 2) ∧ (l.take j).length = j := by
  have hj : j < l.length := Nat.lt_of_succ_lt h
  have e1 : l.getD j emptySlot = l[j] := by
    simp [List.getD_eq_getElem?_getD, List.getElem?_eq_getElem hj]
  have e2 : l.getD (j + 1) emptySlot = l[j + 1] := by
    simp [List.getD_eq_getElem?_getD, List.getElem?_eq_getElem h]
  constructor
  · rw [e1, e2]
    conv_lhs => rw [← List.take_append_drop j l]
    rw [List.drop_eq_getElem_cons hj, List.drop_eq_getElem_cons h]
  · simpa using Nat.le_of_lt hj

/-- `bubble_left` at an in-range position permutes the list. -/
lemma bubble_left_perm : ∀ (p : ℕ) (l : List (ℤ × ℕ)), p < l.length →
    (bubble_left l p).Perm l := by
  intro p
  induction p with
  | zero => intro l _; exact List.Perm.refl _
  | succ j ih =>
    intro l hp
    rw [bubble_left]
    by_cases h : (l.getD (j + 1) emptySlot).2 < (l.getD j emptySlot).2
    · simp only [if_pos h]
      obtain ⟨hdec, hlen⟩ := decomp_two l j hp
      have hset1 := set_append_cons_cons_len (l.take j) (l.getD j emptySlot)
        (l.getD (j + 1) emptySlot) (l.getD j emptySlot) (l.drop (j + 2)) hlen
      rw [← hdec] at hset1
      have hset2 := set_append_cons_len (l.take j) (l.getD j emptySlot)
        (l.getD (j + 1) emptySlot) (l.getD j emptySlot :: l.drop (j + 2)) hlen
      rw [hset1, hset2]
      have hlen' : j < (l.take j ++ l.getD (j + 1) emptySlot ::
          l.getD j emptySlot :: l.drop (j + 2)).length := by
        simp [hlen]
      refine (ih _ hlen').trans ?_
      conv_rhs => rw [hdec]
      exact List.Perm.append_left _ (List.Perm.swap _ _ _)
    · simp only [if_neg h]
      exact List.Perm.refl _

/-- Characterisation of the shifting loop: it copies the block
`l[ins .. j2-1]` one slot to the right, leaving `l[0..ins]` and
`l[j2+1 ..]` in place (the entry at `ins` is then overwritten by the
caller's `set`). -/
lemma shift_right_spec : ∀ (j2 : ℕ) (l : List (ℤ × ℕ)) (ins : ℕ),
    ins ≤ j2 → j2 < l.length →
    shift_right l ins j2
      = l.take (ins + 1) ++ (l.drop ins).take (j2 - ins) ++ l.drop (j2 + 1) := by
  intro j2
  induction j2 with
  | zero =>
    intro l ins hins _
    interval_cases ins
    simp only [shift_right, Nat.zero_sub, List.take_zero, List.drop_zero,
      Nat.zero_add, List.nil_append, List.append_nil]
    conv_lhs => rw [← List.take_append_drop 1 l]
  | succ m ih =>
    intro l ins hins hlen
    rw [shift_right]
    by_cases hc : ins < m + 1
    · simp only [if_pos hc]
      have hm : m < l.length := Nat.lt_of_succ_lt hlen
      have hins' : ins ≤ m := Nat.lt_succ_iff.mp hc
      have hlen' : m < (l.set (m + 1) (l.getD m emptySlot)).length := by
        simpa using hm
      rw [ih _ ins hins' hlen']
      have e1 : (l.set (m + 1) (l.getD m emptySlot)).take (ins + 1)
          = l.take (ins + 1) := by
        rw [List.set_take]
        apply List.set_eq_of_length_le
        have h := List.length_take_le (ins + 1) l
        omega
      have e2 : ((l.set (m + 1) (l.getD m emptySlot)).drop ins).take (m - ins)
          = (l.drop ins).take (m - ins) := by
        rw [List.drop_set]
        rw [if_neg (by omega)]
        rw [List.set_take]
        apply List.set_eq_of_length_le
        have : ((l.drop ins).take (m - ins)).length ≤ m - ins := by
          simpa using List.length_take_le _ _
        omega
      have e3 : (l.set (m + 1) (l.getD m emptySlot)).drop (m + 1)
          = l.getD m emptySlot :: l.drop (m + 2) := by
        rw [List.drop_set]
        rw [if_neg (by omega)]
        have h1 : m + 1 - (m + 1) = 0 := by omega
        rw [h1]
        rcases hd : l.drop (m + 1) with _ | ⟨y, ys⟩
        · exfalso
          have := List.length_drop (m + 1) l
          rw [hd] at this
          simp at this
          omega
        · have hdd : l.drop (m + 2) = ys := by
            have : l.drop (m + 2) = (l.drop (m + 1)).drop 1 := by
              rw [List.drop_drop]
            rw [this, hd]
            rfl
          simp [hdd]
      rw [e1, e2, e3]
      have e4 : (l.drop ins).take (m + 1 - ins)
          = (l.drop ins).take (m - ins) ++ [l.getD m emptySlot] := by
        have h1 : m + 1 - ins = (m - ins) + 1 := by omega
        rw [h1, List.take_succ]
        have h2 : (l.drop ins)[m - ins]? = some (l.getD m emptySlot) := by
          rw [List.getElem?_drop]
          have hin : ins + (m - ins) = m := by omega
          rw [hin, List.getElem?_eq_getElem hm, List.getD_eq_getElem l emptySlot hm]
        rw [h2]
        rfl
      rw [e4]
      simp
    · simp only [if_neg hc]
      have : ins = m + 1 := by omega
      subst this
      simp

lemma emptyStore_wf (k : ℕ) : StoreWF k (emptyStore k) := by
  constructor <;> simp [emptyStore]

lemma getD_take_of_lt (l : List (ℤ × ℕ)) (u j : ℕ) (h : j < u) :
    (l.take u).getD j emptySlot = l.getD j emptySlot := by
  simp [List.getD_eq_getElem?_getD, List.getElem?_take, h]

lemma length_take_of_le {α : Type} (l : List α) (u : ℕ) (h : u ≤ l.length) :
    (l.take u).length = u := by
  simp [List.length_take, Nat.min_eq_left h]

lemma getD_replicate_empty (m j : ℕ) :
    (List.replicate m emptySlot).getD j emptySlot = emptySlot := by
  rcases Nat.lt_or_ge j m with h | h
  · simp [List.getD_eq_getElem?_getD, List.getElem?_replicate, h]
  · exact List.getD_eq_default _ _ (by rw [List.length_replicate]; exact h)

namespace StoreWF

variable {k : ℕ} {st : LabelStore}

lemma pop_length (h : StoreWF k st) : (st.slots.take st.used).length = st.used :=
  length_take_of_le _ _ (h.len ▸ h.used_le)

lemma getD_tail (h : StoreWF k st) {j : ℕ} (hj : st.used ≤ j) :
    st.slots.getD j emptySlot = emptySlot := by
  conv_lhs => rw [h.slots_eq]
  rw [List.getD_append_right _ _ _ _ (by rw [h.pop_length]; exact hj)]
  exact getD_replicate_empty _ _

lemma getD_mem_pop (h : StoreWF k st) {j : ℕ} (hj : j < st.used) :
    st.slots.getD j emptySlot ∈ st.slots.take st.used := by
  have hjl : j < (st.slots.take st.used).length := by rw [h.pop_length]; exact hj
  rw [← getD_take_of_lt _ st.used j hj]
  rw [List.getD_eq_getElem _ _ hjl]
  exact List.getElem_mem hjl

/-- Sorted populated prefix in terms of positions. -/
lemma sorted_getD (h : StoreWF k st) {i j : ℕ} (hij : i ≤ j) (hj : j < st.used) :
    (st.slots.getD i emptySlot).2 ≤ (st.slots.getD j emptySlot).2 := by
  rcases Nat.eq_or_lt_of_le hij with rfl | hlt
  · exact Nat.le_refl _
  · have hi : i < st.used := Nat.lt_trans hlt hj
    have hil : i < (st.slots.take st.used).length := by rw [h.pop_length]; exact hi
    have hjl : j < (st.slots.take st.used).length := by rw [h.pop_length]; exact hj
    have := List.pairwise_iff_getElem.mp h.sorted i j hil hjl hlt
    rw [← getD_take_of_lt _ st.used i hi, ← getD_take_of_lt _ st.used j hj]
    rw [List.getD_eq_getElem _ _ hil, List.getD_eq_getElem _ _ hjl]
    exact this

end StoreWF

lemma sorted_append_replicate_empty {X : List (ℤ × ℕ)} (m : ℕ)
    (hX : List.Sorted slotLe X) (hle : ∀ p ∈ X, p.2 ≤ UNREACHABLE) :
    List.Sorted slotLe (X ++ List.replicate m emptySlot) := by
  show List.Pairwise slotLe (X ++ List.replicate m emptySlot)
  rw [List.pairwise_append]
  refine ⟨hX, ?_, ?_⟩
  · exact List.pairwise_replicate.mpr (Or.inr (Nat.le_refl _))
  · intro a ha b hb
    have hb' : b = emptySlot := (List.eq_of_mem_replicate hb)
    rw [hb']
    exact hle a ha

lemma exists_getD_of_mem_take {l : List (ℤ × ℕ)} {n : ℕ} {p : ℤ × ℕ}
    (h : p ∈ l.take n) :
    ∃ i, i < n ∧ i < l.length ∧ l.getD i emptySlot = p := by
  obtain ⟨i, hi, hget⟩ := List.mem_iff_getElem.mp h
  have hi' : i < n ∧ i < l.length := by
    have := hi
    rw [List.length_take] at this
    exact ⟨Nat.lt_of_lt_of_le this (Nat.min_le_left _ _),
           Nat.lt_of_lt_of_le this (Nat.min_le_right _ _)⟩
  refine ⟨i, hi'.1, hi'.2, ?_⟩
  rw [List.getD_eq_getElem _ _ hi'.2, ← @List.getElem_take _ l n i hi]
  exact hget

lemma exists_getD_of_mem_drop {l : List (ℤ × ℕ)} {n : ℕ} {p : ℤ × ℕ}
    (h : p ∈ l.drop n) :
    ∃ i, n ≤ i ∧ i < l.length ∧ l.getD i emptySlot = p := by
  obtain ⟨i, hi, hget⟩ := List.mem_iff_getElem.mp h
  have hlen : n + i < l.length := by
    have := hi
    rw [List.length_drop] at this
    omega
  refine ⟨n + i, Nat.le_add_right _ _, hlen, ?_⟩
  rw [List.getD_eq_getElem _ _ hlen, ← @List.getElem_drop _ l n i hi]
  exact hget

/-- Core of the three replacement branches of `insert_label_for_node`:
overwriting the populated slot at position `j` with a strictly better pair and
bubbling left preserves well-formedness (whatever the counters become). -/
lemma replace_bubble_wf {k : ℕ} {st : LabelStore} (hwf : StoreWF k st) {j : ℕ}
    (hj : j < st.used) {x : ℤ × ℕ} (hx0 : 0 ≤ x.1) (hxt : x.2 ≤ UNREACHABLE)
    (hlt : x.2 < (st.slots.getD j emptySlot).2)
    (hsrc : x.1 = (st.slots.getD j emptySlot).1 ∨
            ∀ p ∈ st.slots.take st.used, p.1 ≠ x.1)
    (pr : ℕ) :
    StoreWF k ⟨bubble_left (st.slots.set j x) j, st.used, pr⟩ := by
  have hpoplen := hwf.pop_length
  set pop := st.slots.take st.used with hpop
  have hjp : j < pop.length := by rw [hpoplen]; exact hj
  set b := pop.getD j emptySlot with hb
  have hbj : st.slots.getD j emptySlot = b := (getD_take_of_lt _ _ _ hj).symm
  set A := pop.take j with hA
  set D := pop.drop (j + 1) with hD
  have hAlen : A.length = j := length_take_of_le _ _ (Nat.le_of_lt hjp)
  have hpop_dec : pop = A ++ b :: D := by
    rw [hA, hD, hb, List.getD_eq_getElem _ _ hjp]
    conv_lhs => rw [← List.take_append_drop j pop]
    rw [List.drop_eq_getElem_cons hjp]
  set R := List.replicate (k - st.used) emptySlot with hR
  have hslots : st.slots = A ++ b :: (D ++ R) := by
    conv_lhs => rw [hwf.slots_eq]
    rw [← hpop, ← hR, hpop_dec]
    simp
  have hset : st.slots.set j x = A ++ x :: (D ++ R) := by
    rw [hslots]
    exact set_append_cons_len A b x (D ++ R) hAlen
  -- apply the bubble decomposition
  have hsortAD : List.Sorted slotLe (A ++ D) := by
    refine List.Pairwise.sublist ?_ hwf.sorted
    rw [← hpop, hpop_dec]
    exact List.Sublist.append_left (List.sublist_cons_self b D) A
  have hADmem : ∀ p ∈ A ++ D, p ∈ pop := by
    intro p hp
    rw [hpop_dec]
    rcases List.mem_append.mp hp with h | h
    · exact List.mem_append.mpr (Or.inl h)
    · exact List.mem_append.mpr (Or.inr (List.mem_cons.mpr (Or.inr h)))
  have hsortB : List.Sorted slotLe (A ++ (D ++ R)) := by
    have := sorted_append_replicate_empty (k - st.used) hsortAD
      (fun p hp => hwf.times_le p (hADmem p hp))
    simpa using this
  have hxB : ∀ z ∈ D ++ R, x.2 ≤ z.2 := by
    intro z hz
    rcases List.mem_append.mp hz with h | h
    · obtain ⟨i, hni, hil, hgd⟩ := exists_getD_of_mem_drop h
      have hiu : i < st.used := by rw [← hpoplen]; exact hil
      have hle : b.2 ≤ z.2 := by
        have := @StoreWF.sorted_getD _ _ hwf j i (by omega) hiu
        rw [hbj] at this
        have hz2 : st.slots.getD i emptySlot = z := by
          rw [← getD_take_of_lt st.slots st.used i hiu, ← hpop]
          exact hgd
        rw [← hz2]
        exact this
      exact Nat.le_trans (Nat.le_of_lt (hbj ▸ hlt)) hle
    · rw [List.eq_of_mem_replicate h]
      exact hxt
  obtain ⟨C, hC1, hC2, hC3⟩ := bubble_left_decomp A x (D ++ R) hsortB hxB
  have hClen : C.length = j + 1 := by
    rw [hC2.length_eq]
    simp [hAlen]
  have hDlen : D.length = st.used - (j + 1) := by
    rw [hD, List.length_drop, hpoplen]
  have hCD_len : (C ++ D).length = st.used := by
    rw [List.length_append, hClen, hDlen]
    omega
  have hnew : bubble_left (st.slots.set j x) j = (C ++ D) ++ R := by
    rw [hset, ← hAlen, hC1]
    simp
  have hCmem : ∀ p ∈ C, p ∈ pop ∨ p = x := by
    intro p hp
    have := hC2.mem_iff.mp hp
    rcases List.mem_append.mp this with h | h
    · left
      rw [hA] at h
      exact List.mem_of_mem_take h
    · right
      simpa using h
  have hDmem : ∀ p ∈ D, p ∈ pop := fun p hp =>
    hADmem p (List.mem_append.mpr (Or.inr hp))
  have htake : ((C ++ D) ++ R).take st.used = C ++ D := by
    rw [List.take_left' hCD_len]
  rw [hnew]
  constructor
  · show ((C ++ D) ++ R).length = k
    rw [List.length_append, hCD_len, hR, List.length_replicate]
    have := hwf.used_le
    omega
  · exact hwf.used_le
  · show (C ++ D) ++ R = (((C ++ D) ++ R).take st.used) ++ _
    rw [htake]
  · show List.Sorted slotLe (((C ++ D) ++ R).take st.used)
    rw [htake]
    exact List.Pairwise.sublist ((List.sublist_append_left D R).append_left C) hC3
  · show ∀ p ∈ ((C ++ D) ++ R).take st.used, 0 ≤ p.1
    rw [htake]
    intro p hp
    rcases List.mem_append.mp hp with h | h
    · rcases hCmem p h with h' | h'
      · exact hwf.nonneg p h'
      · rw [h']; exact hx0
    · exact hwf.nonneg p (hDmem p h)
  · show ∀ p ∈ ((C ++ D) ++ R).take st.used, p.2 ≤ UNREACHABLE
    rw [htake]
    intro p hp
    rcases List.mem_append.mp hp with h | h
    · rcases hCmem p h with h' | h'
      · exact hwf.times_le p h'
      · rw [h']; exact hxt
    · exact hwf.times_le p (hDmem p h)
  · show (((C ++ D) ++ R).take st.used).map Prod.fst |>.Nodup
    rw [htake]
    have hperm : (C ++ D).Perm ((A ++ [x]) ++ D) := hC2.append_right D
    have hmapperm : ((C ++ D).map Prod.fst).Perm
        (((A ++ [x]) ++ D).map Prod.fst) := hperm.map _
    rw [hmapperm.nodup_iff]
    rcases hsrc with hcase | hcase
    · have heq : ((A ++ [x]) ++ D).map Prod.fst = pop.map Prod.fst := by
        rw [hpop_dec]
        simp only [List.map_append, List.map_cons, List.map_nil]
        rw [hbj] at hcase
        rw [hcase]
        simp
      rw [heq]
      exact hwf.nodup
    · have hperm2 : (((A ++ [x]) ++ D)).Perm (x :: (A ++ D)) := by
        have h0 : (A ++ [x]) ++ D = A ++ x :: D := by simp
        rw [h0]
        exact List.perm_middle
      have hmp : (((A ++ [x]) ++ D).map Prod.fst).Perm
          ((x :: (A ++ D)).map Prod.fst) := hperm2.map _
      rw [hmp.nodup_iff]
      simp only [List.map_cons]
      refine List.nodup_cons.mpr ⟨?_, ?_⟩
      · intro hmem
        obtain ⟨p, hp, hpe⟩ := List.mem_map.mp hmem
        exact hcase p (hADmem p hp) hpe
      · refine List.Nodup.sublist ?_ hwf.nodup
        refine List.Sublist.map _ ?_
        show List.Sublist (A ++ D) pop
        rw [hpop_dec]
        exact List.Sublist.append_left (List.sublist_cons_self b D) A

lemma ins_pos_le (slots : List (ℤ × ℕ)) (used t : ℕ) :
    ins_pos slots used t ≤ used := by
  unfold ins_pos
  cases hf : (List.range used).find?
      (fun j => decide (t < (slots.getD j emptySlot).2)) with
  | none => simp
  | some i =>
    simp only [Option.getD_some]
    exact Nat.le_of_lt (List.mem_range.mp (List.mem_of_find?_eq_some hf))

lemma ins_pos_before (slots : List (ℤ × ℕ)) (used t : ℕ) {j : ℕ}
    (hj : j < ins_pos slots used t) (hju : j < used) :
    (slots.getD j emptySlot).2 ≤ t := by
  unfold ins_pos at hj
  cases hf : (List.range used).find?
      (fun j => decide (t < (slots.getD j emptySlot).2)) with
  | none =>
    have := List.find?_eq_none.mp hf j (List.mem_range.mpr hju)
    simpa using this
  | some i =>
    rw [hf] at hj
    simp only [Option.getD_some] at hj
    obtain ⟨_, ii, hii, hel, hbefore⟩ := List.find?_eq_some_iff_getElem.mp hf
    have hlen : ii < used := by simpa using hii
    have hel' : ii = i := by rw [List.getElem_range] at hel; exact hel
    subst hel'
    have := hbefore j (by omega)
    rw [List.getElem_range] at this
    simpa using this

lemma ins_pos_at (slots : List (ℤ × ℕ)) (used t : ℕ)
    (h : ins_pos slots used t < used) :
    t < (slots.getD (ins_pos slots used t) emptySlot).2 := by
  cases hf : (List.range used).find?
      (fun j => decide (t < (slots.getD j emptySlot).2)) with
  | none =>
    exfalso
    have h' : ins_pos slots used t = used := by unfold ins_pos; rw [hf]; rfl
    omega
  | some i =>
    have h' : ins_pos slots used t = i := by unfold ins_pos; rw [hf]; rfl
    rw [h']
    have := List.find?_some hf
    simpa using this

/-- The fresh-insert branch (`used < k`, anchor not present) preserves
well-formedness. -/
lemma fresh_insert_wf {k : ℕ} {st : LabelStore} (hwf : StoreWF k st)
    {x : ℤ × ℕ} (hx0 : 0 ≤ x.1) (hxt : x.2 ≤ UNREACHABLE)
    (hns : ∀ p ∈ st.slots.take st.used, p.1 ≠ x.1)
    (hused : st.used < k) (pr : ℕ) :
    StoreWF k ⟨(shift_right st.slots (ins_pos st.slots st.used x.2) st.used).set
      (ins_pos st.slots st.used x.2) x, st.used + 1, pr⟩ := by
  have hpoplen := hwf.pop_length
  set pop := st.slots.take st.used with hpop
  set ins := ins_pos st.slots st.used x.2 with hins
  have hins_le : ins ≤ st.used := ins_pos_le _ _ _
  have hinsk : ins < k := Nat.lt_of_le_of_lt hins_le hused
  have hinsl : ins < st.slots.length := by rw [hwf.len]; exact hinsk
  have husedl : st.used < st.slots.length := by rw [hwf.len]; exact hused
  -- shift + set characterisation
  have hshift := shift_right_spec st.used st.slots ins hins_le husedl
  have hsetchar : (shift_right st.slots ins st.used).set ins x
      = st.slots.take ins ++ x :: ((st.slots.drop ins).take (st.used - ins)
          ++ st.slots.drop (st.used + 1)) := by
    rw [hshift]
    have htk : st.slots.take (ins + 1)
        = st.slots.take ins ++ [st.slots.getD ins emptySlot] := by
      rw [List.take_succ, List.getElem?_eq_getElem hinsl,
        List.getD_eq_getElem _ _ hinsl]
      rfl
    rw [htk]
    have hlen1 : (st.slots.take ins).length = ins :=
      length_take_of_le _ _ (Nat.le_of_lt hinsl)
    have : (st.slots.take ins ++ [st.slots.getD ins emptySlot])
          ++ (st.slots.drop ins).take (st.used - ins) ++ st.slots.drop (st.used + 1)
        = st.slots.take ins ++ st.slots.getD ins emptySlot ::
            ((st.slots.drop ins).take (st.used - ins) ++ st.slots.drop (st.used + 1)) := by
      simp
    rw [this]
    exact set_append_cons_len _ _ _ _ hlen1
  -- translate pieces into the populated prefix
  have htake_ins : st.slots.take ins = pop.take ins := by
    rw [hpop, List.take_take, Nat.min_eq_left hins_le]
  have hdrop_take : (st.slots.drop ins).take (st.used - ins) = pop.drop ins := by
    rw [hpop, List.drop_take]
  have hdrop_used : st.slots.drop (st.used + 1)
      = List.replicate (k - (st.used + 1)) emptySlot := by
    conv_lhs => rw [hwf.slots_eq]
    have h1 : st.used + 1 = (st.slots.take st.used).length + 1 := by
      rw [hpoplen]
    rw [h1, List.drop_append, List.drop_replicate]
    congr 1
    omega
  set R' := List.replicate (k - (st.used + 1)) emptySlot with hR'
  have hchar : (shift_right st.slots ins st.used).set ins x
      = (pop.take ins ++ x :: pop.drop ins) ++ R' := by
    rw [hsetchar, htake_ins, hdrop_take, hdrop_used]
    simp
  have hinsp : ins ≤ pop.length := by rw [hpoplen]; exact hins_le
  have hP'len : (pop.take ins ++ x :: pop.drop ins).length = st.used + 1 := by
    rw [List.length_append, List.length_cons, List.length_drop,
      length_take_of_le pop ins hinsp, hpoplen]
    omega
  have htake2 : ((pop.take ins ++ x :: pop.drop ins) ++ R').take (st.used + 1)
      = pop.take ins ++ x :: pop.drop ins := List.take_left' hP'len
  -- ordering facts from `ins_pos`
  have htake_le_x : ∀ y ∈ pop.take ins, y.2 ≤ x.2 := by
    intro y hy
    obtain ⟨i, hi, hil, hgd⟩ := exists_getD_of_mem_take hy
    have hiu : i < st.used := by rw [← hpoplen]; exact hil
    have := ins_pos_before st.slots st.used x.2 (by rw [← hins]; omega) hiu
    rw [← getD_take_of_lt st.slots st.used i hiu, ← hpop, hgd] at this
    exact this
  have hx_le_drop : ∀ z ∈ pop.drop ins, x.2 ≤ z.2 := by
    intro z hz
    obtain ⟨i, hi, hil, hgd⟩ := exists_getD_of_mem_drop hz
    have hiu : i < st.used := by rw [← hpoplen]; exact hil
    have hinsu : ins < st.used := Nat.lt_of_le_of_lt hi hiu
    have h1 : x.2 < (st.slots.getD ins emptySlot).2 := by
      have := ins_pos_at st.slots st.used x.2 (by rw [← hins]; exact hinsu)
      rw [← hins] at this
      exact this
    have h2 : (st.slots.getD ins emptySlot).2 ≤ (st.slots.getD i emptySlot).2 :=
      hwf.sorted_getD hi hiu
    have h3 : st.slots.getD i emptySlot = z := by
      rw [← getD_take_of_lt st.slots st.used i hiu, ← hpop]
      exact hgd
    rw [h3] at h2
    omega
  rw [hchar]
  constructor
  · show ((pop.take ins ++ x :: pop.drop ins) ++ R').length = k
    rw [List.length_append, hP'len, hR', List.length_replicate]
    omega
  · exact hused
  · show (pop.take ins ++ x :: pop.drop ins) ++ R' = _ ++ _
    rw [htake2]
  · show List.Sorted slotLe _
    rw [htake2]
    show List.Pairwise slotLe (pop.take ins ++ x :: pop.drop ins)
    rw [List.pairwise_append]
    refine ⟨List.Pairwise.sublist (List.take_sublist _ _) hwf.sorted, ?_, ?_⟩
    · refine List.pairwise_cons.mpr ⟨fun z hz => hx_le_drop z hz, ?_⟩
      exact List.Pairwise.sublist (List.drop_sublist _ _) hwf.sorted
    · intro y hy z hz
      rcases List.mem_cons.mp hz with h | h
      · exact h ▸ htake_le_x y hy
      · exact Nat.le_trans (htake_le_x y hy) (hx_le_drop z h)
  · show ∀ p ∈ ((pop.take ins ++ x :: pop.drop ins) ++ R').take (st.used + 1),
        0 ≤ p.1
    rw [htake2]
    intro p hp
    rcases List.mem_append.mp hp with h | h
    · exact hwf.nonneg p (List.mem_of_mem_take h)
    · rcases List.mem_cons.mp h with h' | h'
      · rw [h']; exact hx0
      · exact hwf.nonneg p (List.mem_of_mem_drop h')
  · show ∀ p ∈ ((pop.take ins ++ x :: pop.drop ins) ++ R').take (st.used + 1),
        p.2 ≤ UNREACHABLE
    rw [htake2]
    intro p hp
    rcases List.mem_append.mp hp with h | h
    · exact hwf.times_le p (List.mem_of_mem_take h)
    · rcases List.mem_cons.mp h with h' | h'
      · rw [h']; exact hxt
      · exact hwf.times_le p (List.mem_of_mem_drop h')
  · show (List.map Prod.fst
        (((pop.take ins ++ x :: pop.drop ins) ++ R').take (st.used + 1))).Nodup
    rw [htake2]
    have hperm : (pop.take ins ++ x :: pop.drop ins).Perm
        (x :: (pop.take ins ++ pop.drop ins)) := List.perm_middle
    have hmp := (hperm.map Prod.fst).nodup_iff
    rw [hmp]
    simp only [List.map_cons]
    refine List.nodup_cons.mpr ⟨?_, ?_⟩
    · intro hmem
      obtain ⟨p, hp, hpe⟩ := List.mem_map.mp hmem
      rw [List.take_append_drop] at hp
      exact hns p hp hpe
    · rw [List.take_append_drop]
      exact hwf.nodup

lemma find_src_none {slots : List (ℤ × ℕ)} {used : ℕ} {src : ℤ}
    (h : find_src slots used src = none) :
    ∀ j < used, (slots.getD j emptySlot).1 ≠ src := by
  intro j hj
  have := List.find?_eq_none.mp h j (List.mem_range.mpr hj)
  simpa using this

lemma find_src_some {slots : List (ℤ × ℕ)} {used : ℕ} {src : ℤ} {j : ℕ}
    (h : find_src slots used src = some j) :
    j < used ∧ (slots.getD j emptySlot).1 = src := by
  refine ⟨List.mem_range.mp (List.mem_of_find?_eq_some h), ?_⟩
  have := List.find?_some h
  simpa using this

/-- Full characterisation of the worst-overflow scan. -/
lemma worst_over_spec (slots : List (ℤ × ℕ)) (cp : ℕ) : ∀ (k : ℕ),
    (worst_over slots k cp = none → ∀ j < k, (slots.getD j emptySlot).2 ≤ cp) ∧
    (∀ widx wt, worst_over slots k cp = some (widx, wt) →
      widx < k ∧ (slots.getD widx emptySlot).2 = wt ∧ cp < wt ∧
      ∀ j < k, cp < (slots.getD j emptySlot).2 → (slots.getD j emptySlot).2 ≤ wt) := by
  intro k
  induction k with
  | zero =>
    constructor
    · intro _ j hj; omega
    · intro widx wt h
      simp [worst_over] at h
  | succ m ih =>
    have hstep : worst_over slots (m + 1) cp
        = (fun acc j =>
            let tj := (slots.getD j emptySlot).2
            if cp < tj then
              match acc with
              | none => some (j, tj)
              | some (_, wt) => if wt < tj then some (j, tj) else acc
            else acc) (worst_over slots m cp) m := by
      unfold worst_over
      rw [List.range_succ, List.foldl_append]
      rfl
    by_cases hcp : cp < (slots.getD m emptySlot).2
    · cases hwo : worst_over slots m cp with
      | none =>
        rw [hwo] at hstep
        simp only [if_pos hcp] at hstep
        constructor
        · intro hcon
          rw [hcon] at hstep
          exact absurd hstep.symm (by simp)
        · intro widx wt h
          rw [h] at hstep
          have hpair := hstep.symm
          simp only [Option.some.injEq, Prod.mk.injEq] at hpair
          obtain ⟨h1, h2⟩ := hpair
          subst h1
          subst h2
          refine ⟨Nat.lt_succ_self _, rfl, hcp, ?_⟩
          intro j hj hcpj
          rcases Nat.lt_succ_iff_lt_or_eq.mp hj with h' | h'
          · have := ih.1 hwo j h'
            omega
          · subst h'
            exact Nat.le_refl _
      | some pr =>
        obtain ⟨wi, wt0⟩ := pr
        obtain ⟨hwi, hwslot, hwcp, hwmax⟩ := ih.2 wi wt0 hwo
        rw [hwo] at hstep
        simp only [if_pos hcp] at hstep
        by_cases hless : wt0 < (slots.getD m emptySlot).2
        · rw [if_pos hless] at hstep
          constructor
          · intro hcon
            rw [hcon] at hstep
            exact absurd hstep.symm (by simp)
          · intro widx wt h
            rw [h] at hstep
            have hpair := hstep.symm
            simp only [Option.some.injEq, Prod.mk.injEq] at hpair
            obtain ⟨h1, h2⟩ := hpair
            subst h1
            subst h2
            refine ⟨Nat.lt_succ_self _, rfl, hcp, ?_⟩
            intro j hj hcpj
            rcases Nat.lt_succ_iff_lt_or_eq.mp hj with h' | h'
            · have := hwmax j h' hcpj
              omega
            · subst h'
              exact Nat.le_refl _
        · rw [if_neg hless] at hstep
          constructor
          · intro hcon
            rw [hcon] at hstep
            exact absurd hstep.symm (by simp)
          · intro widx wt h
            rw [h] at hstep
            have hpair := hstep.symm
            simp only [Option.some.injEq, Prod.mk.injEq] at hpair
            obtain ⟨h1, h2⟩ := hpair
            subst h1
            subst h2
            refine ⟨Nat.lt_succ_of_lt hwi, hwslot, hwcp, ?_⟩
            intro j hj hcpj
            rcases Nat.lt_succ_iff_lt_or_eq.mp hj with h' | h'
            · exact hwmax j h' hcpj
            · subst h'
              omega
    · cases hwo : worst_over slots m cp with
      | none =>
        rw [hwo] at hstep
        simp only [if_neg hcp] at hstep
        constructor
        · intro _
          intro j hj
          rcases Nat.lt_succ_iff_lt_or_eq.mp hj with h' | h'
          · exact ih.1 hwo j h'
          · subst h'
            omega
        · intro widx wt h
          rw [h] at hstep
          exact absurd hstep (by simp)
      | some pr =>
        obtain ⟨wi, wt0⟩ := pr
        obtain ⟨hwi, hwslot, hwcp, hwmax⟩ := ih.2 wi wt0 hwo
        rw [hwo] at hstep
        simp only [if_neg hcp] at hstep
        constructor
        · intro hcon
          rw [hcon] at hstep
          exact absurd hstep (by simp)
        · intro widx wt h
          rw [h] at hstep
          have hpair := hstep
          simp only [Option.some.injEq, Prod.mk.injEq] at hpair
          obtain ⟨h1, h2⟩ := hpair
          subst h1
          subst h2
          refine ⟨Nat.lt_succ_of_lt hwi, hwslot, hwcp, ?_⟩
          intro j hj hcpj
          rcases Nat.lt_succ_iff_lt_or_eq.mp hj with h' | h'
          · exact hwmax j h' hcpj
          · subst h'
            omega

/-- `insert_label_for_node` preserves store well-formedness for non-negative
anchors and times at most the sentinel. -/
theorem insert_label_wf {k cp : ℕ} {st : LabelStore} (hwf : StoreWF k st)
    {src : ℤ} (hsrc : 0 ≤ src) {t : ℕ} (ht : t ≤ UNREACHABLE) :
    StoreWF k (insert_label_for_node k src t cp st) := by
  unfold insert_label_for_node
  cases hfind : find_src st.slots st.used src with
  | some j =>
    obtain ⟨hj, hsj⟩ := find_src_some hfind
    simp only
    by_cases hlt : t < (st.slots.getD j emptySlot).2
    · rw [if_pos hlt]
      exact replace_bubble_wf hwf hj hsrc ht hlt (Or.inl hsj.symm) _
    · rw [if_neg hlt]
      exact hwf
  | none =>
    have hns := find_src_none hfind
    have hns' : ∀ p ∈ st.slots.take st.used, p.1 ≠ src := by
      intro p hp
      obtain ⟨i, hi, _, hgd⟩ := exists_getD_of_mem_take hp
      rw [← hgd]
      exact hns i hi
    simp only
    by_cases hu : st.used < k
    · rw [if_pos hu]
      exact @fresh_insert_wf _ _ hwf (src, t) hsrc ht hns' hu _
    · rw [if_neg hu]
      have huk : st.used = k := Nat.le_antisymm hwf.used_le (Nat.le_of_not_lt hu)
      by_cases hprim : t ≤ cp
      · rw [if_pos hprim]
        by_cases hworst : t < (st.slots.getD (k - 1) emptySlot).2
        · rw [if_pos hworst]
          rcases Nat.eq_zero_or_pos k with hk0 | hk0
          · have hnil : st.slots = [] := by
              have hl := hwf.len
              rw [hk0] at hl
              exact List.length_eq_zero.mp hl
            subst hk0
            constructor <;> simp [hnil, huk, bubble_left]
          · have hj : k - 1 < st.used := by omega
            exact replace_bubble_wf hwf hj hsrc ht hworst (Or.inr hns') _
        · rw [if_neg hworst]
          exact hwf
      · rw [if_neg hprim]
        by_cases hpk : st.primary < k
        · rw [if_pos hpk]
          cases hwo : worst_over st.slots k cp with
          | none => exact hwf
          | some pr =>
            obtain ⟨widx, wt⟩ := pr
            obtain ⟨hwi, _, _, _⟩ := (worst_over_spec st.slots cp k).2 widx wt hwo
            simp only
            by_cases hlt2 : t < (st.slots.getD widx emptySlot).2
            · rw [if_pos hlt2]
              have hj : widx < st.used := by omega
              exact replace_bubble_wf hwf hj hsrc ht hlt2 (Or.inr hns') _
            · rw [if_neg hlt2]
              exact hwf
        · rw [if_neg hpk]
          exact hwf

/-- Every slot of the store after an insert was either already present or is
the inserted pair. -/
theorem insert_label_mem {k cp : ℕ} {st : LabelStore} (hwf : StoreWF k st)
    {src : ℤ} {t : ℕ} :
    ∀ p ∈ (insert_label_for_node k src t cp st).slots,
      p ∈ st.slots ∨ p = (src, t) := by
  have hreplace : ∀ (j : ℕ), j < st.slots.length →
      ∀ p ∈ bubble_left (st.slots.set j (src, t)) j,
        p ∈ st.slots ∨ p = (src, t) := by
    intro j hj p hp
    have hjl : j < (st.slots.set j (src, t)).length := by simpa using hj
    have hperm := bubble_left_perm j (st.slots.set j (src, t)) hjl
    have hmem := hperm.mem_iff.mp hp
    exact List.mem_or_eq_of_mem_set hmem
  unfold insert_label_for_node
  cases hfind : find_src st.slots st.used src with
  | some j =>
    obtain ⟨hj, _⟩ := find_src_some hfind
    simp only
    by_cases hlt : t < (st.slots.getD j emptySlot).2
    · rw [if_pos hlt]
      exact hreplace j (by rw [hwf.len]; exact Nat.lt_of_lt_of_le hj hwf.used_le)
    · rw [if_neg hlt]
      intro p hp
      exact Or.inl hp
  | none =>
    simp only
    by_cases hu : st.used < k
    · rw [if_pos hu]
      intro p hp
      have husedl : st.used < st.slots.length := by rw [hwf.len]; exact hu
      have hins_le := ins_pos_le st.slots st.used t
      have hshift := shift_right_spec st.used st.slots
        (ins_pos st.slots st.used t) hins_le husedl
      rcases List.mem_or_eq_of_mem_set hp with h | h
      · rw [hshift] at h
        left
        rcases List.mem_append.mp h with h' | h'
        · rcases List.mem_append.mp h' with h'' | h''
          · exact List.mem_of_mem_take h''
          · exact List.mem_of_mem_drop (List.mem_of_mem_take h'')
        · exact List.mem_of_mem_drop h'
      · exact Or.inr h
    · rw [if_neg hu]
      have huk : st.used = k := Nat.le_antisymm hwf.used_le (Nat.le_of_not_lt hu)
      by_cases hprim : t ≤ cp
      · rw [if_pos hprim]
        by_cases hworst : t < (st.slots.getD (k - 1) emptySlot).2
        · rw [if_pos hworst]
          rcases Nat.eq_zero_or_pos k with hk0 | hk0
          · have hnil : st.slots = [] := by
              have hl := hwf.len
              rw [hk0] at hl
              exact List.length_eq_zero.mp hl
            subst hk0
            intro p hp
            rw [hnil] at hp
            simp [bubble_left] at hp
          · exact hreplace (k - 1) (by rw [hwf.len]; omega)
        · rw [if_neg hworst]
          intro p hp
          exact Or.inl hp
      · rw [if_neg hprim]
        by_cases hpk : st.primary < k
        · rw [if_pos hpk]
          cases hwo : worst_over st.slots k cp with
          | none =>
            intro p hp
            exact Or.inl hp
          | some pr =>
            obtain ⟨widx, wt⟩ := pr
            obtain ⟨hwi, _, _, _⟩ := (worst_over_spec st.slots cp k).2 widx wt hwo
            simp only
            by_cases hlt2 : t < (st.slots.getD widx emptySlot).2
            · rw [if_pos hlt2]
              exact hreplace widx (by rw [hwf.len]; exact hwi)
            · rw [if_neg hlt2]
              intro p hp
              exact Or.inl hp
        · rw [if_neg hpk]
          intro p hp
          exact Or.inl hp

/-- C3: overflow insert on a full store.  With `used = K`, an anchor that is
not yet present, and an overflow candidate (`t > cutoff_primary`):
the store acts only if `primary_count < K` (a full store with
`primary_count = K` rejects the candidate outright); the scanned slot holds
the largest time among slots with time above `cutoff_primary`, it is replaced
(and the row re-sorted) exactly when `t` is strictly smaller than that time,
and otherwise the store is unchanged. -/
theorem insert_overflow_branch {k cp : ℕ} {st : LabelStore} (hwf : StoreWF k st)
    (hfull : st.used = k) {src : ℤ} (hsrc : 0 ≤ src)
    (hnot : find_src st.slots st.used src = none)
    {t : ℕ} (ht : t ≤ UNREACHABLE) (hover : cp < t) :
    (k ≤ st.primary → insert_label_for_node k src t cp st = st) ∧
    (st.primary < k →
      (worst_over st.slots k cp = none →
        insert_label_for_node k src t cp st = st) ∧
      (∀ widx wt, worst_over st.slots k cp = some (widx, wt) →
        widx < k ∧ (st.slots.getD widx emptySlot).2 = wt ∧
        (∀ j < k, cp < (st.slots.getD j emptySlot).2 →
          (st.slots.getD j emptySlot).2 ≤ wt) ∧
        (¬ t < wt → insert_label_for_node k src t cp st = st) ∧
        (t < wt →
          (insert_label_for_node k src t cp st).slots.Perm
            (st.slots.set widx (src, t)) ∧
          List.Sorted slotLe (insert_label_for_node k src t cp st).slots ∧
          (insert_label_for_node k src t cp st).used = st.used))) := by
  have hstep : ∀ P : LabelStore → Prop,
      (P (if st.primary < k then
            match worst_over st.slots k cp with
            | some (widx, _) =>
              if t < (st.slots.getD widx emptySlot).2 then
                { st with slots := bubble_left (st.slots.set widx (src, t)) widx }
              else st
            | none => st
          else st)) →
      P (insert_label_for_node k src t cp st) := by
    intro P hP
    unfold insert_label_for_node
    rw [hnot]
    simp only
    rw [if_neg (by omega : ¬ st.used < k), if_neg (by omega : ¬ t ≤ cp)]
    exact hP
  constructor
  · intro hk
    apply hstep (fun res => res = st)
    rw [if_neg (by omega)]
  · intro hpk
    constructor
    · intro hwo
      apply hstep (fun res => res = st)
      rw [if_pos hpk, hwo]
    · intro widx wt hwo
      obtain ⟨hwi, hwslot, hwcp, hwmax⟩ := (worst_over_spec st.slots cp k).2 widx wt hwo
      refine ⟨hwi, hwslot, (fun j hj h => hwmax j hj h), ?_, ?_⟩
      · intro hnlt
        apply hstep (fun res => res = st)
        rw [if_pos hpk, hwo]
        simp only
        rw [if_neg (by rw [hwslot]; exact hnlt)]
      · intro hlt
        have hres : insert_label_for_node k src t cp st
            = { st with slots := bubble_left (st.slots.set widx (src, t)) widx } := by
          apply hstep (fun res =>
            res = { st with slots := bubble_left (st.slots.set widx (src, t)) widx })
          rw [if_pos hpk, hwo]
          simp only
          rw [if_pos (by rw [hwslot]; exact hlt)]
        have hwf' := @insert_label_wf k cp st hwf src hsrc t ht
        refine ⟨?_, ?_, ?_⟩
        · rw [hres]
          exact bubble_left_perm widx _ (by
            rw [List.length_set, hwf.len]
            exact hwi)
        · have hlen' := hwf'.len
          have hused' : (insert_label_for_node k src t cp st).used = st.used := by
            rw [hres]
          have htl : (insert_label_for_node k src t cp st).slots.take k
              = (insert_label_for_node k src t cp st).slots :=
            List.take_of_length_le (Nat.le_of_eq hlen')
          have := hwf'.sorted
          rw [hused', hfull, htl] at this
          exact this
        · rw [hres]

theorem insert_overflow_branch_witness :
    insert_label_for_node 2 2 45 10 c3store = c3store := by
  have h := @insert_overflow_branch 2 10 c3store
    (by constructor <;> decide) (by decide) 2 (by decide) (by decide)
    45 (by decide) (by decide)
  exact ((h.2 (by decide)).2 1 40 (by decide)).2.2.2.1 (by decide)

/-! ### Engine invariants -/

/-- All stores stay well-formed through the main loop (with a cursor bounded
by the bucket count, so that every recorded time fits in a `u16`). -/
lemma compute_chunk_loop_wf (P : ChunkParams) (hco : P.co ≤ 65535) :
    ∀ (fuel : ℕ) (s : ChunkState),
      (∀ st ∈ s.stores, StoreWF P.k st) → s.cur_idx ≤ P.co →
      ∀ out, compute_chunk_loop P fuel s = some out →
        ∀ st ∈ out, StoreWF P.k st := by
  intro fuel
  induction fuel with
  | zero =>
    intro s _ _ out h
    simp [compute_chunk_loop] at h
  | succ f ih =>
    intro s hstores hcur out h
    rw [compute_chunk_loop] at h
    by_cases hac : s.active_count = 0
    · rw [if_pos hac] at h
      have : s.stores = out := by simpa using h
      rw [← this]
      exact hstores
    · rw [if_neg hac] at h
      by_cases hscan : (! s.active.getD s.cur_idx false
          || (s.buckets.getD s.cur_idx []).isEmpty) = true
      · rw [if_pos hscan] at h
        refine ih _ ?_ ?_ out h
        · by_cases hde : (s.active.getD s.cur_idx false
              && (s.buckets.getD s.cur_idx []).isEmpty) = true
          · rw [if_pos hde]
            exact hstores
          · rw [if_neg hde]
            exact hstores
        · by_cases hde : (s.active.getD s.cur_idx false
              && (s.buckets.getD s.cur_idx []).isEmpty) = true
          · rw [if_pos hde]
            exact Nat.lt_succ_iff.mp (Nat.mod_lt _ (Nat.succ_pos _))
          · rw [if_neg hde]
            exact Nat.lt_succ_iff.mp (Nat.mod_lt _ (Nat.succ_pos _))
      · rw [if_neg hscan] at h
        rcases hbc : s.buckets.getD s.cur_idx [] with _ | ⟨⟨u, src⟩, rest⟩
        · rw [hbc] at h
          simp at h
        · rw [hbc] at h
          dsimp only at h
          by_cases hpb : pb_hit s.pair_best (u, src) s.cur_idx = true
        -- pair_best dedup: state unchanged except buckets
          · rw [if_pos hpb] at h
            refine ih _ ?_ ?_ out h
            · exact hstores
            · exact hcur
          · rw [if_neg hpb] at h
            by_cases hskip : (if (s.stores.getD u (emptyStore P.k)).primary = P.k
                then if worst_time (s.stores.getD u (emptyStore P.k)) P.k ≤ s.cur_idx
                  then true
                  else decide (0 < P.min_out.getD u 0 ∧
                    worst_time (s.stores.getD u (emptyStore P.k)) P.k
                      ≤ min (s.cur_idx + P.min_out.getD u 0) 65535)
                else false) = true
            · rw [if_pos hskip] at h
              refine ih _ ?_ ?_ out h
              · exact hstores
              · exact hcur
            · rw [if_neg hskip] at h
              -- the store at u is updated by an insert
              have hwfu : StoreWF P.k (s.stores.getD u (emptyStore P.k)) := by
                by_cases hu : u < s.stores.length
                · refine hstores _ ?_
                  rw [List.getD_eq_getElem _ _ hu]
                  exact List.getElem_mem hu
                · rw [List.getD_eq_default _ _ (Nat.le_of_not_lt hu)]
                  exact emptyStore_wf P.k
              have hwfins : StoreWF P.k (insert_label_for_node P.k (src : ℤ)
                  s.cur_idx P.cp (s.stores.getD u (emptyStore P.k))) :=
                insert_label_wf hwfu (Int.ofNat_nonneg src)
                  (by unfold UNREACHABLE; omega)
              have hstores1 : ∀ st ∈ s.stores.set u
                  (insert_label_for_node P.k (src : ℤ) s.cur_idx P.cp
                    (s.stores.getD u (emptyStore P.k))), StoreWF P.k st := by
                intro st hst
                rcases List.mem_or_eq_of_mem_set hst with h' | h'
                · exact hstores st h'
                · rw [h']
                  exact hwfins
              by_cases hhit : ((((s.stores.getD u (emptyStore P.k)).used == 0)
                    && (match P.mask with
                        | some m => m.getD u 0 != 0
                        | none => false))
                  && ((if ((((s.stores.getD u (emptyStore P.k)).used == 0)
                        && (match P.mask with
                            | some m => m.getD u 0 != 0
                            | none => false)) = true)
                      then s.remaining_targets - 1 else s.remaining_targets) == 0))
                  = true
              · rw [if_pos hhit] at h
                injection h with h
                rw [← h]
                exact hstores1
              · rw [if_neg hhit] at h
                refine ih _ ?_ ?_ out h
                · exact hstores1
                · exact hcur

/-- `compute_chunk` returns only well-formed stores. -/
lemma compute_chunk_wf (P : ChunkParams) (hco : P.co ≤ 65535)
    (sources : List ℕ) (tt fuel : ℕ) (out : List LabelStore)
    (h : compute_chunk P sources tt fuel = some out) :
    ∀ st ∈ out, StoreWF P.k st := by
  unfold compute_chunk at h
  refine compute_chunk_loop_wf P hco fuel _ ?_ ?_ out h
  · split
    · intro st hst
      have hst' : st ∈ List.replicate P.n (emptyStore P.k) := hst
      rw [List.eq_of_mem_replicate hst']
      exact emptyStore_wf P.k
    · intro st hst
      have hst' : st ∈ List.replicate P.n (emptyStore P.k) := hst
      rw [List.eq_of_mem_replicate hst']
      exact emptyStore_wf P.k
  · split
    · exact Nat.zero_le _
    · exact Nat.zero_le _

lemma mem_foldl_append {α β : Type} (f : β → List α) (l : List β)
    (acc : List α) (c : α)
    (hc : c ∈ l.foldl (fun a r => a ++ f r) acc) :
    c ∈ acc ∨ ∃ r ∈ l, c ∈ f r := by
  induction l generalizing acc with
  | nil => exact Or.inl hc
  | cons x xs ih =>
    rcases ih (acc ++ f x) hc with h | h
    · rcases List.mem_append.mp h with h | h
      · exact Or.inl h
      · exact Or.inr ⟨x, List.mem_cons_self _ _, h⟩
    · rcases h with ⟨r, hr, hcr⟩
      exact Or.inr ⟨r, List.mem_cons_of_mem _ hr, hcr⟩

/-- Every candidate the merge gathers has a non-negative anchor and a time
below the sentinel (guaranteed by the gathering filter itself). -/
lemma node_candidates_bounds (k i : ℕ) (res : List LabelStore) :
    ∀ c ∈ node_candidates k i res, 0 ≤ c.2 ∧ c.1 ≤ UNREACHABLE := by
  intro c hc
  simp only [node_candidates, List.mem_filterMap] at hc
  obtain ⟨j, _, hj⟩ := hc
  split at hj
  · rename_i hcond
    injection hj with hj
    rw [← hj]
    exact ⟨hcond.1, Nat.le_of_lt hcond.2⟩
  · exact absurd hj (by simp)

/-- Replaying inserts of bounded candidates preserves well-formedness. -/
lemma foldl_insert_wf (k cp : ℕ) (l : List (ℕ × ℤ))
    (hl : ∀ c ∈ l, 0 ≤ c.2 ∧ c.1 ≤ UNREACHABLE) (st : LabelStore)
    (hst : StoreWF k st) :
    StoreWF k (l.foldl (fun st c => insert_label_for_node k c.2 c.1 cp st) st) := by
  induction l generalizing st with
  | nil => exact hst
  | cons c cs ih =>
    exact ih (fun d hd => hl d (List.mem_cons_of_mem _ hd)) _
      (insert_label_wf hst (hl c (List.mem_cons_self _ _)).1
        (hl c (List.mem_cons_self _ _)).2)

/-- Every store built by the parallel-path merge is well-formed (this relies
only on the gathering filter, not on the chunk results themselves). -/
lemma merge_chunks_wf (n k cp : ℕ) (crs : List (List LabelStore)) :
    ∀ st ∈ merge_chunks n k cp crs, StoreWF k st := by
  intro st hst
  simp only [merge_chunks, List.mem_map] at hst
  obtain ⟨i, _, hi⟩ := hst
  rw [← hi]
  refine foldl_insert_wf k cp _ ?_ _ (emptyStore_wf k)
  intro c hc
  have hc' : c ∈ crs.foldl (fun acc res => acc ++ node_candidates k i res) [] :=
    (List.perm_insertionSort cand_r _).mem_iff.mp hc
  rcases mem_foldl_append _ _ _ _ hc' with h | ⟨r, _, h⟩
  · exact absurd h (List.not_mem_nil c)
  · exact node_candidates_bounds k i r c h

/-- Both paths of `kbest_multisource_bucket_csr` return only well-formed
stores. -/
lemma kbest_stores_wf (csr : CSR) (sources : List ℕ) (k cp co threads : ℕ)
    (targets : Option (List ℤ)) (fuel : ℕ) (out : List LabelStore)
    (hco : co ≤ 65535)
    (h : kbest_multisource_bucket_csr csr sources k cp co threads targets fuel
      = some out) :
    ∀ st ∈ out, StoreWF k st := by
  unfold kbest_multisource_bucket_csr at h
  dsimp only at h
  split at h
  all_goals split at h
  all_goals
    first
    | (obtain ⟨rs, _, hout⟩ := Option.map_eq_some'.mp h
       rw [← hout]
       exact merge_chunks_wf _ _ _ _)
    | exact compute_chunk_wf _ hco _ _ _ out h

/-- A well-formed store's whole row is non-decreasing in time: the populated
prefix is sorted and every populated time is at most the sentinel `65535`. -/
lemma storeWF_slots_sorted {k : ℕ} {st : LabelStore} (h : StoreWF k st) :
    List.Sorted slotLe st.slots := by
  rw [h.slots_eq]
  rw [List.Sorted, List.pairwise_append]
  refine ⟨h.sorted, ?_, ?_⟩
  · exact List.pairwise_replicate.mpr (Or.inr (Nat.le_refl _))
  · intro a ha b hb
    have hb' := List.eq_of_mem_replicate hb
    rw [hb']
    exact h.times_le a ha

/-- C4 as stated is false: at node `1` the output row is
`[(2, 5), (0, 5)]` — equal times `5, 5` with anchors `2, 0`, so ties in
time are not ordered by ascending anchor id. -/
theorem kbest_tie_order_cex :
    ((c4run.getD []).getD 1 (emptyStore 2)).slots = [(2, 5), (0, 5)] ∧
    ¬ List.Sorted (fun a b : ℤ × ℕ => a.2 < b.2 ∨ (a.2 = b.2 ∧ a.1 ≤ b.1))
      ((c4run.getD []).getD 1 (emptyStore 2)).slots := by
  decide

/-- C4 (amended): after `kbest_multisource_bucket_csr` every output row has
exactly `k` slots, its time row is non-decreasing, the populated prefix has
pairwise-distinct non-negative anchors, and the empty slots `(-1, 65535)`
form a contiguous tail.  (The original tie clause — equal times ordered by
ascending anchor id — is dropped: the store keeps arrival order among equal
times, see the counterexample.) -/
theorem kbest_rows_canonical (csr : CSR) (sources : List ℕ)
    (k cp co threads : ℕ) (targets : Option (List ℤ)) (fuel : ℕ)
    (out : List LabelStore) (hco : co ≤ 65535)
    (h : kbest_multisource_bucket_csr csr sources k cp co threads targets fuel
      = some out) :
    ∀ st ∈ out, st.slots.length = k ∧ List.Sorted slotLe st.slots ∧
      (∀ p ∈ st.slots.take st.used, 0 ≤ p.1) ∧
      ((st.slots.take st.used).map Prod.fst).Nodup ∧
      st.used ≤ k ∧
      st.slots = st.slots.take st.used ++ List.replicate (k - st.used) emptySlot
    := by
  intro st hst
  have hwf := kbest_stores_wf csr sources k cp co threads targets fuel out hco
    h st hst
  exact ⟨hwf.len, storeWF_slots_sorted hwf, hwf.nonneg, hwf.nodup,
    hwf.used_le, hwf.slots_eq⟩

theorem kbest_rows_canonical_witness :
    (0 : ℕ) ≤ 65535 ∧ c4wit = some [⟨[(0, 0)], 1, 1⟩] ∧
    ∀ st ∈ [(⟨[(0, 0)], 1, 1⟩ : LabelStore)],
      st.slots.length = 1 ∧ List.Sorted slotLe st.slots ∧
      (∀ p ∈ st.slots.take st.used, 0 ≤ p.1) ∧
      ((st.slots.take st.used).map Prod.fst).Nodup ∧
      st.used ≤ 1 ∧
      st.slots = st.slots.take st.used
        ++ List.replicate (1 - st.used) emptySlot := by
  have hrun : kbest_multisource_bucket_csr ⟨[0, 0], [], []⟩ [0] 1 0 0 1 none 10
      = some [⟨[(0, 0)], 1, 1⟩] := by decide
  exact ⟨by decide, hrun,
    kbest_rows_canonical ⟨[0, 0], [], []⟩ [0] 1 0 0 1 none 10 _ (by decide) hrun⟩

/-- C5 as stated is false: on the same graph, anchors, K and cutoffs, the
single-chunk run keeps anchor `9` at node `0` while the two-thread
chunk-and-merge run keeps anchor `1` (both at time `1`), so the output is
not byte-identical across thread counts. -/
theorem kbest_thread_determinism_cex :
    ((c5run1.getD []).getD 0 (emptyStore 1)).slots = [(9, 1)] ∧
    ((c5run2.getD []).getD 0 (emptyStore 1)).slots = [(1, 1)] ∧
    c5run1.isSome = true ∧ c5run2.isSome = true ∧ c5run1 ≠ c5run2 := by
  decide

/-- C5 (amended): the chunk-and-merge computation is deterministic in the
candidate multisets: if two lists of chunk results contribute, for every
node, the same candidates up to order, `merge_chunks` returns identical
stores (the sort by `(time, src)` is by an antisymmetric total order, so
the replay order is canonical).  Byte-identity between the single-chunk
path and the parallel path fails — see the counterexample. -/
theorem merge_chunks_perm_invariant (n k cp : ℕ)
    (crs1 crs2 : List (List LabelStore))
    (hperm : ∀ i < n,
      (crs1.foldl (fun acc res => acc ++ node_candidates k i res) []).Perm
        (crs2.foldl (fun acc res => acc ++ node_candidates k i res) [])) :
    merge_chunks n k cp crs1 = merge_chunks n k cp crs2 := by
  unfold merge_chunks
  refine List.map_inj_left.mpr ?_
  intro i hi
  have hp := hperm i (List.mem_range.mp hi)
  have hsort :
      (crs1.foldl (fun acc res => acc ++ node_candidates k i res)
          []).insertionSort cand_r
        = (crs2.foldl (fun acc res => acc ++ node_candidates k i res)
          []).insertionSort cand_r := by
    exact List.eq_of_perm_of_sorted
      (((List.perm_insertionSort cand_r _).trans hp).trans
        (List.perm_insertionSort cand_r _).symm)
      (List.sorted_insertionSort cand_r _)
      (List.sorted_insertionSort cand_r _)
  show ((crs1.foldl (fun acc res => acc ++ node_candidates k i res)
        []).insertionSort cand_r).foldl
      (fun st c => insert_label_for_node k c.2 c.1 cp st) (emptyStore k)
    = ((crs2.foldl (fun acc res => acc ++ node_candidates k i res)
        []).insertionSort cand_r).foldl
      (fun st c => insert_label_for_node k c.2 c.1 cp st) (emptyStore k)
  rw [hsort]

theorem merge_chunks_perm_invariant_witness :
    (∀ i < 1,
      (c5w1.foldl (fun acc res => acc ++ node_candidates 1 i res) []).Perm
        (c5w2.foldl (fun acc res => acc ++ node_candidates 1 i res) [])) ∧
    merge_chunks 1 1 0 c5w1 = merge_chunks 1 1 0 c5w2 :=
  ⟨by decide, merge_chunks_perm_invariant 1 1 0 c5w1 c5w2 (by decide)⟩

/-- C2 as stated is false: node `2` is reached by `K = 1` anchors within
`cutoff_primary` (anchor `0` at distance `2 ≤ 10`), yet its output slot is
the empty `(-1, 65535)` — the `targets_idx` early stop ends the search as
soon as the lone target (node `0`) is labelled. -/
theorem kbest_primary_dominance_cex :
    ReachLen ⟨[0, 1, 2, 2], [1, 2], [1, 1]⟩ 0 2 2 ∧ (2 : ℕ) ≤ 10 ∧
    c2run.isSome = true ∧
    ((c2run.getD []).getD 2 (emptyStore 1)).slots = [(-1, 65535)] ∧
    ¬ (∀ p ∈ ((c2run.getD []).getD 2 (emptyStore 1)).slots, p.2 ≤ 10) := by
  refine ⟨?_, by decide, by decide, by decide, by decide⟩
  have h1 : csr_edge ⟨[0, 1, 2, 2], [1, 2], [1, 1]⟩ 0 1 1 := by decide
  have h2 : csr_edge ⟨[0, 1, 2, 2], [1, 2], [1, 1]⟩ 1 2 1 := by decide
  exact ReachLen.step (ReachLen.step ReachLen.refl h1) h2

/-- An insert into a full store never changes `labels_used`. -/
lemma insert_used_of_full {k cp : ℕ} {st : LabelStore} (h : ¬ st.used < k)
    (src : ℤ) (t : ℕ) : (insert_label_for_node k src t cp st).used = st.used := by
  unfold insert_label_for_node
  cases hfind : find_src st.slots st.used src with
  | some j =>
    simp only
    by_cases hlt : t < (st.slots.getD j emptySlot).2
    · rw [if_pos hlt]
    · rw [if_neg hlt]
  | none =>
    simp only
    rw [if_neg h]
    by_cases hcp : t ≤ cp
    · rw [if_pos hcp]
      by_cases hlt : t < (st.slots.getD (k - 1) emptySlot).2
      · rw [if_pos hlt]
      · rw [if_neg hlt]
    · rw [if_neg hcp]
      by_cases hpk : st.primary < k
      · rw [if_pos hpk]
        cases hwo : worst_over st.slots k cp with
        | some w =>
          obtain ⟨widx, wt⟩ := w
          simp only
          by_cases hlt : t < (st.slots.getD widx emptySlot).2
          · rw [if_pos hlt]
          · rw [if_neg hlt]
        | none => rfl
      · rw [if_neg hpk]

/-- C2 (amended): primary dominance holds at the store level — once a node's
store is full with `k` primary entries (every slot time at most
`cutoff_primary`), any further insert leaves it full with every slot still
primary: a primary entry is never displaced by an overflow entry.  The
global run-level claim fails when a `targets_idx` early stop fires — see
the counterexample. -/
theorem insert_primary_dominance (k cp : ℕ) (st : LabelStore)
    (hwf : StoreWF k st) (hfull : st.used = k)
    (hall : ∀ p ∈ st.slots, p.2 ≤ cp) (src : ℤ) (t : ℕ) :
    (insert_label_for_node k src t cp st).used = k ∧
    ∀ p ∈ (insert_label_for_node k src t cp st).slots, p.2 ≤ cp := by
  have hused : (insert_label_for_node k src t cp st).used = st.used :=
    insert_used_of_full (by omega) src t
  refine ⟨by rw [hused, hfull], ?_⟩
  by_cases hcp : t ≤ cp
  · intro p hp
    rcases insert_label_mem hwf p hp with h | h
    · exact hall p h
    · rw [h]
      exact hcp
  · have heq : insert_label_for_node k src t cp st = st := by
      unfold insert_label_for_node
      cases hfind : find_src st.slots st.used src with
      | some j =>
        obtain ⟨hj, _⟩ := find_src_some hfind
        simp only
        have hjlen : j < st.slots.length := by
          rw [hwf.len]
          omega
        have hmem : st.slots.getD j emptySlot ∈ st.slots := by
          rw [List.getD_eq_getElem _ _ hjlen]
          exact List.getElem_mem hjlen
        have hle := hall _ hmem
        rw [if_neg (by omega)]
      | none =>
        simp only
        rw [if_neg (by omega), if_neg hcp]
        by_cases hpk : st.primary < k
        · rw [if_pos hpk]
          cases hwo : worst_over st.slots k cp with
          | some w =>
            obtain ⟨widx, wt⟩ := w
            obtain ⟨hwi, hweq, hwgt, _⟩ :=
              (worst_over_spec st.slots cp k).2 widx wt hwo
            have hjlen : widx < st.slots.length := by
              rw [hwf.len]
              exact hwi
            have hmem : st.slots.getD widx emptySlot ∈ st.slots := by
              rw [List.getD_eq_getElem _ _ hjlen]
              exact List.getElem_mem hjlen
            have := hall _ hmem
            exfalso
            omega
          | none => rfl
        · rw [if_neg hpk]
    rw [heq]
    exact hall

theorem insert_primary_dominance_witness :
    (insert_label_for_node 1 7 20 10 ⟨[(0, 5)], 1, 1⟩).used = 1 ∧
    ∀ p ∈ (insert_label_for_node 1 7 20 10 ⟨[(0, 5)], 1, 1⟩).slots, p.2 ≤ 10 :=
  insert_primary_dominance 1 10 ⟨[(0, 5)], 1, 1⟩ (by constructor <;> decide)
    (by decide) (by decide) 7 20

/-! ### Symbolic execution helpers for the main loop -/

lemma getD_set_ne {α : Type} (l : List α) (n i : ℕ) (b d : α) (h : n ≠ i) :
    (l.set n b).getD i d = l.getD i d := by
  simp [List.getD_eq_getElem?_getD, List.getElem?_set_ne h]

lemma getD_set_eq {α : Type} (l : List α) (n : ℕ) (b d : α)
    (h : n < l.length) :
    (l.set n b).getD n d = b := by
  simp [List.getD_eq_getElem?_getD, List.getElem?_set_self, h]

lemma getD_replicate {α : Type} (x : α) (m j : ℕ) :
    (List.replicate m x).getD j x = x := by
  rcases Nat.lt_or_ge j m with h | h
  · simp [List.getD_eq_getElem?_getD, List.getElem?_replicate, h]
  · exact List.getD_eq_default _ _ (by rw [List.length_replicate]; exact h)

/-- Scanning `m` consecutive inactive cursor positions (with no wrap-around)
just advances the cursor by `m`, consuming `m` fuel. -/
lemma scan_advance (P : ChunkParams) : ∀ (m fuel : ℕ) (s : ChunkState),
    s.active_count ≠ 0 →
    (∀ i, i < m → s.active.getD (s.cur_idx + i) false = false) →
    s.cur_idx + m ≤ P.co →
    compute_chunk_loop P (m + fuel) s
      = compute_chunk_loop P fuel { s with cur_idx := s.cur_idx + m } := by
  intro m
  induction m with
  | zero =>
    intro fuel s _ _ _
    rw [Nat.zero_add]
    rfl
  | succ m ih =>
    intro fuel s hac hdead hle
    have hstep : compute_chunk_loop P (m + 1 + fuel) s
        = compute_chunk_loop P (m + fuel)
          { s with cur_idx := (s.cur_idx + 1) % (P.co + 1) } := by
      have hm1 : m + 1 + fuel = (m + fuel) + 1 := by omega
      rw [hm1, compute_chunk_loop]
      rw [if_neg hac]
      have hacur : s.active.getD s.cur_idx false = false := by
        have := hdead 0 (Nat.succ_pos m)
        simpa using this
      rw [hacur]
      simp only [Bool.not_false, Bool.true_or, if_pos]
      rw [if_neg (by simp [hacur])]
    rw [hstep]
    have hmod : (s.cur_idx + 1) % (P.co + 1) = s.cur_idx + 1 :=
      Nat.mod_eq_of_lt (by omega)
    rw [hmod]
    have := ih fuel { s with cur_idx := s.cur_idx + 1 } hac
      (fun i hi => by
        have := hdead (i + 1) (by omega)
        simpa [Nat.add_assoc, Nat.add_comm 1 i] using this)
      (by simpa [Nat.add_assoc, Nat.add_comm 1 m] using hle)
    rw [this]
    have harg : s.cur_idx + 1 + m = s.cur_idx + (m + 1) := by omega
    rw [harg]

/-- One full pop iteration of the main loop, with every branch condition and
intermediate value supplied as an equation (so a single step of a large run
can be taken without evaluating the whole bucket array). -/
lemma pop_step (P : ChunkParams) (fuel : ℕ) (s : ChunkState) (u src : ℕ)
    (rest : List (ℕ × ℕ)) (st1 : List LabelStore)
    (B2 : List (List (ℕ × ℕ))) (A2 A3 : List Bool) (C2 C3 : ℕ)
    (hac : s.active_count ≠ 0)
    (hacur : s.active.getD s.cur_idx false = true)
    (hbcur : s.buckets.getD s.cur_idx [] = (u, src) :: rest)
    (hpb : pb_hit s.pair_best (u, src) s.cur_idx = false)
    (hskip : (if (s.stores.getD u (emptyStore P.k)).primary = P.k
        then if worst_time (s.stores.getD u (emptyStore P.k)) P.k ≤ s.cur_idx
          then true
          else decide (0 < P.min_out.getD u 0 ∧
            worst_time (s.stores.getD u (emptyStore P.k)) P.k
              ≤ min (s.cur_idx + P.min_out.getD u 0) 65535)
        else false) = false)
    (hht : (((s.stores.getD u (emptyStore P.k)).used == 0)
        && (match P.mask with
            | some m => m.getD u 0 != 0
            | none => false)) = false)
    (hst1 : st1 = s.stores.set u (insert_label_for_node P.k (src : ℤ)
      s.cur_idx P.cp (s.stores.getD u (emptyStore P.k))))
    (hrelax : relax_edges P st1 (((u, src), s.cur_idx) :: s.pair_best) u src
      s.cur_idx (s.buckets.set s.cur_idx rest) s.active s.active_count
      = (B2, A2, C2))
    (hdeact : (if ((B2.getD s.cur_idx []).isEmpty && A2.getD s.cur_idx false)
        = true then (A2.set s.cur_idx false, C2 - 1) else (A2, C2))
      = (A3, C3)) :
    compute_chunk_loop P (fuel + 1) s
      = compute_chunk_loop P fuel
          ⟨st1, B2, A3, C3, s.cur_idx, ((u, src), s.cur_idx) :: s.pair_best,
            s.remaining_targets⟩ := by
  rw [compute_chunk_loop]
  rw [if_neg hac, hacur, hbcur]
  simp only [Bool.not_true, List.isEmpty_cons, Bool.false_or]
  rw [if_neg (by simp)]
  rw [hpb]
  rw [if_neg (by simp)]
  rw [hskip]
  rw [if_neg (by simp)]
  rw [hht]
  simp only [Bool.false_and]
  rw [if_neg (by simp)]
  rw [← hst1, hrelax]
  simp only
  rw [hdeact]
  simp only
  rw [if_neg (by simp)]

lemma c1a0_at_top : c1a0.getD 65535 false = false := by
  show ((List.replicate 65536 false).set 0 true).getD 65535 false = false
  rw [getD_set_ne _ _ _ _ _ (by decide)]
  exact getD_replicate _ _ _

lemma c1b0set_at_top : (c1b0.set 0 []).getD 65535 [] = [] := by
  rw [getD_set_ne _ _ _ _ _ (by decide)]
  show ((List.replicate 65536 ([] : List (ℕ × ℕ))).set 0 [(0, 0)]).getD
    65535 [] = []
  rw [getD_set_ne _ _ _ _ _ (by decide)]
  exact getD_replicate _ _ _

lemma c1A2_at_top : c1A2.getD 65535 false = true := by
  show (c1a0.set 65535 true).getD 65535 false = true
  rw [getD_set_eq]
  show 65535 < ((List.replicate 65536 false).set 0 true).length
  rw [List.length_set, List.length_replicate]
  decide

lemma c1A3_at_top : c1A3.getD 65535 false = true := by
  show (c1A2.set 0 false).getD 65535 false = true
  rw [getD_set_ne _ _ _ _ _ (by decide)]
  exact c1A2_at_top

lemma c1B2_at_top : c1B2.getD 65535 [] = [(1, 0)] := by
  show ((c1b0.set 0 []).set 65535 [(1, 0)]).getD 65535 [] = [(1, 0)]
  rw [getD_set_eq]
  show 65535 < ((((List.replicate 65536 ([] : List (ℕ × ℕ))).set 0
    [(0, 0)]).set 0 [])).length
  rw [List.length_set, List.length_set, List.length_replicate]
  decide

lemma c1B2set_at_top : (c1B2.set 65535 []).getD 65535 [] = [] := by
  rw [getD_set_eq]
  show 65535 < ((((List.replicate 65536 ([] : List (ℕ × ℕ))).set 0
    [(0, 0)]).set 0 []).set 65535 [(1, 0)]).length
  rw [List.length_set, List.length_set, List.length_set,
    List.length_replicate]
  decide

lemma c1B3_at_top : c1B3.getD 65535 [] = [(2, 0)] := by
  show ((c1B2.set 65535 []).set 65535 [(2, 0)]).getD 65535 [] = [(2, 0)]
  rw [getD_set_eq]
  show 65535 < (((((List.replicate 65536 ([] : List (ℕ × ℕ))).set 0
    [(0, 0)]).set 0 []).set 65535 [(1, 0)]).set 65535 []).length
  rw [List.length_set, List.length_set, List.length_set, List.length_set,
    List.length_replicate]
  decide

lemma c1B4_at_top : c1B4.getD 65535 [] = [] := by
  show (c1B3.set 65535 []).getD 65535 [] = []
  rw [getD_set_eq]
  show 65535 < ((((((List.replicate 65536 ([] : List (ℕ × ℕ))).set 0
    [(0, 0)]).set 0 []).set 65535 [(1, 0)]).set 65535 []).set 65535
    [(2, 0)]).length
  rw [List.length_set, List.length_set, List.length_set, List.length_set,
    List.length_set, List.length_replicate]
  decide

/-- Unfold `relax_edges` to a fold over an explicitly given edge range. -/
lemma relax_edges_eq (P : ChunkParams) (stores : List LabelStore)
    (pb : List ((ℕ × ℕ) × ℕ)) (u src du : ℕ) (B : List (List (ℕ × ℕ)))
    (A : List Bool) (C : ℕ) (l : List ℕ)
    (hl : List.range' (P.csr.indptr.getD u 0)
      (P.csr.indptr.getD (u + 1) 0 - P.csr.indptr.getD u 0) = l) :
    relax_edges P stores pb u src du B A C
      = l.foldl (relax_one P stores pb src du) (B, A, C) := by
  show List.foldl (relax_one P stores pb src du) (B, A, C)
      (List.range' (P.csr.indptr.getD u 0)
        (P.csr.indptr.getD (u + 1) 0 - P.csr.indptr.getD u 0))
    = List.foldl (relax_one P stores pb src du) (B, A, C) l
  rw [hl]

/-- One relaxation that passes every prune and pushes the pair, with each
condition supplied as an equation. -/
lemma relax_one_push (P : ChunkParams) (stores : List LabelStore)
    (pb : List ((ℕ × ℕ) × ℕ)) (src du e v w nd : ℕ)
    (B : List (List (ℕ × ℕ))) (A : List Bool) (C : ℕ)
    (bnd : List (ℕ × ℕ)) (av : Bool)
    (hv : P.csr.indices.getD e 0 = v)
    (hw : P.csr.w_sec.getD e 0 = w)
    (hnd : min (du + w) 65535 = nd)
    (hco : ¬ P.co < nd)
    (hpr : ¬ ((stores.getD v (emptyStore P.k)).primary = P.k ∧
      worst_time (stores.getD v (emptyStore P.k)) P.k ≤ nd))
    (hpb : pb_hit pb (v, src) nd = false)
    (hbnd : B.getD nd [] = bnd)
    (hav : A.getD nd false = av) :
    relax_one P stores pb src du (B, A, C) e
      = (B.set nd ((v, src) :: bnd),
         if av then A else A.set nd true,
         if av then C else C + 1) := by
  show (if P.co < min (du + P.csr.w_sec.getD e 0) 65535 then (B, A, C)
      else if (stores.getD (P.csr.indices.getD e 0) (emptyStore P.k)).primary
            = P.k ∧
          worst_time (stores.getD (P.csr.indices.getD e 0) (emptyStore P.k))
            P.k ≤ min (du + P.csr.w_sec.getD e 0) 65535 then (B, A, C)
      else if pb_hit pb (P.csr.indices.getD e 0, src)
          (min (du + P.csr.w_sec.getD e 0) 65535) = true then (B, A, C)
      else if A.getD (min (du + P.csr.w_sec.getD e 0) 65535) false = true
        then (B.set (min (du + P.csr.w_sec.getD e 0) 65535)
          ((P.csr.indices.getD e 0, src)
            :: B.getD (min (du + P.csr.w_sec.getD e 0) 65535) []), A, C)
        else (B.set (min (du + P.csr.w_sec.getD e 0) 65535)
          ((P.csr.indices.getD e 0, src)
            :: B.getD (min (du + P.csr.w_sec.getD e 0) 65535) []),
          A.set (min (du + P.csr.w_sec.getD e 0) 65535) true, C + 1))
    = (B.set nd ((v, src) :: bnd),
       if av then A else A.set nd true,
       if av then C else C + 1)
  rw [hw, hv, hnd]
  rw [if_neg hco]
  rw [if_neg hpr]
  rw [hpb]
  rw [if_neg (by simp)]
  rw [hbnd, hav]
  cases av
  · rfl
  · rfl

lemma c1relax1 : relax_edges c1P c1st1 [((0, 0), 0)] 0 0 0 (c1b0.set 0 [])
    c1a0 1 = (c1B2, c1A2, 2) := by
  rw [relax_edges_eq c1P c1st1 [((0, 0), 0)] 0 0 0 (c1b0.set 0 []) c1a0 1
    [0] (by decide)]
  rw [List.foldl_cons, List.foldl_nil]
  rw [relax_one_push c1P c1st1 [((0, 0), 0)] 0 0 0 1 65535 65535
    (c1b0.set 0 []) c1a0 1 [] false (by decide) (by decide) (by decide)
    (by decide) (by decide) (by decide) c1b0set_at_top c1a0_at_top]
  rfl

lemma c1relax2 : relax_edges c1P c1st2 [((1, 0), 65535), ((0, 0), 0)] 1 0 65535
    (c1B2.set 65535 []) c1A3 1 = (c1B3, c1A3, 1) := by
  rw [relax_edges_eq c1P c1st2 [((1, 0), 65535), ((0, 0), 0)] 1 0 65535
    (c1B2.set 65535 []) c1A3 1 [1] (by decide)]
  rw [List.foldl_cons, List.foldl_nil]
  rw [relax_one_push c1P c1st2 [((1, 0), 65535), ((0, 0), 0)] 0 65535 1 2
    65535 65535 (c1B2.set 65535 []) c1A3 1 [] true (by decide) (by decide)
    (by decide) (by decide) (by decide) (by decide) c1B2set_at_top
    c1A3_at_top]
  rfl

/-- The saturation run, executed: the slot of node `2` records time `65535`
(the u16-saturated sum `65535 + 65535`). -/
lemma c1run_eq :
    kbest_multisource_bucket_csr c1csr [0] 1 65535 65535 1 none 70000
      = some c1st3 := by
  have hstart : kbest_multisource_bucket_csr c1csr [0] 1 65535 65535 1 none 70000
      = compute_chunk_loop c1P 70000 c1s0 := by
    unfold kbest_multisource_bucket_csr
    rw [if_neg (by decide)]
    rw [show (⟨c1csr, min_out_of c1csr (c1csr.indptr.length - 1),
        c1csr.indptr.length - 1, 1, 65535, 65535,
        Option.map (target_mask (c1csr.indptr.length - 1))
          (none : Option (List ℤ))⟩ : ChunkParams) = c1P from rfl]
    rw [show ((Option.map List.length (none : Option (List ℤ))).getD 0) = 0
      from rfl]
    rfl
  rw [hstart]
  have e1 := pop_step c1P 69999 c1s0 0 0 [] c1st1 c1B2 c1A2 c1A3 2 1
    (by decide) (by decide) (by decide) (by decide) (by decide) (by decide)
    (by decide) c1relax1 (by rfl)
  rw [(by decide : (70000 : ℕ) = 69999 + 1), e1]
  show compute_chunk_loop c1P 69999 c1s1 = some c1st3
  have hdead : ∀ i, i < 65535 → c1s1.active.getD (c1s1.cur_idx + i) false
      = false := by
    intro i hi
    show c1A3.getD (0 + i) false = false
    rw [Nat.zero_add]
    show (((((List.replicate 65536 false).set 0 true).set 65535 true).set 0
      false)).getD i false = false
    by_cases h0 : i = 0
    · subst h0
      rw [getD_set_eq]
      rw [List.length_set, List.length_set, List.length_replicate]
      decide
    · rw [getD_set_ne _ _ _ _ _ (fun he => h0 he.symm),
        getD_set_ne _ _ _ _ _ (by omega),
        getD_set_ne _ _ _ _ _ (fun he => h0 he.symm)]
      exact getD_replicate false 65536 i
  have e2 := scan_advance c1P 65535 4464 c1s1 (by decide) hdead (by decide)
  rw [(by decide : (69999 : ℕ) = 65535 + 4464), e2]
  show compute_chunk_loop c1P 4464 c1s2 = some c1st3
  have e3 := pop_step c1P 4463 c1s2 1 0 [] c1st2 c1B3 c1A3 c1A3 1 1
    (by decide) c1A3_at_top c1B2_at_top (by decide) (by decide) (by decide)
    (by decide) c1relax2
    (by
      show (if ((c1B3.getD 65535 []).isEmpty && c1A3.getD 65535 false) = true
          then (c1A3.set 65535 false, 1 - 1) else (c1A3, 1)) = (c1A3, 1)
      rw [c1B3_at_top, c1A3_at_top]
      rw [if_neg (by decide)])
  rw [(by decide : (4464 : ℕ) = 4463 + 1), e3]
  show compute_chunk_loop c1P 4463 c1s3 = some c1st3
  have e4 := pop_step c1P 4462 c1s3 2 0 [] c1st3 c1B4 c1A3 c1A6 1 0
    (by decide) c1A3_at_top c1B3_at_top (by decide) (by decide) (by decide)
    (by decide) (by rfl)
    (by
      show (if ((c1B4.getD 65535 []).isEmpty && c1A3.getD 65535 false) = true
          then (c1A3.set 65535 false, 1 - 1) else (c1A3, 1)) = (c1A6, 0)
      rw [c1B4_at_top, c1A3_at_top]
      rw [if_pos (by decide)]
      rfl)
  rw [(by decide : (4463 : ℕ) = 4462 + 1), e4]
  show compute_chunk_loop c1P 4462 c1s4 = some c1st3
  rw [(by decide : (4462 : ℕ) = 4461 + 1), compute_chunk_loop]
  rw [if_pos (by decide)]
  rfl

lemma c1_edges0 : row_edges c1csr 0 = [(1, 65535)] := by decide

lemma c1_edges1 : row_edges c1csr 1 = [(2, 65535)] := by decide

lemma c1_edges2 : row_edges c1csr 2 = [] := by decide

/-- Every path of the saturation graph from node `0` ends at `0`, `1` or `2`
with the indicated exact length. -/
lemma c1_reach_char : ∀ v d, ReachLen c1csr 0 v d →
    (v = 0 ∧ d = 0) ∨ (v = 1 ∧ d = 65535) ∨ (v = 2 ∧ d = 131070) := by
  intro v d h
  induction h with
  | refl => exact Or.inl ⟨rfl, rfl⟩
  | step hr he ih =>
    rcases ih with ⟨hu, hd⟩ | ⟨hu, hd⟩ | ⟨hu, hd⟩ <;> subst hu <;> subst hd
    · unfold csr_edge at he
      rw [c1_edges0] at he
      simp at he
      omega
    · unfold csr_edge at he
      rw [c1_edges1] at he
      simp at he
      omega
    · unfold csr_edge at he
      rw [c1_edges2] at he
      simp at he

/-- C1 as stated is false: on the two-edge line graph `0 → 1 → 2` with both
weights `65535`, source `{0}`, `K = 1`, cutoffs `(65535, 65535)`, node `2`
ends with the populated slot `(0, 65535)` (time from the `u16`
`saturating_add`), but the unique — hence shortest — path from anchor `0`
to node `2` has length `131070 ≠ 65535`. -/
theorem kbest_shortest_path_cex :
    kbest_multisource_bucket_csr c1csr [0] 1 65535 65535 1 none 70000
      = some c1st3 ∧
    (c1st3.getD 2 (emptyStore 1)).slots.getD 0 emptySlot = ((0 : ℤ), 65535) ∧
    (0 : ℤ) ≤ ((c1st3.getD 2 (emptyStore 1)).slots.getD 0 emptySlot).1 ∧
    ReachLen c1csr 0 2 131070 ∧
    (∀ d, ReachLen c1csr 0 2 d → d = 131070) ∧
    ((c1st3.getD 2 (emptyStore 1)).slots.getD 0 emptySlot).2 ≠ 131070 := by
  refine ⟨c1run_eq, by decide, by decide, ?_, ?_, by decide⟩
  · have h1 : csr_edge c1csr 0 1 65535 := by decide
    have h2 : csr_edge c1csr 1 2 65535 := by decide
    exact ReachLen.step (ReachLen.step ReachLen.refl h1) h2
  · intro d hd
    rcases c1_reach_char 2 d hd with h | h | h <;> omega

lemma getD_set_general {α : Type} (l : List α) (n i : ℕ) (b d : α) :
    (l.set n b).getD i d = if n = i ∧ n < l.length then b else l.getD i d := by
  by_cases h : n = i ∧ n < l.length
  · obtain ⟨h1, h2⟩ := h
    subst h1
    rw [if_pos ⟨rfl, h2⟩]
    exact getD_set_eq _ _ _ _ h2
  · rw [if_neg h]
    by_cases h1 : n = i
    · subst h1
      have h2 : l.length ≤ n := Nat.le_of_not_lt (fun hc => h ⟨rfl, hc⟩)
      rw [List.set_eq_of_length_le h2]
    · exact getD_set_ne _ _ _ _ _ h1

lemma buckets_sound_set {csr : CSR} {B : List (List (ℕ × ℕ))}
    (hb : BucketsSound csr B) (i : ℕ) (l' : List (ℕ × ℕ))
    (hsub : ∀ e ∈ l', e ∈ B.getD i []) :
    BucketsSound csr (B.set i l') := by
  intro d e he
  rw [getD_set_general] at he
  by_cases hc : i = d ∧ i < B.length
  · rw [if_pos hc] at he
    exact hc.1 ▸ hb i e (hsub e he)
  · rw [if_neg hc] at he
    exact hb d e he

lemma slots_sound_insert {csr : CSR} {co k : ℕ} (cp : ℕ)
    {stores : List LabelStore} (hs : SlotsSound csr co k stores)
    (u src du : ℕ)
    (hwf : StoreWF k (stores.getD u (emptyStore k)))
    (hreach : SatReach csr src u du) (hdu : du ≤ co) :
    SlotsSound csr co k
      (stores.set u (insert_label_for_node k (src : ℤ) du cp
        (stores.getD u (emptyStore k)))) := by
  intro v p hv hp hpos
  rw [List.length_set] at hv
  by_cases huv : u = v
  · subst huv
    rw [getD_set_eq _ _ _ _ hv] at hp
    rcases insert_label_mem hwf p hp with hold | hnew
    · exact hs u p hv hold hpos
    · rw [hnew]
      refine ⟨?_, hdu⟩
      show SatReach csr ((src : ℤ)).toNat u du
      rw [Int.toNat_natCast]
      exact hreach
  · rw [getD_set_ne _ _ _ _ _ huv] at hp
    exact hs v p hv hp hpos

lemma relax_one_sound (P : ChunkParams) (stores : List LabelStore)
    (pb : List ((ℕ × ℕ) × ℕ)) (src du u e : ℕ)
    (hu : SatReach P.csr src u du)
    (he : (P.csr.indices.getD e 0, P.csr.w_sec.getD e 0) ∈ row_edges P.csr u)
    (B : List (List (ℕ × ℕ))) (A : List Bool) (C : ℕ)
    (hb : BucketsSound P.csr B) :
    BucketsSound P.csr (relax_one P stores pb src du (B, A, C) e).1 := by
  have hred : relax_one P stores pb src du (B, A, C) e
      = (if P.co < min (du + P.csr.w_sec.getD e 0) 65535 then (B, A, C)
        else if (stores.getD (P.csr.indices.getD e 0)
              (emptyStore P.k)).primary = P.k ∧
            worst_time (stores.getD (P.csr.indices.getD e 0) (emptyStore P.k))
              P.k ≤ min (du + P.csr.w_sec.getD e 0) 65535 then (B, A, C)
        else if pb_hit pb (P.csr.indices.getD e 0, src)
            (min (du + P.csr.w_sec.getD e 0) 65535) = true then (B, A, C)
        else if A.getD (min (du + P.csr.w_sec.getD e 0) 65535) false = true
          then (B.set (min (du + P.csr.w_sec.getD e 0) 65535)
            ((P.csr.indices.getD e 0, src)
              :: B.getD (min (du + P.csr.w_sec.getD e 0) 65535) []), A, C)
          else (B.set (min (du + P.csr.w_sec.getD e 0) 65535)
            ((P.csr.indices.getD e 0, src)
              :: B.getD (min (du + P.csr.w_sec.getD e 0) 65535) []),
            A.set (min (du + P.csr.w_sec.getD e 0) 65535) true, C + 1)) :=
    rfl
  rw [hred]
  have hpush : BucketsSound P.csr
      (B.set (min (du + P.csr.w_sec.getD e 0) 65535)
        ((P.csr.indices.getD e 0, src)
          :: B.getD (min (du + P.csr.w_sec.getD e 0) 65535) [])) := by
    intro d ep hep
    rw [getD_set_general] at hep
    by_cases hc : min (du + P.csr.w_sec.getD e 0) 65535 = d ∧
        min (du + P.csr.w_sec.getD e 0) 65535 < B.length
    · rw [if_pos hc] at hep
      rcases List.mem_cons.mp hep with hep | hep
      · rw [hep]
        rw [← hc.1]
        exact SatReach.step hu he
      · exact hc.1 ▸ hb _ ep hep
    · rw [if_neg hc] at hep
      exact hb d ep hep
  split
  · exact hb
  · split
    · exact hb
    · split
      · exact hb
      · split
        · exact hpush
        · exact hpush

lemma foldl_relax_sound (P : ChunkParams) (stores : List LabelStore)
    (pb : List ((ℕ × ℕ) × ℕ)) (src du u : ℕ)
    (hu : SatReach P.csr src u du) :
    ∀ (l : List ℕ) (B : List (List (ℕ × ℕ)) × List Bool × ℕ),
      (∀ e ∈ l, (P.csr.indices.getD e 0, P.csr.w_sec.getD e 0)
        ∈ row_edges P.csr u) →
      BucketsSound P.csr B.1 →
      BucketsSound P.csr ((l.foldl (relax_one P stores pb src du) B)).1 := by
  intro l
  induction l with
  | nil =>
    intro B _ hb
    exact hb
  | cons e es ih =>
    intro B hl hb
    rw [List.foldl_cons]
    obtain ⟨B1, A1, C1⟩ := B
    refine ih _ (fun e' he' => hl e' (List.mem_cons_of_mem _ he')) ?_
    exact relax_one_sound P stores pb src du u e hu
      (hl e (List.mem_cons_self _ _)) B1 A1 C1 hb

lemma relax_edges_sound (P : ChunkParams) (stores : List LabelStore)
    (pb : List ((ℕ × ℕ) × ℕ)) (u src du : ℕ) (B : List (List (ℕ × ℕ)))
    (A : List Bool) (C : ℕ)
    (hu : SatReach P.csr src u du) (hb : BucketsSound P.csr B) :
    BucketsSound P.csr (relax_edges P stores pb u src du B A C).1 := by
  rw [relax_edges_eq P stores pb u src du B A C _ rfl]
  exact foldl_relax_sound P stores pb src du u hu _ (B, A, C)
    (fun e he => List.mem_map_of_mem _ he) hb

/-- Soundness of the main loop: if all stores hold only saturated path
lengths and all bucket entries are justified, so are the final stores. -/
lemma compute_chunk_loop_sound (P : ChunkParams) (hco : P.co ≤ 65535) :
    ∀ (fuel : ℕ) (s : ChunkState),
      (∀ st ∈ s.stores, StoreWF P.k st) → s.cur_idx ≤ P.co →
      SlotsSound P.csr P.co P.k s.stores →
      BucketsSound P.csr s.buckets →
      ∀ out, compute_chunk_loop P fuel s = some out →
        SlotsSound P.csr P.co P.k out := by
  intro fuel
  induction fuel with
  | zero =>
    intro s _ _ _ _ out h
    simp [compute_chunk_loop] at h
  | succ f ih =>
    intro s hstores hcur hss hbs out h
    rw [compute_chunk_loop] at h
    by_cases hac : s.active_count = 0
    · rw [if_pos hac] at h
      have : s.stores = out := by simpa using h
      rw [← this]
      exact hss
    · rw [if_neg hac] at h
      by_cases hscan : (! s.active.getD s.cur_idx false
          || (s.buckets.getD s.cur_idx []).isEmpty) = true
      · rw [if_pos hscan] at h
        refine ih _ ?_ ?_ ?_ ?_ out h
        · by_cases hde : (s.active.getD s.cur_idx false
              && (s.buckets.getD s.cur_idx []).isEmpty) = true
          · rw [if_pos hde]
            exact hstores
          · rw [if_neg hde]
            exact hstores
        · by_cases hde : (s.active.getD s.cur_idx false
              && (s.buckets.getD s.cur_idx []).isEmpty) = true
          · rw [if_pos hde]
            exact Nat.lt_succ_iff.mp (Nat.mod_lt _ (Nat.succ_pos _))
          · rw [if_neg hde]
            exact Nat.lt_succ_iff.mp (Nat.mod_lt _ (Nat.succ_pos _))
        · by_cases hde : (s.active.getD s.cur_idx false
              && (s.buckets.getD s.cur_idx []).isEmpty) = true
          · rw [if_pos hde]
            exact hss
          · rw [if_neg hde]
            exact hss
        · by_cases hde : (s.active.getD s.cur_idx false
              && (s.buckets.getD s.cur_idx []).isEmpty) = true
          · rw [if_pos hde]
            exact hbs
          · rw [if_neg hde]
            exact hbs
      · rw [if_neg hscan] at h
        rcases hbc : s.buckets.getD s.cur_idx [] with _ | ⟨⟨u, src⟩, rest⟩
        · rw [hbc] at h
          simp at h
        · rw [hbc] at h
          dsimp only at h
          have hbs1 : BucketsSound P.csr (s.buckets.set s.cur_idx rest) := by
            refine buckets_sound_set hbs _ _ ?_
            intro e he
            rw [hbc]
            exact List.mem_cons_of_mem _ he
          by_cases hpb : pb_hit s.pair_best (u, src) s.cur_idx = true
          · rw [if_pos hpb] at h
            refine ih _ ?_ ?_ ?_ ?_ out h
            · exact hstores
            · exact hcur
            · exact hss
            · exact hbs1
          · rw [if_neg hpb] at h
            by_cases hskip : (if (s.stores.getD u (emptyStore P.k)).primary = P.k
                then if worst_time (s.stores.getD u (emptyStore P.k)) P.k ≤ s.cur_idx
                  then true
                  else decide (0 < P.min_out.getD u 0 ∧
                    worst_time (s.stores.getD u (emptyStore P.k)) P.k
                      ≤ min (s.cur_idx + P.min_out.getD u 0) 65535)
                else false) = true
            · rw [if_pos hskip] at h
              refine ih _ ?_ ?_ ?_ ?_ out h
              · exact hstores
              · exact hcur
              · exact hss
              · exact hbs1
            · rw [if_neg hskip] at h
              have hwfu : StoreWF P.k (s.stores.getD u (emptyStore P.k)) := by
                by_cases hu : u < s.stores.length
                · refine hstores _ ?_
                  rw [List.getD_eq_getElem _ _ hu]
                  exact List.getElem_mem hu
                · rw [List.getD_eq_default _ _ (Nat.le_of_not_lt hu)]
                  exact emptyStore_wf P.k
              have hreach : SatReach P.csr src u s.cur_idx := by
                refine hbs s.cur_idx (u, src) ?_
                rw [hbc]
                exact List.mem_cons_self _ _
              have hwfins : StoreWF P.k (insert_label_for_node P.k (src : ℤ)
                  s.cur_idx P.cp (s.stores.getD u (emptyStore P.k))) :=
                insert_label_wf hwfu (Int.ofNat_nonneg src)
                  (by unfold UNREACHABLE; omega)
              have hstores1 : ∀ st ∈ s.stores.set u
                  (insert_label_for_node P.k (src : ℤ) s.cur_idx P.cp
                    (s.stores.getD u (emptyStore P.k))), StoreWF P.k st := by
                intro st hst
                rcases List.mem_or_eq_of_mem_set hst with h' | h'
                · exact hstores st h'
                · rw [h']
                  exact hwfins
              have hss1 : SlotsSound P.csr P.co P.k (s.stores.set u
                  (insert_label_for_node P.k (src : ℤ) s.cur_idx P.cp
                    (s.stores.getD u (emptyStore P.k)))) :=
                slots_sound_insert P.cp hss u src s.cur_idx hwfu hreach hcur
              by_cases hhit : ((((s.stores.getD u (emptyStore P.k)).used == 0)
                    && (match P.mask with
                        | some m => m.getD u 0 != 0
                        | none => false))
                  && ((if ((((s.stores.getD u (emptyStore P.k)).used == 0)
                        && (match P.mask with
                            | some m => m.getD u 0 != 0
                            | none => false)) = true)
                      then s.remaining_targets - 1 else s.remaining_targets) == 0))
                  = true
              · rw [if_pos hhit] at h
                injection h with h
                rw [← h]
                exact hss1
              · rw [if_neg hhit] at h
                refine ih _ ?_ ?_ ?_ ?_ out h
                · exact hstores1
                · exact hcur
                · exact hss1
                · show BucketsSound P.csr
                    (relax_edges P (s.stores.set u (insert_label_for_node P.k
                        (src : ℤ) s.cur_idx P.cp
                        (s.stores.getD u (emptyStore P.k))))
                      (((u, src), s.cur_idx) :: s.pair_best) u src s.cur_idx
                      (s.buckets.set s.cur_idx rest) s.active
                      s.active_count).1
                  exact relax_edges_sound P _ _ u src s.cur_idx _ _ _
                    hreach hbs1

lemma sources_b0_mem (sources : List ℕ) :
    ∀ e ∈ sources.foldl (fun acc s => (s, s) :: acc) ([] : List (ℕ × ℕ)),
      ∃ s, e = (s, s) := by
  have hgen : ∀ (l : List ℕ) (acc : List (ℕ × ℕ)),
      (∀ e ∈ acc, ∃ s, e = (s, s)) →
      ∀ e ∈ l.foldl (fun acc s => (s, s) :: acc) acc, ∃ s, e = (s, s) := by
    intro l
    induction l with
    | nil => intro acc hacc e he; exact hacc e he
    | cons x xs ih =>
      intro acc hacc e he
      rw [List.foldl_cons] at he
      refine ih _ ?_ e he
      intro e' he'
      rcases List.mem_cons.mp he' with h | h
      · exact ⟨x, h⟩
      · exact hacc e' h
  exact hgen sources [] (fun e he => absurd he (List.not_mem_nil e))

lemma slots_sound_replicate (csr : CSR) (co k n : ℕ) :
    SlotsSound csr co k (List.replicate n (emptyStore k)) := by
  intro v p hv hp hpos
  rw [getD_replicate] at hp
  have hp' := List.eq_of_mem_replicate hp
  rw [hp'] at hpos
  exact absurd hpos (by decide)

lemma buckets0_sound (csr : CSR) (co : ℕ) (sources : List ℕ) :
    BucketsSound csr ((List.replicate (co + 1) ([] : List (ℕ × ℕ))).set 0
      (sources.foldl (fun acc s => (s, s) :: acc) [])) := by
  intro d e he
  rw [getD_set_general] at he
  by_cases hc : 0 = d ∧
      0 < (List.replicate (co + 1) ([] : List (ℕ × ℕ))).length
  · rw [if_pos hc] at he
    obtain ⟨s, hs⟩ := sources_b0_mem sources e he
    rw [hs, ← hc.1]
    exact SatReach.refl
  · rw [if_neg hc] at he
    rw [getD_replicate] at he
    exact absurd he (List.not_mem_nil e)

lemma compute_chunk_sound (P : ChunkParams) (hco : P.co ≤ 65535)
    (sources : List ℕ) (tt fuel : ℕ) (out : List LabelStore)
    (h : compute_chunk P sources tt fuel = some out) :
    SlotsSound P.csr P.co P.k out := by
  unfold compute_chunk at h
  refine compute_chunk_loop_sound P hco fuel _ ?_ ?_ ?_ ?_ out h
  · split
    · intro st hst
      have hst' : st ∈ List.replicate P.n (emptyStore P.k) := hst
      rw [List.eq_of_mem_replicate hst']
      exact emptyStore_wf P.k
    · intro st hst
      have hst' : st ∈ List.replicate P.n (emptyStore P.k) := hst
      rw [List.eq_of_mem_replicate hst']
      exact emptyStore_wf P.k
  · split
    · exact Nat.zero_le _
    · exact Nat.zero_le _
  · split
    · exact slots_sound_replicate P.csr P.co P.k P.n
    · exact slots_sound_replicate P.csr P.co P.k P.n
  · split
    · exact buckets0_sound P.csr P.co sources
    · exact buckets0_sound P.csr P.co sources

lemma mapM_mem {α β : Type} (f : α → Option β) :
    ∀ (l : List α) (l2 : List β), l.mapM f = some l2 →
      ∀ b ∈ l2, ∃ a ∈ l, f a = some b := by
  intro l
  induction l with
  | nil =>
    intro l2 h b hb
    rw [List.mapM_nil] at h
    have h2 : some ([] : List β) = some l2 := h
    injection h2 with h2
    rw [← h2] at hb
    exact absurd hb (List.not_mem_nil b)
  | cons x xs ih =>
    intro l2 h b hb
    rw [List.mapM_cons] at h
    cases hfx : f x with
    | none =>
      rw [hfx] at h
      simp at h
    | some y =>
      rw [hfx] at h
      cases hxs : xs.mapM f with
      | none =>
        rw [hxs] at h
        simp at h
      | some ys =>
        rw [hxs] at h
        simp at h
        rw [← h] at hb
        rcases List.mem_cons.mp hb with hyb | hyb
        · exact ⟨x, List.mem_cons_self _ _, by rw [hfx, hyb]⟩
        · obtain ⟨a, ha, hfa⟩ := ih ys hxs b hyb
          exact ⟨a, List.mem_cons_of_mem _ ha, hfa⟩

lemma node_candidates_sound {csr : CSR} {co k : ℕ} {res : List LabelStore}
    (hres : SlotsSound csr co k res) (i : ℕ) :
    ∀ c ∈ node_candidates k i res,
      SatReach csr c.2.toNat i c.1 ∧ c.1 ≤ co := by
  intro c hc
  simp only [node_candidates, List.mem_filterMap] at hc
  obtain ⟨j, hj, hcj⟩ := hc
  split at hcj
  · rename_i hcond
    injection hcj with hcj
    by_cases hi : i < res.length
    · by_cases hjlen : j < (res.getD i (emptyStore k)).slots.length
      · have hmem : (res.getD i (emptyStore k)).slots.getD j emptySlot
            ∈ (res.getD i (emptyStore k)).slots := by
          rw [List.getD_eq_getElem _ _ hjlen]
          exact List.getElem_mem hjlen
        have hsl := hres i _ hi hmem hcond.1
        rw [← hcj]
        exact hsl
      · have hdef : (res.getD i (emptyStore k)).slots.getD j emptySlot
            = emptySlot := List.getD_eq_default _ _ (Nat.le_of_not_lt hjlen)
        rw [hdef] at hcond
        exact absurd hcond.1 (by decide)
    · have hdef : res.getD i (emptyStore k) = emptyStore k :=
        List.getD_eq_default _ _ (Nat.le_of_not_lt hi)
      rw [hdef] at hcond
      have hdef2 : (emptyStore k).slots.getD j emptySlot = emptySlot :=
        getD_replicate_empty k j
      rw [hdef2] at hcond
      exact absurd hcond.1 (by decide)
  · exact absurd hcj (by simp)

lemma foldl_insert_sound {csr : CSR} {co : ℕ} (k cp i : ℕ) :
    ∀ (l : List (ℕ × ℤ)),
      (∀ c ∈ l, 0 ≤ c.2 ∧ c.1 ≤ UNREACHABLE) →
      (∀ c ∈ l, SatReach csr c.2.toNat i c.1 ∧ c.1 ≤ co) →
      ∀ (st : LabelStore), StoreWF k st →
      (∀ p ∈ st.slots, 0 ≤ p.1 → SatReach csr p.1.toNat i p.2 ∧ p.2 ≤ co) →
      ∀ p ∈ (l.foldl (fun st c => insert_label_for_node k c.2 c.1 cp st)
        st).slots, 0 ≤ p.1 → SatReach csr p.1.toNat i p.2 ∧ p.2 ≤ co := by
  intro l
  induction l with
  | nil =>
    intro _ _ st _ hst
    exact hst
  | cons c cs ih =>
    intro hb hl st hwf hst
    rw [List.foldl_cons]
    refine ih (fun d hd => hb d (List.mem_cons_of_mem _ hd))
      (fun d hd => hl d (List.mem_cons_of_mem _ hd)) _
      (insert_label_wf hwf (hb c (List.mem_cons_self _ _)).1
        (hb c (List.mem_cons_self _ _)).2) ?_
    intro p hp hpos
    rcases insert_label_mem hwf p hp with hold | hnew
    · exact hst p hold hpos
    · rw [hnew]
      exact hl c (List.mem_cons_self _ _)

lemma merge_chunks_sound {csr : CSR} {co : ℕ} (n k cp : ℕ)
    (crs : List (List LabelStore))
    (hcrs : ∀ res ∈ crs, SlotsSound csr co k res) :
    SlotsSound csr co k (merge_chunks n k cp crs) := by
  intro v p hv hp hpos
  have hv' : v < n := by
    simpa [merge_chunks] using hv
  have hvlen : v < ((List.range n).map (fun node_i =>
      ((crs.foldl (fun acc res => acc ++ node_candidates k node_i res)
        []).insertionSort cand_r).foldl
        (fun st c => insert_label_for_node k c.2 c.1 cp st)
        (emptyStore k))).length := by
    simpa using hv'
  have hget : (merge_chunks n k cp crs).getD v (emptyStore k)
      = ((crs.foldl (fun acc res => acc ++ node_candidates k v res)
          []).insertionSort cand_r).foldl
        (fun st c => insert_label_for_node k c.2 c.1 cp st) (emptyStore k) := by
    show ((List.range n).map (fun node_i =>
        ((crs.foldl (fun acc res => acc ++ node_candidates k node_i res)
          []).insertionSort cand_r).foldl
        (fun st c => insert_label_for_node k c.2 c.1 cp st)
        (emptyStore k))).getD v (emptyStore k) = _
    rw [List.getD_eq_getElem _ _ hvlen, List.getElem_map, List.getElem_range]
  rw [hget] at hp
  have hmem : ∀ c, c ∈ (crs.foldl
      (fun acc res => acc ++ node_candidates k v res) []).insertionSort cand_r
      → ∃ res ∈ crs, c ∈ node_candidates k v res := by
    intro c hc
    have hc' := (List.perm_insertionSort cand_r _).mem_iff.mp hc
    rcases mem_foldl_append _ _ _ _ hc' with h | h
    · exact absurd h (List.not_mem_nil c)
    · exact h
  refine foldl_insert_sound k cp v _ ?_ ?_ (emptyStore k) (emptyStore_wf k)
    ?_ p hp hpos
  · intro c hc
    obtain ⟨res, _, hcr⟩ := hmem c hc
    exact node_candidates_bounds k v res c hcr
  · intro c hc
    obtain ⟨res, hres, hcr⟩ := hmem c hc
    exact node_candidates_sound (hcrs res hres) v c hcr
  · intro q hq hqpos
    have hq' := List.eq_of_mem_replicate hq
    rw [hq'] at hqpos
    exact absurd hqpos (by decide)

/-- C1 (amended): after `kbest_multisource_bucket_csr`, every populated slot
`(v, j)` (anchor `p.1 ≥ 0`) satisfies `time ≤ cutoff_overflow`, and the
stored time is the `u16`-saturating length of an actual path in the CSR
graph from the anchor to `v` (hence a genuine path length — and at least
the shortest distance — whenever no saturating addition occurs on it).
The original exact shortest-path equality is dropped: it fails under
saturation at `cutoff_overflow = 65535`, see the counterexample.  The S1
line-graph expectation holds exactly (see the witness). -/
theorem kbest_sound_sat (csr : CSR) (sources : List ℕ) (k cp co threads : ℕ)
    (targets : Option (List ℤ)) (fuel : ℕ) (out : List LabelStore)
    (hco : co ≤ 65535)
    (h : kbest_multisource_bucket_csr csr sources k cp co threads targets fuel
      = some out) :
    ∀ v p, v < out.length → p ∈ (out.getD v (emptyStore k)).slots →
      0 ≤ p.1 → SatReach csr p.1.toNat v p.2 ∧ p.2 ≤ co := by
  have hss : SlotsSound csr co k out := by
    unfold kbest_multisource_bucket_csr at h
    dsimp only at h
    split at h
    all_goals split at h
    all_goals
      first
      | (obtain ⟨rs, hrs, hout⟩ := Option.map_eq_some'.mp h
         rw [← hout]
         refine merge_chunks_sound _ _ _ _ ?_
         intro res hres
         obtain ⟨a, _, hfa⟩ := mapM_mem _ _ _ hrs res hres
         exact compute_chunk_sound _ hco _ _ _ res hfa)
      | exact compute_chunk_sound _ hco _ _ _ out h
  exact hss

theorem kbest_sound_sat_witness :
    (30 : ℕ) ≤ 65535 ∧
    kbest_multisource_bucket_csr ⟨[0, 1, 2, 3, 3], [1, 2, 3], [10, 10, 10]⟩
      [0] 1 30 30 1 none 500
      = some [⟨[(0, 0)], 1, 1⟩, ⟨[(0, 10)], 1, 1⟩, ⟨[(0, 20)], 1, 1⟩,
        ⟨[(0, 30)], 1, 1⟩] ∧
    ∀ v p, v < 4 →
      p ∈ (([⟨[(0, 0)], 1, 1⟩, ⟨[(0, 10)], 1, 1⟩, ⟨[(0, 20)], 1, 1⟩,
        ⟨[(0, 30)], 1, 1⟩] : List LabelStore).getD v (emptyStore 1)).slots →
      0 ≤ p.1 →
      SatReach ⟨[0, 1, 2, 3, 3], [1, 2, 3], [10, 10, 10]⟩ p.1.toNat v p.2 ∧
        p.2 ≤ 30 := by
  have hrun : kbest_multisource_bucket_csr
      ⟨[0, 1, 2, 3, 3], [1, 2, 3], [10, 10, 10]⟩ [0] 1 30 30 1 none 500
      = some [⟨[(0, 0)], 1, 1⟩, ⟨[(0, 10)], 1, 1⟩, ⟨[(0, 20)], 1, 1⟩,
        ⟨[(0, 30)], 1, 1⟩] := by decide
  exact ⟨by decide, hrun,
    kbest_sound_sat ⟨[0, 1, 2, 3, 3], [1, 2, 3], [10, 10, 10]⟩ [0] 1 30 30 1
      none 500 _ (by decide) hrun⟩

/-! ### C9 / C10 theorems -/

/-- C9: `query_subset` projects the distance array onto the target order —
one entry per target; a negative index maps to `INF`, an index past the
array maps to `INF`, and every other index `j` maps to `dist[j]`; no error
is raised for negative or out-of-range targets. -/
theorem query_subset_spec (g : CHGraph) (source : ℕ) (targets : List ℤ)
    (limit fuel : ℕ) (dist : List ℕ)
    (hrun : run_phast g source limit fuel = some dist) :
    ∃ out, query_subset g source targets limit fuel = some out ∧
      out.length = targets.length ∧
      ∀ i, i < targets.length →
        (targets.getD i 0 < 0 → out.getD i 0 = INF) ∧
        (0 ≤ targets.getD i 0 → dist.length ≤ (targets.getD i 0).toNat →
          out.getD i 0 = INF) ∧
        (0 ≤ targets.getD i 0 → (targets.getD i 0).toNat < dist.length →
          out.getD i 0 = dist.getD (targets.getD i 0).toNat INF) := by
  have hq : query_subset g source targets limit fuel
      = some (targets.map (fun raw =>
          if raw < 0 then INF
          else if raw.toNat < dist.length then dist.getD raw.toNat INF
          else INF)) := by
    unfold query_subset
    rw [hrun]
  refine ⟨_, hq, by simp, ?_⟩
  intro i hi
  have hlen : i < (targets.map (fun raw =>
      if raw < 0 then INF
      else if raw.toNat < dist.length then dist.getD raw.toNat INF
      else INF)).length := by
    simpa using hi
  rw [List.getD_eq_getElem _ _ hlen, List.getElem_map,
    List.getD_eq_getElem _ _ hi]
  refine ⟨?_, ?_, ?_⟩
  · intro hneg
    rw [if_pos hneg]
  · intro hnn hge
    rw [if_neg (not_lt.mpr hnn), if_neg (not_lt.mpr hge)]
  · intro hnn hlt
    rw [if_neg (not_lt.mpr hnn), if_pos hlt]

theorem query_subset_spec_witness :
    run_phast c9g 0 10 10 = some [0] ∧
    ∃ out, query_subset c9g 0 [-1, 0, 5] 10 10 = some out ∧
      out.length = ([-1, 0, 5] : List ℤ).length ∧
      ∀ i, i < ([-1, 0, 5] : List ℤ).length →
        (([-1, 0, 5] : List ℤ).getD i 0 < 0 → out.getD i 0 = INF) ∧
        (0 ≤ ([-1, 0, 5] : List ℤ).getD i 0 →
          ([0] : List ℕ).length ≤ (([-1, 0, 5] : List ℤ).getD i 0).toNat →
          out.getD i 0 = INF) ∧
        (0 ≤ ([-1, 0, 5] : List ℤ).getD i 0 →
          (([-1, 0, 5] : List ℤ).getD i 0).toNat < ([0] : List ℕ).length →
          out.getD i 0
            = ([0] : List ℕ).getD (([-1, 0, 5] : List ℤ).getD i 0).toNat INF) := by
  have hrun : run_phast c9g 0 10 10 = some [0] := by decide
  exact ⟨hrun, query_subset_spec c9g 0 [-1, 0, 5] 10 10 [0] hrun⟩

lemma big_fold_error (indptr : List ℕ) (indices : List ℤ) (w_sec : List ℕ) :
    ∀ (l : List ℕ) (e : String),
      l.foldl (big_step indptr indices w_sec) (Except.error e)
        = Except.error e := by
  intro l
  induction l with
  | nil => intro e; rfl
  | cons x xs ih =>
    intro e
    rw [List.foldl_cons]
    exact ih e

lemma big_fold_ok (indptr : List ℕ) (indices : List ℤ) (w_sec : List ℕ) :
    ∀ (l : List ℕ) (es : List (ℕ × ℕ × ℕ)),
      (∀ u ∈ l, indptr.getD (u + 1) 0 ≤ indices.length) →
      l.foldl (big_step indptr indices w_sec) (Except.ok es)
        = Except.ok (es ++ l.bind (row_contrib indptr indices w_sec)) := by
  intro l
  induction l with
  | nil =>
    intro es _
    simp
  | cons x xs ih =>
    intro es hb
    rw [List.foldl_cons]
    have hstep : big_step indptr indices w_sec (Except.ok es) x
        = Except.ok (es ++ row_contrib indptr indices w_sec x) := by
      show (if indices.length < indptr.getD (x + 1) 0 then
          Except.error "indptr out of bounds for indices"
        else Except.ok (es ++ row_contrib indptr indices w_sec x))
        = Except.ok (es ++ row_contrib indptr indices w_sec x)
      rw [if_neg (not_lt.mpr (hb x (List.mem_cons_self _ _)))]
    rw [hstep, ih _ (fun u hu => hb u (List.mem_cons_of_mem _ hu))]
    simp

/-- C10: `ch_build_from_csr` never rejects an edge for its weight — every
emitted edge has weight `max(w, 1) ≥ 1` (a weight-0 input edge is treated
as weight 1), every in-range entry with non-negative destination is
emitted with exactly that weight, and entries with a negative destination
are silently skipped (everything in the output stems from a non-negative
destination). -/
theorem build_input_graph_spec (indptr : List ℕ) (indices : List ℤ)
    (w_sec : List ℕ) (out : List (ℕ × ℕ × ℕ))
    (h : build_input_graph indptr indices w_sec = Except.ok out) :
    (∀ e ∈ out, 1 ≤ e.2.2) ∧
    (∀ u idx, u < indptr.length - 1 → indptr.getD u 0 ≤ idx →
      idx < indptr.getD (u + 1) 0 → 0 ≤ indices.getD idx 0 →
      (u, (indices.getD idx 0).toNat, max (w_sec.getD idx 0) 1) ∈ out) ∧
    (∀ e ∈ out, ∃ u idx, u < indptr.length - 1 ∧ indptr.getD u 0 ≤ idx ∧
      idx < indptr.getD (u + 1) 0 ∧ 0 ≤ indices.getD idx 0 ∧
      e = (u, (indices.getD idx 0).toNat, max (w_sec.getD idx 0) 1)) := by
  unfold build_input_graph at h
  split at h
  · exact absurd h (by simp)
  · split at h
    · exact absurd h (by simp)
    · have hb : ∀ u ∈ List.range (indptr.length - 1),
          indptr.getD (u + 1) 0 ≤ indices.length := by
        intro u hu
        by_contra hgt
        obtain ⟨l1, l2, hsplit⟩ := List.append_of_mem hu
        rw [hsplit, List.foldl_append, List.foldl_cons] at h
        cases hacc : l1.foldl (big_step indptr indices w_sec)
            (Except.ok []) with
        | error e =>
          rw [hacc] at h
          have : big_step indptr indices w_sec (Except.error e) u
              = Except.error e := rfl
          rw [this, big_fold_error] at h
          exact absurd h (by simp)
        | ok es =>
          rw [hacc] at h
          have : big_step indptr indices w_sec (Except.ok es) u
              = Except.error "indptr out of bounds for indices" := by
            show (if indices.length < indptr.getD (u + 1) 0 then
                Except.error "indptr out of bounds for indices"
              else Except.ok (es ++ row_contrib indptr indices w_sec u))
              = Except.error "indptr out of bounds for indices"
            rw [if_pos (Nat.lt_of_not_le hgt)]
          rw [this, big_fold_error] at h
          exact absurd h (by simp)
      rw [big_fold_ok indptr indices w_sec _ [] hb] at h
      have hout : out = (List.range (indptr.length - 1)).bind
          (row_contrib indptr indices w_sec) := by
        have := h
        simp at this
        exact this.symm
      have hinv : ∀ e ∈ out, ∃ u idx, u < indptr.length - 1 ∧
          indptr.getD u 0 ≤ idx ∧ idx < indptr.getD (u + 1) 0 ∧
          0 ≤ indices.getD idx 0 ∧
          e = (u, (indices.getD idx 0).toNat, max (w_sec.getD idx 0) 1) := by
        intro e he
        rw [hout] at he
        obtain ⟨u, hu, hce⟩ := List.mem_bind.mp he
        simp only [row_contrib, List.mem_filterMap] at hce
        obtain ⟨idx, hidx, heq⟩ := hce
        have hidx' := List.mem_range'_1.mp hidx
        split at heq
        · exact absurd heq (by simp)
        · rename_i hnneg
          injection heq with heq
          exact ⟨u, idx, List.mem_range.mp hu, hidx'.1, by omega,
            not_lt.mp hnneg, heq.symm⟩
      refine ⟨?_, ?_, hinv⟩
      · intro e he
        obtain ⟨u, idx, _, _, _, _, heq⟩ := hinv e he
        rw [heq]
        exact Nat.le_max_right _ _
      · intro u idx hu hlo hhi hnn
        rw [hout]
        refine List.mem_bind.mpr ⟨u, List.mem_range.mpr hu, ?_⟩
        simp only [row_contrib, List.mem_filterMap]
        refine ⟨idx, List.mem_range'_1.mpr ⟨hlo, by omega⟩, ?_⟩
        rw [if_neg (not_lt.mpr hnn)]

theorem build_input_graph_spec_witness :
    build_input_graph [0, 2, 2] [1, -1] [0, 5] = Except.ok [(0, 1, 1)] ∧
    ((∀ e ∈ [((0 : ℕ), (1 : ℕ), (1 : ℕ))], 1 ≤ e.2.2) ∧
     (∀ u idx, u < ([0, 2, 2] : List ℕ).length - 1 →
        ([0, 2, 2] : List ℕ).getD u 0 ≤ idx →
        idx < ([0, 2, 2] : List ℕ).getD (u + 1) 0 →
        0 ≤ ([1, -1] : List ℤ).getD idx 0 →
        (u, (([1, -1] : List ℤ).getD idx 0).toNat,
          max (([0, 5] : List ℕ).getD idx 0) 1) ∈ [((0 : ℕ), (1 : ℕ), (1 : ℕ))]) ∧
     (∀ e ∈ [((0 : ℕ), (1 : ℕ), (1 : ℕ))], ∃ u idx,
        u < ([0, 2, 2] : List ℕ).length - 1 ∧
        ([0, 2, 2] : List ℕ).getD u 0 ≤ idx ∧
        idx < ([0, 2, 2] : List ℕ).getD (u + 1) 0 ∧
        0 ≤ ([1, -1] : List ℤ).getD idx 0 ∧
        e = (u, (([1, -1] : List ℤ).getD idx 0).toNat,
          max (([0, 5] : List ℕ).getD idx 0) 1))) := by
  have hb : build_input_graph [0, 2, 2] [1, -1] [0, 5]
      = Except.ok [(0, 1, 1)] := rfl
  exact ⟨hb, build_input_graph_spec [0, 2, 2] [1, -1] [0, 5] [(0, 1, 1)] hb⟩

/-- C6 as stated is false: from source `3` with unbounded limit, the output
is `[INF, 5, INF, 0]`; the graph's upward edge `1 → 2` of weight `1` has
`dist[1] = 5 < INF` but `dist[2] = INF > dist[1] + 1` — the relaxation
invariant does not hold for every edge of the graph, because upward edges
out of nodes reached only by the downward sweep are never relaxed. -/
theorem run_phast_edge_cex :
    run_phast c6g 3 INF 100 = some [INF, 5, INF, 0] ∧
    c6g.graph.ranks.getD 1 0 = 1 ∧
    c6g.graph.first_edge_ids_fwd.getD 1 0 = 0 ∧
    c6g.graph.first_edge_ids_fwd.getD 2 0 = 1 ∧
    c6g.graph.edges_fwd.getD 0 ⟨0, 0, 0⟩ = ⟨1, 2, 1⟩ ∧
    ([INF, 5, INF, 0] : List ℕ).getD 1 INF < INF ∧
    ¬ (([INF, 5, INF, 0] : List ℕ).getD 2 INF
        ≤ ([INF, 5, INF, 0] : List ℕ).getD 1 INF + 1) := by
  decide

lemma distLe_refl (d : List ℕ) : DistLe d d := fun _ => Nat.le_refl _

lemma distLe_trans {a b c : List ℕ} (h1 : DistLe a b) (h2 : DistLe b c) :
    DistLe a c := fun v => Nat.le_trans (h1 v) (h2 v)

lemma distLe_set {d : List ℕ} {v nd : ℕ} (h : nd ≤ d.getD v INF) :
    DistLe (d.set v nd) d := by
  intro x
  rw [getD_set_general]
  by_cases hc : v = x ∧ v < d.length
  · rw [if_pos hc]
    rw [← hc.1]
    exact h
  · rw [if_neg hc]

/-- The relaxation fold of the upward search only decreases distances. -/
lemma up_fold_le (g : FastGraph32) (limit du : ℕ) :
    ∀ (l : List ℕ) (hd : List (ℕ × ℕ) × List ℕ),
      DistLe ((l.foldl (fun hd idx =>
        let edge := g.edges_fwd.getD idx ⟨0, 0, 0⟩
        let nd := min (du + edge.weight) INF
        if limit < nd then hd
        else if nd < hd.2.getD edge.adj_node INF then
          ((nd, edge.adj_node) :: hd.1, hd.2.set edge.adj_node nd)
        else hd) hd)).2 hd.2 := by
  intro l
  induction l with
  | nil => intro hd; exact distLe_refl _
  | cons x xs ih =>
    intro hd
    rw [List.foldl_cons]
    refine distLe_trans (ih _) ?_
    by_cases h1 : limit < min (du + (g.edges_fwd.getD x ⟨0, 0, 0⟩).weight) INF
    · rw [if_pos h1]
      exact distLe_refl _
    · rw [if_neg h1]
      by_cases h2 : min (du + (g.edges_fwd.getD x ⟨0, 0, 0⟩).weight) INF
          < hd.2.getD (g.edges_fwd.getD x ⟨0, 0, 0⟩).adj_node INF
      · rw [if_pos h2]
        exact distLe_set (Nat.le_of_lt h2)
      · rw [if_neg h2]
        exact distLe_refl _

/-- The upward search only decreases distances. -/
lemma phast_up_le (g : FastGraph32) (limit : ℕ) :
    ∀ (fuel : ℕ) (heap : List (ℕ × ℕ)) (dist dist2 : List ℕ),
      phast_up g limit fuel heap dist = some dist2 → DistLe dist2 dist := by
  intro fuel
  induction fuel with
  | zero =>
    intro heap dist dist2 h
    rw [phast_up] at h
    split at h
    · injection h with h
      rw [← h]
      exact distLe_refl _
    · exact absurd h (by simp)
  | succ f ih =>
    intro heap dist dist2 h
    rw [phast_up] at h
    cases hp : heap_pop heap with
    | none =>
      rw [hp] at h
      injection h with h
      rw [← h]
      exact distLe_refl _
    | some pr =>
      obtain ⟨⟨du, u⟩, rest⟩ := pr
      rw [hp] at h
      dsimp only at h
      by_cases h1 : limit < du
      · rw [if_pos h1] at h
        exact ih _ _ _ h
      · rw [if_neg h1] at h
        by_cases h2 : du ≠ dist.getD u INF
        · rw [if_pos h2] at h
          exact ih _ _ _ h
        · rw [if_neg h2] at h
          by_cases h3 : g.first_edge_ids_fwd.length - 1 ≤ g.ranks.getD u 0
          · rw [if_pos h3] at h
            exact ih _ _ _ h
          · rw [if_neg h3] at h
            refine distLe_trans (ih _ _ _ h) ?_
            exact up_fold_le g limit du _ _

/-- The relaxation fold of the downward sweep only decreases distances. -/
lemma down_fold_le (g : CHGraph) (limit du : ℕ) :
    ∀ (l : List ℕ) (d : List ℕ),
      DistLe (l.foldl (fun d idx =>
        let ew := g.down_edges.getD idx (0, 0)
        let nd := min (du + ew.2) INF
        if limit < nd then d
        else if nd < d.getD ew.1 INF then d.set ew.1 nd
        else d) d) d := by
  intro l
  induction l with
  | nil => intro d; exact distLe_refl _
  | cons x xs ih =>
    intro d
    rw [List.foldl_cons]
    refine distLe_trans (ih _) ?_
    by_cases h1 : limit < min (du + (g.down_edges.getD x (0, 0)).2) INF
    · rw [if_pos h1]
      exact distLe_refl _
    · rw [if_neg h1]
      by_cases h2 : min (du + (g.down_edges.getD x (0, 0)).2) INF
          < d.getD (g.down_edges.getD x (0, 0)).1 INF
      · rw [if_pos h2]
        exact distLe_set (Nat.le_of_lt h2)
      · rw [if_neg h2]
        exact distLe_refl _

/-- One node of the downward sweep only decreases distances. -/
lemma down_node_le (g : CHGraph) (limit : ℕ) (d : List ℕ) (u : ℕ) :
    DistLe (phast_down_node g limit d u) d := by
  unfold phast_down_node
  by_cases hdu : d.getD u INF = INF
  · rw [if_pos hdu]
    exact distLe_refl _
  · rw [if_neg hdu]
    exact down_fold_le g limit (d.getD u INF) _ d

/-- The whole downward sweep only decreases distances. -/
lemma down_sweep_le (g : CHGraph) (limit : ℕ) :
    ∀ (L : List ℕ) (d : List ℕ),
      DistLe (L.foldl (phast_down_node g limit) d) d := by
  intro L
  induction L with
  | nil => intro d; exact distLe_refl _
  | cons x xs ih =>
    intro d
    rw [List.foldl_cons]
    exact distLe_trans (ih _) (down_node_le g limit d x)

lemma bnd_set {limit : ℕ} {d : List ℕ} {v nd : ℕ} (hb : Bnd limit d)
    (h : nd ≤ limit) : Bnd limit (d.set v nd) := by
  intro x
  rw [getD_set_general]
  by_cases hc : v = x ∧ v < d.length
  · rw [if_pos hc]
    exact Or.inr h
  · rw [if_neg hc]
    exact hb x

lemma up_fold_bnd (g : FastGraph32) (limit du : ℕ) :
    ∀ (l : List ℕ) (hd : List (ℕ × ℕ) × List ℕ), Bnd limit hd.2 →
      Bnd limit ((l.foldl (fun hd idx =>
        let edge := g.edges_fwd.getD idx ⟨0, 0, 0⟩
        let nd := min (du + edge.weight) INF
        if limit < nd then hd
        else if nd < hd.2.getD edge.adj_node INF then
          ((nd, edge.adj_node) :: hd.1, hd.2.set edge.adj_node nd)
        else hd) hd)).2 := by
  intro l
  induction l with
  | nil => intro hd hb; exact hb
  | cons x xs ih =>
    intro hd hb
    rw [List.foldl_cons]
    refine ih _ ?_
    by_cases h1 : limit < min (du + (g.edges_fwd.getD x ⟨0, 0, 0⟩).weight) INF
    · rw [if_pos h1]
      exact hb
    · rw [if_neg h1]
      by_cases h2 : min (du + (g.edges_fwd.getD x ⟨0, 0, 0⟩).weight) INF
          < hd.2.getD (g.edges_fwd.getD x ⟨0, 0, 0⟩).adj_node INF
      · rw [if_pos h2]
        exact bnd_set hb (Nat.le_of_not_lt h1)
      · rw [if_neg h2]
        exact hb

lemma phast_up_bnd (g : FastGraph32) (limit : ℕ) :
    ∀ (fuel : ℕ) (heap : List (ℕ × ℕ)) (dist dist2 : List ℕ),
      Bnd limit dist → phast_up g limit fuel heap dist = some dist2 →
      Bnd limit dist2 := by
  intro fuel
  induction fuel with
  | zero =>
    intro heap dist dist2 hb h
    rw [phast_up] at h
    split at h
    · injection h with h
      rw [← h]
      exact hb
    · exact absurd h (by simp)
  | succ f ih =>
    intro heap dist dist2 hb h
    rw [phast_up] at h
    cases hp : heap_pop heap with
    | none =>
      rw [hp] at h
      injection h with h
      rw [← h]
      exact hb
    | some pr =>
      obtain ⟨⟨du, u⟩, rest⟩ := pr
      rw [hp] at h
      dsimp only at h
      by_cases h1 : limit < du
      · rw [if_pos h1] at h
        exact ih _ _ _ hb h
      · rw [if_neg h1] at h
        by_cases h2 : du ≠ dist.getD u INF
        · rw [if_pos h2] at h
          exact ih _ _ _ hb h
        · rw [if_neg h2] at h
          by_cases h3 : g.first_edge_ids_fwd.length - 1 ≤ g.ranks.getD u 0
          · rw [if_pos h3] at h
            exact ih _ _ _ hb h
          · rw [if_neg h3] at h
            exact ih _ _ _ (up_fold_bnd g limit du _ _ hb) h

lemma down_fold_bnd (g : CHGraph) (limit du : ℕ) :
    ∀ (l : List ℕ) (d : List ℕ), Bnd limit d →
      Bnd limit (l.foldl (fun d idx =>
        let ew := g.down_edges.getD idx (0, 0)
        let nd := min (du + ew.2) INF
        if limit < nd then d
        else if nd < d.getD ew.1 INF then d.set ew.1 nd
        else d) d) := by
  intro l
  induction l with
  | nil => intro d hb; exact hb
  | cons x xs ih =>
    intro d hb
    rw [List.foldl_cons]
    refine ih _ ?_
    by_cases h1 : limit < min (du + (g.down_edges.getD x (0, 0)).2) INF
    · rw [if_pos h1]
      exact hb
    · rw [if_neg h1]
      by_cases h2 : min (du + (g.down_edges.getD x (0, 0)).2) INF
          < d.getD (g.down_edges.getD x (0, 0)).1 INF
      · rw [if_pos h2]
        exact bnd_set hb (Nat.le_of_not_lt h1)
      · rw [if_neg h2]
        exact hb

lemma down_sweep_bnd (g : CHGraph) (limit : ℕ) :
    ∀ (L : List ℕ) (d : List ℕ), Bnd limit d →
      Bnd limit (L.foldl (phast_down_node g limit) d) := by
  intro L
  induction L with
  | nil => intro d hb; exact hb
  | cons x xs ih =>
    intro d hb
    rw [List.foldl_cons]
    refine ih _ ?_
    unfold phast_down_node
    by_cases hdu : d.getD x INF = INF
    · rw [if_pos hdu]
      exact hb
    · rw [if_neg hdu]
      exact down_fold_bnd g limit _ _ d hb

lemma down_fold_untouched (g : CHGraph) (limit du : ℕ) (x : ℕ) :
    ∀ (l : List ℕ) (d : List ℕ),
      (∀ idx ∈ l, (g.down_edges.getD idx (0, 0)).1 ≠ x) →
      (l.foldl (fun d idx =>
        let ew := g.down_edges.getD idx (0, 0)
        let nd := min (du + ew.2) INF
        if limit < nd then d
        else if nd < d.getD ew.1 INF then d.set ew.1 nd
        else d) d).getD x INF = d.getD x INF := by
  intro l
  induction l with
  | nil => intro d _; rfl
  | cons i is ih =>
    intro d hl
    rw [List.foldl_cons]
    rw [ih _ (fun idx hidx => hl idx (List.mem_cons_of_mem _ hidx))]
    by_cases h1 : limit < min (du + (g.down_edges.getD i (0, 0)).2) INF
    · rw [if_pos h1]
    · rw [if_neg h1]
      by_cases h2 : min (du + (g.down_edges.getD i (0, 0)).2) INF
          < d.getD (g.down_edges.getD i (0, 0)).1 INF
      · rw [if_pos h2]
        rw [getD_set_general]
        rw [if_neg (fun hc => hl i (List.mem_cons_self _ _) hc.1)]
      · rw [if_neg h2]

/-- Processing node `u` never changes an entry that none of `u`'s downward
edges targets. -/
lemma down_node_untouched (g : CHGraph) (limit : ℕ) (d : List ℕ) (u x : ℕ)
    (hx : ∀ idx, g.down_offsets.getD u 0 ≤ idx →
      idx < g.down_offsets.getD (u + 1) 0 →
      (g.down_edges.getD idx (0, 0)).1 ≠ x) :
    (phast_down_node g limit d u).getD x INF = d.getD x INF := by
  unfold phast_down_node
  by_cases hdu : d.getD u INF = INF
  · rw [if_pos hdu]
  · rw [if_neg hdu]
    refine down_fold_untouched g limit _ x _ d ?_
    intro idx hidx
    have h := List.mem_range'_1.mp hidx
    exact hx idx h.1 (by omega)

/-- Folding nodes of strictly smaller rank than `x` never changes `x`'s
entry (all their downward targets have even smaller rank). -/
lemma sweep_stable (g : CHGraph) (limit : ℕ) (hdr : DownRanked g) :
    ∀ (L : List ℕ) (d : List ℕ) (x : ℕ),
      (∀ y ∈ L, g.graph.ranks.getD y 0 < g.graph.ranks.getD x 0) →
      (L.foldl (phast_down_node g limit) d).getD x INF = d.getD x INF := by
  intro L
  induction L with
  | nil => intro d x _; rfl
  | cons y ys ih =>
    intro d x hL
    rw [List.foldl_cons]
    rw [ih _ x (fun z hz => hL z (List.mem_cons_of_mem _ hz))]
    refine down_node_untouched g limit d y x ?_
    intro idx h1 h2 hcx
    have htgt := hdr y idx h1 h2
    have hy := hL y (List.mem_cons_self _ _)
    rw [hcx] at htgt
    omega

lemma down_fold_length (g : CHGraph) (limit du : ℕ) :
    ∀ (l : List ℕ) (d : List ℕ),
      (l.foldl (fun d idx =>
        let ew := g.down_edges.getD idx (0, 0)
        let nd := min (du + ew.2) INF
        if limit < nd then d
        else if nd < d.getD ew.1 INF then d.set ew.1 nd
        else d) d).length = d.length := by
  intro l
  induction l with
  | nil => intro d; rfl
  | cons x xs ih =>
    intro d
    rw [List.foldl_cons, ih]
    by_cases h1 : limit < min (du + (g.down_edges.getD x (0, 0)).2) INF
    · rw [if_pos h1]
    · rw [if_neg h1]
      by_cases h2 : min (du + (g.down_edges.getD x (0, 0)).2) INF
          < d.getD (g.down_edges.getD x (0, 0)).1 INF
      · rw [if_pos h2]
        exact List.length_set _ _ _
      · rw [if_neg h2]

/-- Relaxing `u`'s downward edges with unbounded limit establishes the
triangle inequality for each of them. -/
lemma down_node_bound (g : CHGraph) (d : List ℕ) (u idx : ℕ)
    (hdu : d.getD u INF ≠ INF)
    (htgt : (g.down_edges.getD idx (0, 0)).1 < d.length)
    (h1 : g.down_offsets.getD u 0 ≤ idx)
    (h2 : idx < g.down_offsets.getD (u + 1) 0) :
    (phast_down_node g INF d u).getD (g.down_edges.getD idx (0, 0)).1 INF
      ≤ d.getD u INF + (g.down_edges.getD idx (0, 0)).2 := by
  unfold phast_down_node
  rw [if_neg hdu]
  show (List.foldl (fun d2 idx =>
      let ew := g.down_edges.getD idx (0, 0)
      let nd := min (d.getD u INF + ew.2) INF
      if INF < nd then d2
      else if nd < d2.getD ew.1 INF then d2.set ew.1 nd
      else d2) d (List.range' (g.down_offsets.getD u 0)
        (g.down_offsets.getD (u + 1) 0 - g.down_offsets.getD u 0))).getD
      (g.down_edges.getD idx (0, 0)).1 INF
    ≤ d.getD u INF + (g.down_edges.getD idx (0, 0)).2
  have hmem : idx ∈ List.range' (g.down_offsets.getD u 0)
      (g.down_offsets.getD (u + 1) 0 - g.down_offsets.getD u 0) :=
    List.mem_range'_1.mpr ⟨h1, by omega⟩
  obtain ⟨l1, l2, hsplit⟩ := List.append_of_mem hmem
  rw [hsplit, List.foldl_append, List.foldl_cons]
  have hstep : ∀ (d1 : List ℕ), d1.length = d.length →
      ((fun d2 idx =>
        let ew := g.down_edges.getD idx (0, 0)
        let nd := min (d.getD u INF + ew.2) INF
        if INF < nd then d2
        else if nd < d2.getD ew.1 INF then d2.set ew.1 nd
        else d2) d1 idx).getD (g.down_edges.getD idx (0, 0)).1 INF
        ≤ d.getD u INF + (g.down_edges.getD idx (0, 0)).2 := by
    intro d1 hlen
    dsimp only
    rw [if_neg (by
      show ¬ INF < min (d.getD u INF + (g.down_edges.getD idx (0, 0)).2) INF
      exact Nat.not_lt.mpr (Nat.min_le_right _ _))]
    by_cases h3 : min (d.getD u INF + (g.down_edges.getD idx (0, 0)).2) INF
        < d1.getD (g.down_edges.getD idx (0, 0)).1 INF
    · rw [if_pos h3]
      have : (d1.set (g.down_edges.getD idx (0, 0)).1
          (min (d.getD u INF + (g.down_edges.getD idx (0, 0)).2) INF)).getD
          (g.down_edges.getD idx (0, 0)).1 INF
          ≤ min (d.getD u INF + (g.down_edges.getD idx (0, 0)).2) INF := by
        rw [getD_set_general]
        rw [if_pos ⟨rfl, by rw [hlen]; exact htgt⟩]
      exact Nat.le_trans this (Nat.min_le_left _ _)
    · rw [if_neg h3]
      exact Nat.le_trans (Nat.le_of_not_lt h3) (Nat.min_le_left _ _)
  refine Nat.le_trans (down_fold_le g INF (d.getD u INF) l2 _
    (g.down_edges.getD idx (0, 0)).1) ?_
  exact hstep _ (down_fold_length g INF (d.getD u INF) l1 d)

lemma down_node_length (g : CHGraph) (limit : ℕ) (d : List ℕ) (u : ℕ) :
    (phast_down_node g limit d u).length = d.length := by
  unfold phast_down_node
  by_cases hdu : d.getD u INF = INF
  · rw [if_pos hdu]
  · rw [if_neg hdu]
    exact down_fold_length g limit (d.getD u INF) _ d

lemma down_sweep_length (g : CHGraph) (limit : ℕ) :
    ∀ (L : List ℕ) (d : List ℕ),
      (L.foldl (phast_down_node g limit) d).length = d.length := by
  intro L
  induction L with
  | nil => intro d; rfl
  | cons x xs ih =>
    intro d
    rw [List.foldl_cons, ih, down_node_length]

/-- The full downward sweep over a rank-descending node list satisfies the
triangle inequality on every downward edge of a swept node, provided the
edge's target slot is in range and the node was reached. -/
lemma sweep_triangle (g : CHGraph) (hdr : DownRanked g) :
    ∀ (L : List ℕ),
      List.Pairwise (fun a b =>
        g.graph.ranks.getD b 0 < g.graph.ranks.getD a 0) L →
      ∀ (d : List ℕ) (u idx : ℕ), u ∈ L →
      g.down_offsets.getD u 0 ≤ idx →
      idx < g.down_offsets.getD (u + 1) 0 →
      (g.down_edges.getD idx (0, 0)).1 < d.length →
      (L.foldl (phast_down_node g INF) d).getD u INF ≠ INF →
      (L.foldl (phast_down_node g INF) d).getD
          (g.down_edges.getD idx (0, 0)).1 INF
        ≤ (L.foldl (phast_down_node g INF) d).getD u INF
          + (g.down_edges.getD idx (0, 0)).2 := by
  intro L
  induction L with
  | nil =>
    intro _ d u idx hu
    exact absurd hu (List.not_mem_nil _)
  | cons y ys ih =>
    intro hpw d u idx hu h1 h2 htgt hne
    rw [List.foldl_cons] at hne ⊢
    have hpw2 := List.pairwise_cons.mp hpw
    cases List.mem_cons.mp hu with
    | inr hmem =>
      refine ih hpw2.2 _ u idx hmem h1 h2 ?_ hne
      rw [down_node_length]
      exact htgt
    | inl heq =>
      subst heq
      have hself : (phast_down_node g INF d u).getD u INF = d.getD u INF := by
        refine down_node_untouched g INF d u u ?_
        intro j hj1 hj2 hcx
        have hr := hdr u j hj1 hj2
        rw [hcx] at hr
        omega
      have hufin : (ys.foldl (phast_down_node g INF)
          (phast_down_node g INF d u)).getD u INF = d.getD u INF := by
        rw [sweep_stable g INF hdr ys _ u hpw2.1, hself]
      rw [hufin] at hne ⊢
      have hb := down_node_bound g d u idx hne htgt h1 h2
      refine Nat.le_trans ?_ hb
      exact down_sweep_le g INF ys _ (g.down_edges.getD idx (0, 0)).1

/-- C6: for an in-range source, `run_phast` returns a distance array with
`dist[source] = 0` and every entry either `INF` or at most `limit`; with
the limit unbounded and a well-formed hierarchy (order reversed is rank
descending, downward edges go down in rank), every downward edge `u -> v`
of weight `w` with `u` in the order and `dist[u]` finite satisfies
`dist[v] <= dist[u] + w`. The claim's unconditional triangle inequality
for every graph edge is refuted separately. -/
theorem run_phast_bounds (g : CHGraph) (source limit fuel : ℕ)
    (dist : List ℕ) (hsrc : source < g.graph.ranks.length)
    (h : run_phast g source limit fuel = some dist) :
    dist.getD source INF = 0 ∧
    (∀ v, dist.getD v INF = INF ∨ dist.getD v INF ≤ limit) ∧
    (limit = INF → RankDesc g → DownRanked g →
      ∀ u idx, u ∈ g.order →
        g.down_offsets.getD u 0 ≤ idx →
        idx < g.down_offsets.getD (u + 1) 0 →
        (g.down_edges.getD idx (0, 0)).1 < dist.length →
        dist.getD u INF ≠ INF →
        dist.getD (g.down_edges.getD idx (0, 0)).1 INF
          ≤ dist.getD u INF + (g.down_edges.getD idx (0, 0)).2) := by
  have hrp : run_phast g source limit fuel =
      (match phast_up g.graph limit fuel [(0, source)]
          ((List.replicate g.graph.ranks.length INF).set source 0) with
        | none => none
        | some d1 =>
          some (g.order.reverse.foldl (phast_down_node g limit) d1)) := by
    show (if g.graph.ranks.length ≤ source
        then some (List.replicate g.graph.ranks.length INF)
        else match phast_up g.graph limit fuel [(0, source)]
            ((List.replicate g.graph.ranks.length INF).set source 0) with
          | none => none
          | some d1 =>
            some (g.order.reverse.foldl (phast_down_node g limit) d1)) = _
    rw [if_neg (Nat.not_le.mpr hsrc)]
  rw [hrp] at h
  cases hup : phast_up g.graph limit fuel [(0, source)]
      ((List.replicate g.graph.ranks.length INF).set source 0) with
  | none =>
    rw [hup] at h
    exact Option.noConfusion h
  | some dist1 =>
    rw [hup] at h
    injection h with h
    have h0 : ((List.replicate g.graph.ranks.length INF).set source 0).getD
        source INF = 0 := by
      rw [getD_set_general]
      rw [if_pos ⟨rfl, by rw [List.length_replicate]; exact hsrc⟩]
    have hle1 := phast_up_le g.graph limit fuel _ _ _ hup
    refine ⟨?_, ?_, ?_⟩
    · rw [← h]
      refine Nat.le_zero.mp ?_
      refine Nat.le_trans
        (down_sweep_le g limit g.order.reverse dist1 source) ?_
      rw [← h0]
      exact hle1 source
    · have hb0 : Bnd limit
          ((List.replicate g.graph.ranks.length INF).set source 0) := by
        refine bnd_set ?_ (Nat.zero_le _)
        intro v
        exact Or.inl (getD_replicate INF g.graph.ranks.length v)
      have hb1 := phast_up_bnd g.graph limit fuel _ _ _ hb0 hup
      rw [← h]
      exact down_sweep_bnd g limit g.order.reverse dist1 hb1
    · intro hlim hrd hdr u idx humem hi1 hi2 htgt hne
      subst hlim
      rw [← h] at htgt
      rw [down_sweep_length] at htgt
      rw [← h] at hne ⊢
      exact sweep_triangle g hdr g.order.reverse hrd dist1 u idx
        (List.mem_reverse.mpr humem) hi1 hi2 htgt hne

/-- Three distinct sites tied at time 10 with K = 2: the cell keeps the
first two arrivals (sites 1 and 2), but plain top-K by
`(time asc, anchor asc)` would keep sites 0 and 1 — the retained set is
not the claimed bounded top-K of the deduplicated candidates. -/
theorem hex_topk_cex :
    hex_cell_topk 2 65535 [(1, 10), (2, 10), (0, 10)] = [(1, 10), (2, 10)] ∧
    spec_plain_topk 2 (hex_filter 65535 [(1, 10), (2, 10), (0, 10)])
      = [(0, 10), (1, 10)] ∧
    hex_cell_topk 2 65535 [(1, 10), (2, 10), (0, 10)]
      ≠ spec_plain_topk 2 (hex_filter 65535 [(1, 10), (2, 10), (0, 10)]) := by
  decide

lemma getD_mem {α : Type} (l : List α) (i : ℕ) (d : α) (h : i < l.length) :
    l.getD i d ∈ l := by
  rw [List.getD_eq_getElem?_getD, List.getElem?_eq_getElem h]
  simp only [Option.getD_some]
  exact List.getElem_mem h

lemma nodup_set_fresh (l : List ℤ) (i : ℕ) (x : ℤ) (hn : l.Nodup)
    (hx : x ∉ l) : (l.set i x).Nodup := by
  induction l generalizing i with
  | nil => exact hn
  | cons a rest ih =>
    cases i with
    | zero =>
      rw [List.set_cons_zero]
      refine List.nodup_cons.mpr ⟨?_, (List.nodup_cons.mp hn).2⟩
      intro hmem
      exact hx (List.mem_cons_of_mem _ hmem)
    | succ n =>
      rw [List.set_cons_succ]
      refine List.nodup_cons.mpr ⟨?_, ih n (List.nodup_cons.mp hn).2
        (fun hm => hx (List.mem_cons_of_mem _ hm))⟩
      intro hmem
      cases List.mem_or_eq_of_mem_set hmem with
      | inl h2 => exact (List.nodup_cons.mp hn).1 h2
      | inr h2 =>
        apply hx
        rw [← h2]
        exact List.mem_cons_self _ _

lemma map_set_fst (l : List (ℤ × ℕ)) (i : ℕ) (x : ℤ × ℕ) :
    (l.set i x).map Prod.fst = (l.map Prod.fst).set i x.1 := by
  induction l generalizing i with
  | nil => rfl
  | cons a rest ih =>
    cases i with
    | zero => rfl
    | succ n => simp only [List.set_cons_succ, List.map_cons, ih]

lemma worst_fold_facts (e : List (ℤ × ℕ)) :
    ∀ (m s : ℕ) (w : ℕ × ℕ), 0 < s →
      ((List.range' s m).foldl (worst_step e) w = w ∨
        ∃ i ∈ List.range' s m,
          (List.range' s m).foldl (worst_step e) w
            = (i, (e.getD i (0, 0)).2)) ∧
      w.2 ≤ ((List.range' s m).foldl (worst_step e) w).2 ∧
      ∀ i ∈ List.range' s m,
        (e.getD i (0, 0)).2 ≤ ((List.range' s m).foldl (worst_step e) w).2 := by
  intro m
  induction m with
  | zero =>
    intro s w _
    refine ⟨Or.inl rfl, Nat.le_refl _, ?_⟩
    intro i hi
    exact absurd hi (List.not_mem_nil _)
  | succ n ih =>
    intro s w hs
    rw [List.range'_succ, List.foldl_cons]
    have hw1 : (worst_step e w s = w ∨
        worst_step e w s = (s, (e.getD s (0, 0)).2)) ∧
        w.2 ≤ (worst_step e w s).2 ∧
        (e.getD s (0, 0)).2 ≤ (worst_step e w s).2 := by
      unfold worst_step
      by_cases h : w.2 < (e.getD s (0, 0)).2
      · rw [if_pos (Or.inr h)]
        exact ⟨Or.inr rfl, Nat.le_of_lt h, Nat.le_refl _⟩
      · rw [if_neg (by
          intro hc
          cases hc with
          | inl h0 => omega
          | inr h1 => exact h h1)]
        exact ⟨Or.inl rfl, Nat.le_refl _, Nat.le_of_not_lt h⟩
    have hf := ih (s + 1) (worst_step e w s) (Nat.succ_pos s)
    refine ⟨?_, Nat.le_trans hw1.2.1 hf.2.1, ?_⟩
    · cases hf.1 with
      | inl h =>
        rw [h]
        cases hw1.1 with
        | inl h2 => exact Or.inl h2
        | inr h2 => exact Or.inr ⟨s, List.mem_cons_self _ _, h2⟩
      | inr h =>
        obtain ⟨i, hi, hr⟩ := h
        exact Or.inr ⟨i, List.mem_cons_of_mem _ hi, hr⟩
    · intro i hi
      cases List.mem_cons.mp hi with
      | inl h2 =>
        rw [h2]
        exact Nat.le_trans hw1.2.2 hf.2.1
      | inr h2 => exact hf.2.2 i h2

lemma worst_of_facts (e : List (ℤ × ℕ)) (he : e ≠ []) :
    (worst_of e).1 < e.length ∧
    (worst_of e).2 = (e.getD (worst_of e).1 (0, 0)).2 ∧
    ∀ i, i < e.length → (e.getD i (0, 0)).2 ≤ (worst_of e).2 := by
  obtain ⟨n, hn⟩ : ∃ n, e.length = n + 1 := by
    cases e with
    | nil => exact absurd rfl he
    | cons a l => exact ⟨l.length, rfl⟩
  unfold worst_of
  rw [hn, List.range_eq_range', List.range'_succ, List.foldl_cons]
  have h0 : worst_step e (0, 0) 0 = (0, (e.getD 0 (0, 0)).2) := by
    unfold worst_step
    rw [if_pos (Or.inl rfl)]
  rw [h0]
  have hf := worst_fold_facts e n 1 (0, (e.getD 0 (0, 0)).2) Nat.one_pos
  refine ⟨?_, ?_, ?_⟩
  · cases hf.1 with
    | inl h => rw [h]; omega
    | inr h =>
      obtain ⟨i, hi, hr⟩ := h
      rw [hr]
      have := List.mem_range'_1.mp hi
      omega
  · cases hf.1 with
    | inl h => rw [h]
    | inr h =>
      obtain ⟨i, hi, hr⟩ := h
      rw [hr]
  · intro i hilen
    rcases Nat.eq_zero_or_pos i with h | h
    · subst h
      exact hf.2.1
    · refine hf.2.2 i (List.mem_range'_1.mpr ⟨h, ?_⟩)
      omega

lemma upd_found_none (site : ℤ) (ts : ℕ) :
    ∀ e, upd_found e site ts = none → ∀ p ∈ e, p.1 ≠ site := by
  intro e
  induction e with
  | nil =>
    intro _ p hp
    exact absurd hp (List.not_mem_nil _)
  | cons a rest ih =>
    intro h p hp
    rw [upd_found] at h
    by_cases ha : a.1 = site
    · rw [if_pos ha] at h
      exact Option.noConfusion h
    · rw [if_neg ha] at h
      cases hr : upd_found rest site ts with
      | some r =>
        rw [hr] at h
        exact Option.noConfusion h
      | none =>
        cases List.mem_cons.mp hp with
        | inl hpa => rw [hpa]; exact ha
        | inr hpr => exact ih hr p hpr

lemma upd_found_some (site : ℤ) (ts : ℕ) :
    ∀ e r, upd_found e site ts = some r →
      r.map Prod.fst = e.map Prod.fst ∧
      r.length = e.length ∧
      (∃ q ∈ e, q.1 = site) ∧
      ∀ p ∈ r, p ∈ e ∨ (p = (site, ts) ∧ ∃ q ∈ e, q.1 = site ∧ ts < q.2) := by
  intro e
  induction e with
  | nil =>
    intro r h
    exact Option.noConfusion h
  | cons a rest ih =>
    intro r h
    rw [upd_found] at h
    by_cases ha : a.1 = site
    · rw [if_pos ha] at h
      injection h with h
      subst h
      by_cases ht : ts < a.2
      · rw [if_pos ht]
        refine ⟨rfl, rfl, ⟨a, List.mem_cons_self _ _, ha⟩, ?_⟩
        intro p hp
        cases List.mem_cons.mp hp with
        | inl hpa =>
          right
          exact ⟨by rw [hpa, ha], a, List.mem_cons_self _ _, ha, ht⟩
        | inr hpr =>
          left
          exact List.mem_cons_of_mem _ hpr
      · rw [if_neg ht]
        exact ⟨rfl, rfl, ⟨a, List.mem_cons_self _ _, ha⟩, fun p hp => Or.inl hp⟩
    · rw [if_neg ha] at h
      cases hr : upd_found rest site ts with
      | none =>
        rw [hr] at h
        exact Option.noConfusion h
      | some r0 =>
        rw [hr] at h
        injection h with h
        subst h
        obtain ⟨hm, hl, hex, hmem⟩ := ih r0 hr
        refine ⟨?_, ?_, ?_, ?_⟩
        · simp only [List.map_cons, hm]
        · simp only [List.length_cons, hl]
        · obtain ⟨q, hq, hq1⟩ := hex
          exact ⟨q, List.mem_cons_of_mem _ hq, hq1⟩
        · intro p hp
          cases List.mem_cons.mp hp with
          | inl hpa =>
            left
            rw [hpa]
            exact List.mem_cons_self _ _
          | inr hpr =>
            cases hmem p hpr with
            | inl h2 =>
              left
              exact List.mem_cons_of_mem _ h2
            | inr h2 =>
              right
              obtain ⟨hps, q, hq, hq1, hq2⟩ := h2
              exact ⟨hps, q, List.mem_cons_of_mem _ hq, hq1, hq2⟩

lemma upd_found_min (site : ℤ) (ts : ℕ) :
    ∀ e r, (e.map Prod.fst).Nodup → upd_found e site ts = some r →
      ∀ p ∈ r, p.1 = site → p.2 ≤ ts := by
  intro e
  induction e with
  | nil =>
    intro r _ h
    exact Option.noConfusion h
  | cons a rest ih =>
    intro r hnd h p hp hps
    rw [upd_found] at h
    by_cases ha : a.1 = site
    · rw [if_pos ha] at h
      injection h with h
      subst h
      cases List.mem_cons.mp hp with
      | inl hpa =>
        by_cases ht : ts < a.2
        · rw [if_pos ht] at hpa
          rw [hpa]
        · rw [if_neg ht] at hpa
          rw [hpa]
          omega
      | inr hpr =>
        exfalso
        have hmem : a.1 ∈ rest.map Prod.fst := by
          rw [ha, ← hps]
          exact List.mem_map_of_mem _ hpr
        exact (List.nodup_cons.mp (by simpa using hnd)).1 hmem
    · rw [if_neg ha] at h
      cases hr : upd_found rest site ts with
      | none =>
        rw [hr] at h
        exact Option.noConfusion h
      | some r0 =>
        rw [hr] at h
        injection h with h
        subst h
        cases List.mem_cons.mp hp with
        | inl hpa =>
          rw [hpa] at hps
          exact absurd hps ha
        | inr hpr =>
          exact ih r0 (List.nodup_cons.mp (by simpa using hnd)).2 hr p hpr hps

lemma mem_getD {α : Type} (l : List α) (p d : α) (hp : p ∈ l) :
    ∃ i, i < l.length ∧ l.getD i d = p := by
  obtain ⟨i, h, hi⟩ := List.getElem_of_mem hp
  refine ⟨i, h, ?_⟩
  rw [List.getD_eq_getElem?_getD, List.getElem?_eq_getElem h]
  simpa using hi

/-- One `update_topk` step preserves the store invariant: bounded size,
distinct sites, entries are minimal over all processed occurrences of
their site, and any processed site now absent saw a full store whose
entries all beat it. -/
lemma update_topk_step (k : ℕ) (e past : List (ℤ × ℕ)) (c : ℤ × ℕ)
    (ha : e.length ≤ k)
    (hb : (e.map Prod.fst).Nodup)
    (hc : ∀ p ∈ e, p ∈ past ∧ ∀ q ∈ past, q.1 = p.1 → p.2 ≤ q.2)
    (hd : ∀ q ∈ past, (∀ p ∈ e, p.1 ≠ q.1) →
      e.length = k ∧ ∀ p ∈ e, p.2 ≤ q.2) :
    (update_topk k e c.1 c.2).length ≤ k ∧
    ((update_topk k e c.1 c.2).map Prod.fst).Nodup ∧
    (∀ p ∈ update_topk k e c.1 c.2, p ∈ past ++ [c] ∧
      ∀ q ∈ past ++ [c], q.1 = p.1 → p.2 ≤ q.2) ∧
    (∀ q ∈ past ++ [c], (∀ p ∈ update_topk k e c.1 c.2, p.1 ≠ q.1) →
      (update_topk k e c.1 c.2).length = k ∧
      ∀ p ∈ update_topk k e c.1 c.2, p.2 ≤ q.2) := by
  cases hf : upd_found e c.1 c.2 with
  | some r =>
    have hru : update_topk k e c.1 c.2 = r := by
      unfold update_topk
      rw [hf]
    rw [hru]
    obtain ⟨hmap, hlen, hex, hmem⟩ := upd_found_some c.1 c.2 e r hf
    have hmin := upd_found_min c.1 c.2 e r hb hf
    refine ⟨by rw [hlen]; exact ha, by rw [hmap]; exact hb, ?_, ?_⟩
    · intro p hp
      constructor
      · cases hmem p hp with
        | inl h2 => exact List.mem_append_left _ (hc p h2).1
        | inr h2 =>
          refine List.mem_append_right _ ?_
          rw [h2.1]
          exact List.mem_singleton.mpr rfl
      · intro q hq hq1
        cases List.mem_append.mp hq with
        | inl hqp =>
          cases hmem p hp with
          | inl h2 => exact (hc p h2).2 q hqp hq1
          | inr h2 =>
            obtain ⟨hpc, q0, hq0, hq01, hq02⟩ := h2
            have hq1' : q.1 = q0.1 := by
              rw [hq1, hpc]
              exact hq01.symm
            have hb1 : q0.2 ≤ q.2 := (hc q0 hq0).2 q hqp hq1'
            rw [hpc]
            show c.2 ≤ q.2
            omega
        | inr hqc =>
          have hqc2 : q = c := List.mem_singleton.mp hqc
          have hp1 : p.1 = c.1 := by rw [← hq1, hqc2]
          have := hmin p hp hp1
          rw [hqc2]
          exact this
    · intro q hq habs
      cases List.mem_append.mp hq with
      | inl hqp =>
        have habse : ∀ p ∈ e, p.1 ≠ q.1 := by
          intro p hpe
          have hpf : p.1 ∈ r.map Prod.fst := by
            rw [hmap]
            exact List.mem_map_of_mem _ hpe
          obtain ⟨p', hp', hp'eq⟩ := List.mem_map.mp hpf
          rw [← hp'eq]
          exact habs p' hp'
        obtain ⟨hek, hbound⟩ := hd q hqp habse
        refine ⟨by rw [hlen]; exact hek, ?_⟩
        intro p hp
        cases hmem p hp with
        | inl h2 => exact hbound p h2
        | inr h2 =>
          obtain ⟨hpc, q0, hq0, hq01, hq02⟩ := h2
          have hbq0 := hbound q0 hq0
          rw [hpc]
          show c.2 ≤ q.2
          omega
      | inr hqc =>
        exfalso
        have hqc2 : q = c := List.mem_singleton.mp hqc
        obtain ⟨q0, hq0, hq01⟩ := hex
        have hq0f : q0.1 ∈ r.map Prod.fst := by
          rw [hmap]
          exact List.mem_map_of_mem _ hq0
        obtain ⟨p', hp', hp'eq⟩ := List.mem_map.mp hq0f
        exact habs p' hp' (by rw [hp'eq, hq01, hqc2])
  | none =>
    have hnone := upd_found_none c.1 c.2 e hf
    have hcnotin : c.1 ∉ e.map Prod.fst := by
      intro hmem
      obtain ⟨p, hp, hpeq⟩ := List.mem_map.mp hmem
      exact hnone p hp hpeq
    by_cases hlt : e.length < k
    · have hru : update_topk k e c.1 c.2 = e ++ [(c.1, c.2)] := by
        unfold update_topk
        simp only [hf]
        rw [if_pos hlt]
      rw [hru]
      refine ⟨?_, ?_, ?_, ?_⟩
      · rw [List.length_append]
        simp only [List.length_singleton]
        omega
      · rw [List.map_append]
        refine List.Nodup.append hb (by simp) ?_
        intro x hx hx2
        simp at hx2
        rw [hx2] at hx
        exact hcnotin hx
      · intro p hp
        cases List.mem_append.mp hp with
        | inl hpe =>
          refine ⟨List.mem_append_left _ (hc p hpe).1, ?_⟩
          intro q hq hq1
          cases List.mem_append.mp hq with
          | inl hqp => exact (hc p hpe).2 q hqp hq1
          | inr hqc =>
            exfalso
            have hqc2 := List.mem_singleton.mp hqc
            exact hnone p hpe (by rw [← hq1, hqc2])
        | inr hpc =>
          have hpc2 := List.mem_singleton.mp hpc
          refine ⟨List.mem_append_right _
            (by rw [hpc2]; exact List.mem_singleton.mpr rfl), ?_⟩
          intro q hq hq1
          cases List.mem_append.mp hq with
          | inl hqp =>
            exfalso
            have habse : ∀ p' ∈ e, p'.1 ≠ q.1 := by
              intro p' hp'
              rw [hq1, hpc2]
              exact hnone p' hp'
            have := (hd q hqp habse).1
            omega
          | inr hqc =>
            have hqc2 := List.mem_singleton.mp hqc
            rw [hpc2, hqc2]
      · intro q hq habs
        exfalso
        cases List.mem_append.mp hq with
        | inl hqp =>
          have habse : ∀ p ∈ e, p.1 ≠ q.1 :=
            fun p hp => habs p (List.mem_append_left _ hp)
          have := (hd q hqp habse).1
          omega
        | inr hqc =>
          have hqc2 := List.mem_singleton.mp hqc
          have hcm : (c.1, c.2) ∈ e ++ [(c.1, c.2)] :=
            List.mem_append_right _ (List.mem_singleton.mpr rfl)
          exact habs _ hcm (by rw [hqc2])
    · have hek : e.length = k := by omega
      by_cases hts : c.2 < (worst_of e).2
      · have hene : e ≠ [] := by
          intro he0
          have h00 : (worst_of e).2 = 0 := by
            rw [he0]
            decide
          omega
        obtain ⟨hwlt, hweq, hwmax⟩ := worst_of_facts e hene
        have hru : update_topk k e c.1 c.2
            = e.set (worst_of e).1 (c.1, c.2) := by
          unfold update_topk
          simp only [hf]
          rw [if_neg hlt, if_pos hts]
        rw [hru]
        have hsetlen : (e.set (worst_of e).1 (c.1, c.2)).length = e.length :=
          List.length_set _ _ _
        have hcmem : (c.1, c.2) ∈ e.set (worst_of e).1 (c.1, c.2) := by
          have hg : (e.set (worst_of e).1 (c.1, c.2)).getD
              (worst_of e).1 (0, 0) = (c.1, c.2) := getD_set_eq _ _ _ _ hwlt
          have hm2 := getD_mem (e.set (worst_of e).1 (c.1, c.2))
            (worst_of e).1 ((0 : ℤ), (0 : ℕ))
            (by rw [hsetlen]; exact hwlt)
          rw [hg] at hm2
          exact hm2
        refine ⟨by rw [hsetlen]; exact ha, ?_, ?_, ?_⟩
        · rw [map_set_fst]
          exact nodup_set_fresh _ _ _ hb hcnotin
        · intro p hp
          cases List.mem_or_eq_of_mem_set hp with
          | inl hpe =>
            refine ⟨List.mem_append_left _ (hc p hpe).1, ?_⟩
            intro q hq hq1
            cases List.mem_append.mp hq with
            | inl hqp => exact (hc p hpe).2 q hqp hq1
            | inr hqc =>
              exfalso
              have hqc2 := List.mem_singleton.mp hqc
              exact hnone p hpe (by rw [← hq1, hqc2])
          | inr hpc =>
            refine ⟨List.mem_append_right _
              (by rw [hpc]; exact List.mem_singleton.mpr rfl), ?_⟩
            intro q hq hq1
            cases List.mem_append.mp hq with
            | inl hqp =>
              have habse : ∀ p' ∈ e, p'.1 ≠ q.1 := by
                intro p' hp'
                rw [hq1, hpc]
                exact hnone p' hp'
              have hball := (hd q hqp habse).2
              have hwmem : e.getD (worst_of e).1 (0, 0) ∈ e :=
                getD_mem _ _ _ hwlt
              have hwle : (worst_of e).2 ≤ q.2 := by
                rw [hweq]
                exact hball _ hwmem
              rw [hpc]
              show c.2 ≤ q.2
              omega
            | inr hqc =>
              have hqc2 := List.mem_singleton.mp hqc
              rw [hpc, hqc2]
        · intro q hq habs
          cases List.mem_append.mp hq with
          | inl hqp =>
            refine ⟨by rw [hsetlen]; exact hek, ?_⟩
            intro p hp
            by_cases hqin : ∀ p' ∈ e, p'.1 ≠ q.1
            · have hball := (hd q hqp hqin).2
              cases List.mem_or_eq_of_mem_set hp with
              | inl hpe => exact hball p hpe
              | inr hpc =>
                have hwmem : e.getD (worst_of e).1 (0, 0) ∈ e :=
                  getD_mem _ _ _ hwlt
                have hwle : (worst_of e).2 ≤ q.2 := by
                  rw [hweq]
                  exact hball _ hwmem
                rw [hpc]
                show c.2 ≤ q.2
                omega
            · push_neg at hqin
              obtain ⟨p0, hp0, hp01⟩ := hqin
              obtain ⟨i, hilen, hieq⟩ := mem_getD e p0 (0, 0) hp0
              have hiw : i = (worst_of e).1 := by
                by_contra hne
                have hgd : (e.set (worst_of e).1 (c.1, c.2)).getD
                    i (0, 0) = p0 := by
                  rw [getD_set_ne _ _ _ _ _ (Ne.symm hne)]
                  exact hieq
                have hp0mem : p0 ∈ e.set (worst_of e).1 (c.1, c.2) := by
                  rw [← hgd]
                  exact getD_mem _ _ _ (by rw [hsetlen]; exact hilen)
                exact habs p0 hp0mem hp01
              have hp02 : p0.2 = (worst_of e).2 := by
                rw [hweq, ← hiw, hieq]
              have hp0le : p0.2 ≤ q.2 := (hc p0 hp0).2 q hqp hp01.symm
              cases List.mem_or_eq_of_mem_set hp with
              | inl hpe =>
                obtain ⟨j, hjlen, hjeq⟩ := mem_getD e p (0, 0) hpe
                have := hwmax j hjlen
                rw [hjeq] at this
                omega
              | inr hpc =>
                rw [hpc]
                show c.2 ≤ q.2
                omega
          | inr hqc =>
            exfalso
            have hqc2 := List.mem_singleton.mp hqc
            exact habs _ hcmem (by rw [hqc2])
      · have hru : update_topk k e c.1 c.2 = e := by
          unfold update_topk
          simp only [hf]
          rw [if_neg hlt, if_neg hts]
        rw [hru]
        refine ⟨ha, hb, ?_, ?_⟩
        · intro p hp
          refine ⟨List.mem_append_left _ (hc p hp).1, ?_⟩
          intro q hq hq1
          cases List.mem_append.mp hq with
          | inl hqp => exact (hc p hp).2 q hqp hq1
          | inr hqc =>
            exfalso
            have hqc2 := List.mem_singleton.mp hqc
            exact hnone p hp (by rw [← hq1, hqc2])
        · intro q hq habs
          cases List.mem_append.mp hq with
          | inl hqp => exact hd q hqp habs
          | inr hqc =>
            have hqc2 := List.mem_singleton.mp hqc
            refine ⟨hek, ?_⟩
            intro p hp
            have hene : e ≠ [] := List.ne_nil_of_mem hp
            obtain ⟨hwlt, hweq, hwmax⟩ := worst_of_facts e hene
            obtain ⟨j, hjlen, hjeq⟩ := mem_getD e p (0, 0) hp
            have := hwmax j hjlen
            rw [hjeq] at this
            rw [hqc2]
            show p.2 ≤ c.2
            omega

lemma topk_fold_inv (k : ℕ) :
    ∀ (cands e past : List (ℤ × ℕ)),
      e.length ≤ k →
      (e.map Prod.fst).Nodup →
      (∀ p ∈ e, p ∈ past ∧ ∀ q ∈ past, q.1 = p.1 → p.2 ≤ q.2) →
      (∀ q ∈ past, (∀ p ∈ e, p.1 ≠ q.1) →
        e.length = k ∧ ∀ p ∈ e, p.2 ≤ q.2) →
      (topk_fold_from k e cands).length ≤ k ∧
      ((topk_fold_from k e cands).map Prod.fst).Nodup ∧
      ∀ p ∈ topk_fold_from k e cands, p ∈ past ++ cands ∧
        ∀ q ∈ past ++ cands, q.1 = p.1 → p.2 ≤ q.2 := by
  intro cands
  induction cands with
  | nil =>
    intro e past ha hb hc _
    refine ⟨ha, hb, ?_⟩
    intro p hp
    have hp' : p ∈ e := hp
    constructor
    · rw [List.append_nil]
      exact (hc p hp').1
    · intro q hq
      rw [List.append_nil] at hq
      exact (hc p hp').2 q hq
  | cons c cs ih =>
    intro e past ha hb hc hd
    have hstep := update_topk_step k e past c ha hb hc hd
    have hfold : topk_fold_from k e (c :: cs)
        = topk_fold_from k (update_topk k e c.1 c.2) cs := rfl
    rw [hfold]
    have hres := ih (update_topk k e c.1 c.2) (past ++ [c])
      hstep.1 hstep.2.1 hstep.2.2.1 hstep.2.2.2
    refine ⟨hres.1, hres.2.1, ?_⟩
    intro p hp
    have h2 := hres.2.2 p hp
    rw [List.append_assoc, List.singleton_append] at h2
    exact h2

/-- C7: every emitted cell list has at most K entries with pairwise
distinct sites, is sorted by `(time asc, site asc)`, and each entry is a
filtered candidate whose time is minimal among the cell's filtered
occurrences of its site. The claim's further assertion that the retained
set is plain bounded top-K of the deduplicated candidates is refuted
separately. -/
theorem hex_cell_topk_spec (k unreachable : ℕ) (cands : List (ℤ × ℕ)) :
    (hex_cell_topk k unreachable cands).length ≤ k ∧
    ((hex_cell_topk k unreachable cands).map Prod.fst).Nodup ∧
    List.Sorted hexLe (hex_cell_topk k unreachable cands) ∧
    ∀ p ∈ hex_cell_topk k unreachable cands,
      p ∈ hex_filter unreachable cands ∧
      ∀ q ∈ hex_filter unreachable cands, q.1 = p.1 → p.2 ≤ q.2 := by
  have hinv := topk_fold_inv k (hex_filter unreachable cands) [] []
    (Nat.zero_le k) List.nodup_nil
    (by intro p hp; exact absurd hp (List.not_mem_nil _))
    (by intro q hq; exact absurd hq (List.not_mem_nil _))
  have hperm : (hex_cell_topk k unreachable cands).Perm
      (topk_fold_from k [] (hex_filter unreachable cands)) := by
    unfold hex_cell_topk
    exact List.perm_insertionSort hexLe _
  refine ⟨?_, ?_, ?_, ?_⟩
  · rw [hperm.length_eq]
    exact hinv.1
  · exact (List.Perm.nodup_iff (hperm.map Prod.fst)).mpr hinv.2.1
  · exact List.sorted_insertionSort hexLe _
  · intro p hp
    have hp2 := hperm.mem_iff.mp hp
    have h2 := hinv.2.2 p hp2
    rw [List.nil_append] at h2
    exact h2

lemma lookup_mem {m : List (ℤ × ℕ)} {x : ℤ} {i : ℕ}
    (h : m.lookup x = some i) : (x, i) ∈ m := by
  induction m with
  | nil => exact Option.noConfusion h
  | cons a rest ih =>
    obtain ⟨kk, vv⟩ := a
    rw [List.lookup] at h
    split at h
    · injection h with h
      subst h
      have hk : kk = x := by
        rename_i hbeq
        exact (beq_iff_eq.mp hbeq).symm
      rw [← hk]
      exact List.mem_cons_self _ _
    · exact List.mem_cons_of_mem _ (ih h)

lemma node_map_entries (node_ids : List ℤ) :
    ∀ p ∈ node_map node_ids, p.2 < node_ids.length := by
  have hgen : ∀ (l : List ℕ) (m0 : List (ℤ × ℕ)),
      (∀ i ∈ l, i < node_ids.length) →
      (∀ p ∈ m0, p.2 < node_ids.length) →
      ∀ p ∈ l.foldl (fun m i => (node_ids.getD i 0, i) :: m) m0,
        p.2 < node_ids.length := by
    intro l
    induction l with
    | nil =>
      intro m0 _ hm p hp
      exact hm p hp
    | cons j js ih =>
      intro m0 hl hm p hp
      rw [List.foldl_cons] at hp
      refine ih _ (fun i hi => hl i (List.mem_cons_of_mem _ hi)) ?_ p hp
      intro p' hp'
      cases List.mem_cons.mp hp' with
      | inl h2 =>
        rw [h2]
        exact hl j (List.mem_cons_self _ _)
      | inr h2 => exact hm p' h2
  exact fun p hp => hgen (List.range node_ids.length) []
    (fun i hi => List.mem_range.mp hi)
    (fun p' hp' => absurd hp' (List.not_mem_nil _)) p hp

lemma node_map_lt (node_ids : List ℤ) (x : ℤ) (i : ℕ)
    (h : (node_map node_ids).lookup x = some i) : i < node_ids.length :=
  node_map_entries node_ids (x, i) (lookup_mem h)

/-- Every emitted edge endpoint is an index into the node list. -/
lemma emitted_edges_lt (node_ids u v : List ℤ) (oneway w : List ℕ) :
    ∀ e ∈ emitted_edges node_ids u v oneway w,
      e.1 < node_ids.length ∧ e.2.1 < node_ids.length := by
  have hgen : ∀ (l : List ℕ) (es0 : List (ℕ × ℕ × ℕ)),
      (∀ e ∈ es0, e.1 < node_ids.length ∧ e.2.1 < node_ids.length) →
      ∀ e ∈ l.foldl (fun es i =>
        match (node_map node_ids).lookup (u.getD i 0),
              (node_map node_ids).lookup (v.getD i 0) with
        | some su, some sv =>
          es ++ [(su, sv, w.getD i 0)]
            ++ (if oneway.getD i 0 = 0 then [(sv, su, w.getD i 0)] else [])
        | _, _ => es) es0,
        e.1 < node_ids.length ∧ e.2.1 < node_ids.length := by
    intro l
    induction l with
    | nil =>
      intro es0 hm e he
      exact hm e he
    | cons j js ih =>
      intro es0 hm e he
      rw [List.foldl_cons] at he
      refine ih _ ?_ e he
      intro e' he'
      cases hsu : (node_map node_ids).lookup (u.getD j 0) with
      | none =>
        rw [hsu] at he'
        exact hm e' he'
      | some su =>
        cases hsv : (node_map node_ids).lookup (v.getD j 0) with
        | none =>
          rw [hsu, hsv] at he'
          exact hm e' he'
        | some sv =>
          rw [hsu, hsv] at he'
          have hsu2 := node_map_lt node_ids _ su hsu
          have hsv2 := node_map_lt node_ids _ sv hsv
          dsimp only at he'
          rw [List.mem_append, List.mem_append] at he'
          rcases he' with (he2 | he2) | he2
          · exact hm e' he2
          · rw [List.mem_singleton.mp he2]
            exact ⟨hsu2, hsv2⟩
          · by_cases how : oneway.getD j 0 = 0
            · rw [if_pos how] at he2
              rw [List.mem_singleton.mp he2]
              exact ⟨hsv2, hsu2⟩
            · rw [if_neg how] at he2
              exact absurd he2 (List.not_mem_nil _)
  exact fun e he => hgen (List.range u.length) []
    (fun e' he' => absurd he' (List.not_mem_nil _)) e he

lemma sum_set_incr (c : List ℕ) (i : ℕ) (h : i < c.length) :
    (c.set i (c.getD i 0 + 1)).sum = c.sum + 1 := by
  induction c generalizing i with
  | nil => exact absurd h (by simp)
  | cons a rest ih =>
    cases i with
    | zero =>
      rw [List.set_cons_zero, List.sum_cons, List.sum_cons,
        List.getD_cons_zero]
      omega
    | succ n =>
      rw [List.set_cons_succ, List.sum_cons, List.sum_cons,
        List.getD_cons_succ, ih n (by simpa using h)]
      omega

lemma sum_replicate_zero : ∀ n : ℕ, (List.replicate n 0).sum = 0 := by
  intro n
  induction n with
  | zero => rfl
  | succ m ih => rw [List.replicate_succ, List.sum_cons, ih]

lemma counts_fold_sum :
    ∀ (es : List (ℕ × ℕ × ℕ)) (c : List ℕ),
      (∀ e ∈ es, e.1 < c.length) →
      (es.foldl (fun c e => c.set e.1 (c.getD e.1 0 + 1)) c).sum
        = c.sum + es.length := by
  intro es
  induction es with
  | nil =>
    intro c _
    rfl
  | cons e es2 ih =>
    intro c hlt
    rw [List.foldl_cons, ih _ ?_, sum_set_incr c e.1
      (hlt e (List.mem_cons_self _ _)), List.length_cons]
    · omega
    · intro e' he'
      rw [List.length_set]
      exact hlt e' (List.mem_cons_of_mem _ he')

lemma csr_counts_sum (n : ℕ) (es : List (ℕ × ℕ × ℕ))
    (h : ∀ e ∈ es, e.1 < n) : (csr_counts n es).sum = es.length := by
  unfold csr_counts
  rw [counts_fold_sum es _ (by rw [List.length_replicate]; exact h),
    sum_replicate_zero]
  omega

lemma counts_fold_getD (u0 : ℕ) :
    ∀ (es : List (ℕ × ℕ × ℕ)) (c : List ℕ),
      (∀ e ∈ es, e.1 < c.length) →
      (es.foldl (fun c e => c.set e.1 (c.getD e.1 0 + 1)) c).getD u0 0
        = c.getD u0 0 + es.countP (fun e => decide (e.1 = u0)) := by
  intro es
  induction es with
  | nil =>
    intro c _
    rfl
  | cons e es2 ih =>
    intro c hlt
    rw [List.foldl_cons, ih _ ?_, List.countP_cons]
    · rw [getD_set_general]
      by_cases hc : e.1 = u0 ∧ e.1 < c.length
      · rw [if_pos hc]
        have hdec : decide (e.1 = u0) = true := decide_eq_true hc.1
        rw [hdec, if_pos rfl, hc.1]
        omega
      · rw [if_neg hc]
        have hne : ¬ e.1 = u0 := by
          intro hq
          exact hc ⟨hq, hlt e (List.mem_cons_self _ _)⟩
        have : decide (e.1 = u0) = false := decide_eq_false hne
        rw [this]
        simp only [Bool.false_eq_true, if_false]
        omega
    · intro e' he'
      rw [List.length_set]
      exact hlt e' (List.mem_cons_of_mem _ he')

lemma getD_replicate_zero (n j : ℕ) :
    (List.replicate n (0 : ℕ)).getD j 0 = 0 :=
  getD_replicate 0 n j

lemma csr_counts_getD (n u0 : ℕ) (es : List (ℕ × ℕ × ℕ))
    (h : ∀ e ∈ es, e.1 < n) :
    (csr_counts n es).getD u0 0
      = es.countP (fun e => decide (e.1 = u0)) := by
  unfold csr_counts
  rw [counts_fold_getD u0 es _ (by rw [List.length_replicate]; exact h),
    getD_replicate_zero]
  omega

lemma scanl_getD_take :
    ∀ (c : List ℕ) (u0 b : ℕ), u0 ≤ c.length →
      (c.scanl (fun a x => a + x) b).getD u0 0 = b + (c.take u0).sum := by
  intro c
  induction c with
  | nil =>
    intro u0 b h
    have : u0 = 0 := by simpa using h
    subst this
    rfl
  | cons x xs ih =>
    intro u0 b h
    cases u0 with
    | zero => rfl
    | succ m =>
      rw [List.scanl_cons, List.singleton_append, List.getD_cons_succ,
        ih m (b + x) (by simpa using h), List.take_succ_cons,
        List.sum_cons]
      omega

lemma countP_lt_succ (u0 : ℕ) :
    ∀ es : List (ℕ × ℕ × ℕ),
      es.countP (fun e => decide (e.1 < u0 + 1))
        = es.countP (fun e => decide (e.1 < u0))
          + es.countP (fun e => decide (e.1 = u0)) := by
  intro es
  induction es with
  | nil => rfl
  | cons e es2 ih =>
    simp only [List.countP_cons, ih, decide_eq_true_eq]
    split_ifs with h1 h2 h3 <;> omega

lemma counts_fold_length :
    ∀ (es : List (ℕ × ℕ × ℕ)) (c : List ℕ),
      (es.foldl (fun c e => c.set e.1 (c.getD e.1 0 + 1)) c).length
        = c.length := by
  intro es
  induction es with
  | nil =>
    intro c
    rfl
  | cons e es2 ih =>
    intro c
    rw [List.foldl_cons, ih, List.length_set]

lemma csr_counts_length (n : ℕ) (es : List (ℕ × ℕ × ℕ)) :
    (csr_counts n es).length = n := by
  unfold csr_counts
  rw [counts_fold_length, List.length_replicate]

lemma sum_take_succ :
    ∀ (l : List ℕ) (u0 : ℕ), u0 < l.length →
      (l.take (u0 + 1)).sum = (l.take u0).sum + l.getD u0 0 := by
  intro l
  induction l with
  | nil =>
    intro u0 h
    exact absurd h (by simp)
  | cons a rest ih =>
    intro u0 h
    cases u0 with
    | zero => simp
    | succ m =>
      rw [List.take_succ_cons, List.take_succ_cons, List.sum_cons,
        List.sum_cons, List.getD_cons_succ, ih m (by simpa using h)]
      omega

lemma take_counts_sum (n : ℕ) (es : List (ℕ × ℕ × ℕ))
    (h : ∀ e ∈ es, e.1 < n) :
    ∀ u0, u0 ≤ n →
      ((csr_counts n es).take u0).sum
        = es.countP (fun e => decide (e.1 < u0)) := by
  intro u0
  induction u0 with
  | zero =>
    intro _
    have hz : es.countP (fun e => decide (e.1 < 0)) = 0 := by
      rw [List.countP_eq_zero]
      intro e he
      simp
    rw [List.take_zero, hz]
    rfl
  | succ m ih =>
    intro hm
    rw [sum_take_succ _ m (by rw [csr_counts_length]; omega),
      ih (by omega), csr_counts_getD n m es h, countP_lt_succ]

lemma take_countP_filter (u0 : ℕ) :
    ∀ l : List (ℕ × ℕ × ℕ), List.Sorted csrLe l → (∀ e ∈ l, u0 ≤ e.1) →
      l.take (l.countP (fun e => decide (e.1 = u0)))
        = l.filter (fun e => decide (e.1 = u0)) := by
  intro l
  induction l with
  | nil =>
    intro _ _
    rfl
  | cons a l2 ih =>
    intro hs hge
    have hs2 := List.sorted_cons.mp hs
    by_cases ha : a.1 = u0
    · have hd : decide (a.1 = u0) = true := decide_eq_true ha
      rw [List.countP_cons, hd, if_pos rfl, List.take_succ_cons,
        List.filter_cons, if_pos hd, ih hs2.2 ?_]
      intro b hb
      have := hs2.1 b hb
      unfold csrLe at this
      omega
    · have hgt : u0 < a.1 :=
        lt_of_le_of_ne (hge a (List.mem_cons_self _ _))
          (fun h => ha h.symm)
      have hcz : (a :: l2).countP (fun e => decide (e.1 = u0)) = 0 := by
        rw [List.countP_eq_zero]
        intro b hb
        simp only [decide_eq_true_eq]
        cases List.mem_cons.mp hb with
        | inl h2 => rw [h2]; omega
        | inr h2 =>
          have := hs2.1 b h2
          unfold csrLe at this
          omega
      rw [hcz, List.take_zero]
      symm
      rw [List.filter_eq_nil]
      intro b hb
      simp only [decide_eq_true_eq]
      cases List.mem_cons.mp hb with
      | inl h2 => rw [h2]; omega
      | inr h2 =>
        have := hs2.1 b h2
        unfold csrLe at this
        omega

lemma drop_countP_filter (u0 : ℕ) :
    ∀ l : List (ℕ × ℕ × ℕ), List.Sorted csrLe l →
      ((l.drop (l.countP (fun e => decide (e.1 < u0)))).take
          (l.countP (fun e => decide (e.1 = u0))))
        = l.filter (fun e => decide (e.1 = u0)) := by
  intro l
  induction l with
  | nil =>
    intro _
    rfl
  | cons a l2 ih =>
    intro hs
    have hs2 := List.sorted_cons.mp hs
    rcases Nat.lt_trichotomy a.1 u0 with hlt | heq | hgt
    · have hd1 : decide (a.1 < u0) = true := decide_eq_true hlt
      have hd2 : decide (a.1 = u0) = false := decide_eq_false (by omega)
      rw [List.countP_cons, List.countP_cons, hd1, if_pos rfl, hd2]
      simp only [Bool.false_eq_true, if_false, Nat.add_zero]
      rw [List.drop_succ_cons, List.filter_cons, if_neg (by simp [hd2])]
      exact ih hs2.2
    · have hcz : (a :: l2).countP (fun e => decide (e.1 < u0)) = 0 := by
        rw [List.countP_eq_zero]
        intro b hb
        simp only [decide_eq_true_eq]
        cases List.mem_cons.mp hb with
        | inl h2 => rw [h2]; omega
        | inr h2 =>
          have := hs2.1 b h2
          unfold csrLe at this
          omega
      rw [hcz, List.drop_zero]
      refine take_countP_filter u0 (a :: l2) hs ?_
      intro b hb
      cases List.mem_cons.mp hb with
      | inl h2 => rw [h2]; omega
      | inr h2 =>
        have := hs2.1 b h2
        unfold csrLe at this
        omega
    · have hcz1 : (a :: l2).countP (fun e => decide (e.1 < u0)) = 0 := by
        rw [List.countP_eq_zero]
        intro b hb
        simp only [decide_eq_true_eq]
        cases List.mem_cons.mp hb with
        | inl h2 => rw [h2]; omega
        | inr h2 =>
          have := hs2.1 b h2
          unfold csrLe at this
          omega
      have hcz2 : (a :: l2).countP (fun e => decide (e.1 = u0)) = 0 := by
        rw [List.countP_eq_zero]
        intro b hb
        simp only [decide_eq_true_eq]
        cases List.mem_cons.mp hb with
        | inl h2 => rw [h2]; omega
        | inr h2 =>
          have := hs2.1 b h2
          unfold csrLe at this
          omega
      rw [hcz1, hcz2, List.drop_zero, List.take_zero]
      symm
      rw [List.filter_eq_nil]
      intro b hb
      simp only [decide_eq_true_eq]
      cases List.mem_cons.mp hb with
      | inl h2 => rw [h2]; omega
      | inr h2 =>
        have := hs2.1 b h2
        unfold csrLe at this
        omega

/-- C8: on success, `indptr[N]` is the total number of emitted directed
edges (doubling non-one-ways, dropping unknown endpoints), every row
slice `indices[indptr[u] .. indptr[u+1]]` is sorted ascending, and the
returned indices and weights are the per-edge projections of one
`(src, dst)`-sorted permutation of the emitted edges, so the weights are
permuted in parallel with the sort. -/
theorem build_csr_spec (node_ids u v : List ℤ) (oneway w : List ℕ)
    (indptr indices wout : List ℕ)
    (h : build_csr_from_arrays node_ids u v oneway w
      = some (indptr, indices, wout)) :
    indptr.getD node_ids.length 0
      = (emitted_edges node_ids u v oneway w).length ∧
    (∀ u0 : ℕ, List.Sorted (fun a b => a ≤ b)
      ((indices.drop (indptr.getD u0 0)).take
        (indptr.getD (u0 + 1) 0 - indptr.getD u0 0))) ∧
    ∃ es : List (ℕ × ℕ × ℕ),
      es.Perm (emitted_edges node_ids u v oneway w) ∧
      List.Sorted csrLe es ∧
      indices = es.map (fun e => e.2.1) ∧
      wout = es.map (fun e => e.2.2) := by
  unfold build_csr_from_arrays at h
  split at h
  · injection h with h
    rw [Prod.mk.injEq, Prod.mk.injEq] at h
    obtain ⟨h1, h2, h3⟩ := h
    have hperm := List.perm_insertionSort csrLe
      (emitted_edges node_ids u v oneway w)
    have hsorted := List.sorted_insertionSort csrLe
      (emitted_edges node_ids u v oneway w)
    set S := List.insertionSort csrLe (emitted_edges node_ids u v oneway w)
      with hS
    have hlt : ∀ e ∈ S, e.1 < node_ids.length := by
      intro e he
      exact (emitted_edges_lt node_ids u v oneway w e
        (hperm.mem_iff.mp he)).1
    have hcountsS : (csr_counts node_ids.length S).length
        = node_ids.length := csr_counts_length _ _
    have hip : indptr
        = (csr_counts node_ids.length S).scanl (fun a b => a + b) 0 :=
      h1.symm
    refine ⟨?_, ?_, S, hperm, hsorted, h2.symm, h3.symm⟩
    · have htake : (csr_counts node_ids.length S).take node_ids.length
          = csr_counts node_ids.length S := by
        have hT := List.take_length (csr_counts node_ids.length S)
        rw [hcountsS] at hT
        exact hT
      rw [hip, scanl_getD_take _ _ _ (by rw [hcountsS]), htake,
        csr_counts_sum _ _ hlt, hperm.length_eq]
      omega
    · intro u0
      by_cases hu0 : u0 < node_ids.length
      · have hipu : indptr.getD u0 0
            = S.countP (fun e => decide (e.1 < u0)) := by
          rw [hip, scanl_getD_take _ _ _ (by rw [hcountsS]; omega),
            take_counts_sum node_ids.length S hlt u0 (by omega)]
          omega
        have hipu1 : indptr.getD (u0 + 1) 0
            = S.countP (fun e => decide (e.1 < u0 + 1)) := by
          rw [hip, scanl_getD_take _ _ _ (by rw [hcountsS]; omega),
            take_counts_sum node_ids.length S hlt (u0 + 1) (by omega)]
          omega
        have hamt : indptr.getD (u0 + 1) 0 - indptr.getD u0 0
            = S.countP (fun e => decide (e.1 = u0)) := by
          rw [hipu, hipu1, countP_lt_succ]
          omega
        rw [hamt, hipu, ← h2]
        have hslice : ((S.map (fun e => e.2.1)).drop
              (S.countP (fun e => decide (e.1 < u0)))).take
              (S.countP (fun e => decide (e.1 = u0)))
            = ((S.drop (S.countP (fun e => decide (e.1 < u0)))).take
              (S.countP (fun e => decide (e.1 = u0)))).map
                (fun e => e.2.1) := by
          rw [← List.map_drop, ← List.map_take]
        rw [hslice, drop_countP_filter u0 S hsorted]
        refine List.pairwise_map.mpr ?_
        refine List.Pairwise.imp_of_mem ?_ (hsorted.filter _)
        intro a b ha hb hab
        have ha3 : a.1 = u0 := of_decide_eq_true (List.mem_filter.mp ha).2
        have hb3 : b.1 = u0 := of_decide_eq_true (List.mem_filter.mp hb).2
        unfold csrLe at hab
        omega
      · have hlen2 : indptr.length = node_ids.length + 1 := by
          rw [hip, List.length_scanl, hcountsS]
        have hz : indptr.getD (u0 + 1) 0 = 0 :=
          List.getD_eq_default _ _ (by omega)
        rw [hz, Nat.zero_sub, List.take_zero]
        exact List.sorted_nil
  · exact Option.noConfusion h

/-- The CSR builder spec applied to a concrete two-node graph: one
non-one-way edge doubles, the edge to the unknown node id 30 is dropped. -/
theorem build_csr_spec_witness :
    ([0, 1, 2] : List ℕ).getD ([10, 20] : List ℤ).length 0
      = (emitted_edges [10, 20] [10, 20] [20, 30] [0, 1] [7, 9]).length :=
  (build_csr_spec [10, 20] [10, 20] [20, 30] [0, 1] [7, 9]
    [0, 1, 2] [1, 0] [7, 7] (by decide)).1

/-- On the concrete hierarchy `c6g` with source 3 the bounds theorem
applies: the source distance is 0. -/
theorem run_phast_bounds_witness :
    ([INF, 5, INF, 0] : List ℕ).getD 3 INF = 0 ∧
    (∀ v, ([INF, 5, INF, 0] : List ℕ).getD v INF = INF ∨
      ([INF, 5, INF, 0] : List ℕ).getD v INF ≤ INF) :=
  ⟨(run_phast_bounds c6g 3 INF 100 [INF, 5, INF, 0]
      (by decide) (by decide)).1,
   (run_phast_bounds c6g 3 INF 100 [INF, 5, INF, 0]
      (by decide) (by decide)).2.1⟩

end Townscout
